import Mathlib

/-! # go-clean-onnxruntime: tensor encoding, detection decoding and box geometry

A shallow embedding of `src/onnx/boundingbox.go` and `src/onnx/processor.go`.

Conventions of the embedding

* Target platform: 64-bit (`int` and `uint` are 64 bits wide, arithmetic wraps
  modulo `2^64`), with the amd64 float-to-int conversion.
* `float32` is IEEE-754 binary32 with round-to-nearest-even (`F32`): every finite
  value is an integer multiple of `2^-149`, stored as sign and magnitude.
* A Go slice is a list whose capacity equals its length; Go guarantees that
  lengths are below `2^63`.
* A run-time panic is the `error` branch of `Except Panic`; a `nil` slice result
  is `none`.  Allocation (`make`) is assumed to succeed, and the text written by
  `fmt.Printf` is not part of the state.
* The standard library `image` geometry is transcribed; `sort.Slice` and
  `resize.Resize` are external and enter as parameters.
-/

namespace Onnx

/-! ## Machine integers -/

/-- Two's-complement wrap of a mathematical integer into `int` (64 bits). -/
def wrapInt (x : Int) : Int := (x + 2 ^ 63) % 2 ^ 64 - 2 ^ 63

/-- Wrap of a natural number into `uint` (64 bits). -/
def wrapUint (x : Nat) : Nat := x % 2 ^ 64

/-- The conversion `int(u)` of a `uint`. -/
def intOfUint (u : Nat) : Int := wrapInt (u : Int)

/-- The conversion `uint(i)` of an `int`. -/
def uintOfInt (i : Int) : Nat := (i % 2 ^ 64).toNat

/-- Run-time panics raised by indexing and slicing. -/
inductive Panic where
  | indexOutOfRange (i : Int) (len : Nat)
  | sliceBounds (lo hi cap : Nat)
  deriving DecidableEq, Repr

deriving instance DecidableEq for Except

/-- The index expression `l[i]` with an `int` index. -/
def index {α : Type} (l : List α) (i : Int) : Except Panic α :=
  if 0 ≤ i then
    match l[i.toNat]? with
    | some a => .ok a
    | none => .error (.indexOutOfRange i l.length)
  else .error (.indexOutOfRange i l.length)

/-- The loop `for i := 0; i < n; i++ { body }` over an `int` counter, threading
the loop-carried state and stopping at the first panic. -/
def forRange {σ : Type} (n : Int) (body : Nat → σ → Except Panic σ) (s : σ) :
    Except Panic σ :=
  (List.range n.toNat).foldlM (fun st i => body i st) s

/-! ## float32 -/

/-- Floor of the binary logarithm, by halving (`fuel` bounds the number of steps). -/
def log2Aux : Nat → Nat → Nat
  | 0, _ => 0
  | fuel + 1, n => if n < 2 then 0 else log2Aux fuel (n / 2) + 1

/-- Floor of the binary logarithm of `n` (`0` for `n = 0`). -/
def ilog2 (n : Nat) : Nat := log2Aux n n

/-- Round the non-negative rational `n / d`, counted in units of `2^-149`, to the
nearest binary32 magnitude (ties to even), before the overflow test.  Below
`2^24` units the spacing is one unit (subnormals and the first binade); above,
the spacing is `2^(e-23)` for `2^e ≤ n/d < 2^(e+1)`. -/
def roundMag (n d : Nat) : Nat :=
  let q := n / d
  let s := if q < 2 ^ 24 then 0 else ilog2 q - 23
  let D := d * 2 ^ s
  let m := n / D
  let r := n % D
  let m1 := if 2 * r < D then m else if D < 2 * r then m + 1 else if m % 2 = 0 then m else m + 1
  m1 * 2 ^ s

/-- IEEE-754 binary32.  `fin neg k` is the finite value `(-1)^neg · k · 2^-149`;
all NaNs are identified. -/
inductive F32 where
  | nan : F32
  | inf (neg : Bool) : F32
  | fin (neg : Bool) (mag : Nat) : F32
  deriving DecidableEq, Repr

namespace F32

/-- A rounded magnitude becomes infinite from `2^128` (counted in units of `2^-149`) on. -/
def ofMag (neg : Bool) (k : Nat) : F32 := if k < 2 ^ 128 * 2 ^ 149 then fin neg k else inf neg

/-- Round `(-1)^neg · n / d` units to binary32. -/
def round (neg : Bool) (n d : Nat) : F32 := ofMag neg (roundMag n d)

/-- The conversion `float32(i)` of an `int`. -/
def ofInt (i : Int) : F32 := round (decide (i < 0)) (i.natAbs * 2 ^ 149) 1

/-- The conversion `float32(u)` of an unsigned integer. -/
def ofNat (u : Nat) : F32 := round false (u * 2 ^ 149) 1

/-- The float32 value of the non-negative decimal constant `num / den`. -/
def lit (num den : Nat) : F32 := round false (num * 2 ^ 149) den

/-- Unary minus. -/
def neg : F32 → F32
  | nan => nan
  | inf s => inf (!s)
  | fin s k => fin (!s) k

/-- Addition `x + y`. -/
def add : F32 → F32 → F32
  | nan, _ => nan
  | _, nan => nan
  | inf a, inf b => if a = b then inf a else nan
  | inf a, fin _ _ => inf a
  | fin _ _, inf b => inf b
  | fin a x, fin b y =>
    if a = b then round a (x + y) 1
    else if x = y then fin false 0
    else if y < x then round a (x - y) 1
    else round b (y - x) 1

/-- Subtraction `x - y`. -/
def sub (x y : F32) : F32 := add x (neg y)

/-- Multiplication `x * y`. -/
def mul : F32 → F32 → F32
  | nan, _ => nan
  | _, nan => nan
  | inf a, inf b => inf (xor a b)
  | inf a, fin b y => if y = 0 then nan else inf (xor a b)
  | fin a x, inf b => if x = 0 then nan else inf (xor a b)
  | fin a x, fin b y => round (xor a b) (x * y) (2 ^ 149)

/-- Division `x / y`; a zero divisor gives NaN or an infinity, never a panic. -/
def div : F32 → F32 → F32
  | nan, _ => nan
  | _, nan => nan
  | inf _, inf _ => nan
  | inf a, fin b _ => inf (xor a b)
  | fin a _, inf b => fin (xor a b) 0
  | fin a x, fin b y =>
    if y = 0 then (if x = 0 then nan else inf (xor a b))
    else round (xor a b) (x * 2 ^ 149) y

/-- The signed count of units of a finite value. -/
def signed (s : Bool) (k : Nat) : Int := if s then -(k : Int) else (k : Int)

/-- The comparison `x < y`; false as soon as one side is NaN. -/
def lt : F32 → F32 → Bool
  | nan, _ => false
  | _, nan => false
  | inf a, inf b => a && !b
  | inf a, fin _ _ => a
  | fin _ _, inf b => !b
  | fin a x, fin b y => decide (signed a x < signed b y)

/-- The comparison `x == y`; false as soon as one side is NaN, true for `-0 == 0`. -/
def eq : F32 → F32 → Bool
  | nan, _ => false
  | _, nan => false
  | inf a, inf b => a == b
  | inf _, fin _ _ => false
  | fin _ _, inf _ => false
  | fin a x, fin b y => decide (signed a x = signed b y)

/-- The comparison `x <= y`. -/
def le (x y : F32) : Bool := lt x y || eq x y

/-- The comparison `x > y`. -/
def gt (x y : F32) : Bool := lt y x

/-- The comparison `x >= y`. -/
def ge (x y : F32) : Bool := le y x

/-- The conversion `int(x)`: truncation toward zero; NaN, infinities and values
outside `int` give the amd64 result `-2^63`. -/
def toInt : F32 → Int
  | fin s k =>
    let v := signed s (k / 2 ^ 149)
    if -(2 ^ 63 : Int) ≤ v ∧ v < 2 ^ 63 then v else -(2 ^ 63)
  | _ => -(2 ^ 63)

/-- The constant `0`. -/
def zero : F32 := fin false 0

/-- The constant `1.0`. -/
def one : F32 := fin false (2 ^ 149)

/-- The constant `2`. -/
def two : F32 := fin false (2 * 2 ^ 149)

/-- The constant `255.0`. -/
def c255 : F32 := fin false (255 * 2 ^ 149)

/-- The constant `0.7`, the merge threshold: the nearest float32 is `11744051 · 2^-24`. -/
def c07 : F32 := fin false (11744051 * 2 ^ 125)

/-- The constant `-1e9`, the initial value of the running maximum; it is exactly
representable. -/
def negBillion : F32 := fin true (1000000000 * 2 ^ 149)

end F32

/-! ## Package `image`: points and rectangles -/

/-- The Go type `image.Point`. -/
structure Point where
  X : Int
  Y : Int
  deriving DecidableEq, Repr

/-- The Go type `image.Rectangle`. -/
structure Rectangle where
  Min : Point
  Max : Point
  deriving DecidableEq, Repr

/-- The zero rectangle `image.ZR`. -/
def ZR : Rectangle := ⟨⟨0, 0⟩, ⟨0, 0⟩⟩

/-- The constructor `image.Rect(x0, y0, x1, y1)`: coordinates are swapped where
needed so that the result is well-formed. -/
def Rect (x0 y0 x1 y1 : Int) : Rectangle :=
  let xs := if x0 > x1 then (x1, x0) else (x0, x1)
  let ys := if y0 > y1 then (y1, y0) else (y0, y1)
  ⟨⟨xs.1, ys.1⟩, ⟨xs.2, ys.2⟩⟩

namespace Rectangle

/-- The method `Canon`: swap minimum and maximum per axis where needed. -/
def Canon (r : Rectangle) : Rectangle :=
  let xs := if r.Max.X < r.Min.X then (r.Max.X, r.Min.X) else (r.Min.X, r.Max.X)
  let ys := if r.Max.Y < r.Min.Y then (r.Max.Y, r.Min.Y) else (r.Min.Y, r.Max.Y)
  ⟨⟨xs.1, ys.1⟩, ⟨xs.2, ys.2⟩⟩

/-- The method `Dx`: the width. -/
def Dx (r : Rectangle) : Int := wrapInt (r.Max.X - r.Min.X)

/-- The method `Dy`: the height. -/
def Dy (r : Rectangle) : Int := wrapInt (r.Max.Y - r.Min.Y)

/-- The method `Size`: width and height. -/
def Size (r : Rectangle) : Point := ⟨wrapInt (r.Max.X - r.Min.X), wrapInt (r.Max.Y - r.Min.Y)⟩

/-- The method `Empty`: the rectangle contains no point. -/
def Empty (r : Rectangle) : Bool := decide (r.Min.X ≥ r.Max.X) || decide (r.Min.Y ≥ r.Max.Y)

/-- The method `Intersect`: the largest rectangle contained in both, or `ZR`. -/
def Intersect (r s : Rectangle) : Rectangle :=
  let minX := if r.Min.X < s.Min.X then s.Min.X else r.Min.X
  let minY := if r.Min.Y < s.Min.Y then s.Min.Y else r.Min.Y
  let maxX := if r.Max.X > s.Max.X then s.Max.X else r.Max.X
  let maxY := if r.Max.Y > s.Max.Y then s.Max.Y else r.Max.Y
  let t : Rectangle := ⟨⟨minX, minY⟩, ⟨maxX, maxY⟩⟩
  if t.Empty then ZR else t

/-- The method `Overlaps`: the two rectangles have a non-empty intersection. -/
def Overlaps (r s : Rectangle) : Bool :=
  !r.Empty && !s.Empty &&
    decide (r.Min.X < s.Max.X) && decide (s.Min.X < r.Max.X) &&
    decide (r.Min.Y < s.Max.Y) && decide (s.Min.Y < r.Max.Y)

end Rectangle

/-! ## `boundingbox.go` -/

/-- A rectangular region of an image, with its label and confidence. -/
structure BoundingBox where
  Label : String
  Confidence : F32
  X1 : F32
  Y1 : F32
  X2 : F32
  Y2 : F32
  deriving DecidableEq, Repr

namespace BoundingBox

/-- The method `ToRect`: the box as a canonical integer rectangle. -/
def ToRect (b : BoundingBox) : Rectangle :=
  (Rect b.X1.toInt b.Y1.toInt b.X2.toInt b.Y2.toInt).Canon

/-- The method `RectArea`: the area of the integer rectangle. -/
def RectArea (b : BoundingBox) : Int :=
  let size := b.ToRect.Size
  wrapInt (size.X * size.Y)

/-- The method `Intersection`: the area of the intersection rectangle. -/
def Intersection (b other : BoundingBox) : F32 :=
  let r1 := b.ToRect
  let r2 := other.ToRect
  let intersected := (r1.Intersect r2).Canon.Size
  F32.ofInt (wrapInt (intersected.X * intersected.Y))

/-- The method `Union`: both areas added, less the intersection area. -/
def Union (b other : BoundingBox) : F32 :=
  let intersectArea := b.Intersection other
  let totalArea := F32.ofInt (wrapInt (b.RectArea + other.RectArea))
  F32.sub totalArea intersectArea

/-- The method `IoU`: intersection over union, an unguarded division. -/
def IoU (b other : BoundingBox) : F32 :=
  F32.div (b.Intersection other) (b.Union other)

end BoundingBox

/-! ## `processor.go` -/

/-- The four results of `Color.RGBA()`, each a `uint32`. -/
structure Color where
  r : Nat
  g : Nat
  b : Nat
  a : Nat
  deriving DecidableEq, Repr

/-- An `image.Image`: its bounds and the colour returned by `At(x, y).RGBA()`. -/
structure Image where
  Bounds : Rectangle
  At : Int → Int → Color

/-- The record `Processor`. -/
structure Processor where
  Image : Image
  ModelClasses : List String
  ModelHeight : Nat
  ModelWidth : Nat
  ModelInputChannels : Nat
  ModelOutputClasses : Nat
  ModelDetections : Nat
  ThresholdConfidence : F32

/-- Requirements that Go places on a less function handed to `sort.Slice`, on the
elements of the slice: a transitive ordering whose incomparability is transitive. -/
def StrictWeak {α : Type} (less : α → α → Bool) (l : List α) : Prop :=
  (∀ a ∈ l, less a a = false) ∧
  (∀ a ∈ l, ∀ b ∈ l, ∀ c ∈ l, less a b = true → less b c = true → less a c = true) ∧
  (∀ a ∈ l, ∀ b ∈ l, ∀ c ∈ l, less a b = false → less b c = false → less a c = false)

/-- The external `sort.Slice`: some rearrangement of the slice, ordered by `less`
whenever `less` meets the requirements on the elements of the slice; the order of
equal elements is not fixed. -/
structure SortSlice where
  run : {α : Type} → (α → α → Bool) → List α → List α
  perm : ∀ {α : Type} (less : α → α → Bool) (l : List α), (run less l).Perm l
  sorted : ∀ {α : Type} (less : α → α → Bool) (l : List α), StrictWeak less l →
    (run less l).Pairwise (fun a b => less b a = false)

/-- One admissible `sort.Slice`: insertion sort. -/
def insertionSortSlice : SortSlice where
  run less l := l.insertionSort (fun a b => less b a = false)
  perm less l := List.perm_insertionSort _ l
  sorted less l h := by
    have key : ∀ t : List _, (∀ x ∈ t, x ∈ l) →
        (t.insertionSort (fun a b => less b a = false)).Pairwise
          (fun a b => less b a = false) := by
      intro t
      induction t with
      | nil => intro _; exact List.Pairwise.nil
      | cons a t ih =>
        intro ht
        have ha : a ∈ l := ht a (List.mem_cons_self _ _)
        have hs := ih (fun x hx => ht x (List.mem_cons_of_mem _ hx))
        have hm : ∀ x ∈ t.insertionSort (fun a b => less b a = false), x ∈ l := fun x hx =>
          ht x (List.mem_cons_of_mem _ ((List.perm_insertionSort _ t).mem_iff.mp hx))
        show (List.orderedInsert _ a (t.insertionSort _)).Pairwise _
        generalize t.insertionSort (fun a b => less b a = false) = u at hs hm
        induction u with
        | nil => exact List.pairwise_singleton _ _
        | cons b u ihu =>
          have hb : b ∈ l := hm b (List.mem_cons_self _ _)
          rw [List.orderedInsert]
          split_ifs with hab
          · refine List.Pairwise.cons ?_ hs
            intro x hx
            rcases List.mem_cons.mp hx with rfl | hxu
            · exact hab
            · exact h.2.2 x (hm x hx) b hb a ha (List.rel_of_pairwise_cons hs hxu) hab
          · have hba : less b a = true := by simpa using hab
            have hab2 : less a b = false := by
              cases hx : less a b
              · rfl
              · have := h.2.1 a ha b hb a ha hx hba
                rw [h.1 a ha] at this
                cases this
            refine List.Pairwise.cons ?_
              (ihu (List.Pairwise.of_cons hs) (fun x hx => hm x (List.mem_cons_of_mem _ hx)))
            intro x hx
            rcases (List.mem_orderedInsert _).mp hx with rfl | hxu
            · exact hab2
            · exact List.rel_of_pairwise_cons hs hxu
    exact key l (fun _ hx => hx)

namespace Processor

/-- The body of the inner loop of `OutputFromData` for slot `idx` and class
`col`; the state is the running maximum `probability` and `classID`. -/
def scanStep (p : Processor) (output : List F32) (idx col : Nat) (st : F32 × Int) :
    Except Panic (F32 × Int) := do
  let currentProb ← index output
    (wrapInt (wrapInt (intOfUint p.ModelDetections * wrapInt ((col : Int) + 4)) + (idx : Int)))
  if F32.gt currentProb st.1 then pure (currentProb, (col : Int)) else pure st

/-- The inner loop of `OutputFromData` for slot `idx`: `probability` is reset to
`-1e9`, `classID` is kept from the previous slot. -/
def scanClasses (p : Processor) (output : List F32) (idx : Nat) (classID : Int) :
    Except Panic (F32 × Int) :=
  forRange (intOfUint p.ModelOutputClasses) (scanStep p output idx) (F32.negBillion, classID)

/-- The box of an accepted slot: its centre and size rescaled from model space by
`float32(p.Image.Bounds().Max.X)` and `float32(p.Image.Bounds().Max.Y)`. -/
def scaleBox (p : Processor) (label : String) (probability xc yc w h : F32) : BoundingBox :=
  let maxX := F32.ofInt p.Image.Bounds.Max.X
  let maxY := F32.ofInt p.Image.Bounds.Max.Y
  let x1 := F32.mul (F32.div (F32.sub xc (F32.div w F32.two)) (F32.ofNat p.ModelWidth)) maxX
  let y1 := F32.mul (F32.div (F32.sub yc (F32.div h F32.two)) (F32.ofNat p.ModelHeight)) maxY
  let x2 := F32.mul (F32.div (F32.add xc (F32.div w F32.two)) (F32.ofNat p.ModelWidth)) maxX
  let y2 := F32.mul (F32.div (F32.add yc (F32.div h F32.two)) (F32.ofNat p.ModelHeight)) maxY
  ⟨label, probability, x1, y1, x2, y2⟩

/-- The reads of an accepted slot `idx`: rows 0 to 3 of column `idx`, then the
class name; each read may panic. -/
def boxAt (p : Processor) (output : List F32) (idx : Nat) (probability : F32)
    (classID : Int) : Except Panic BoundingBox := do
  let xc ← index output (idx : Int)
  let yc ← index output (wrapInt (intOfUint p.ModelDetections + (idx : Int)))
  let w ← index output (wrapInt (wrapInt (2 * intOfUint p.ModelDetections) + (idx : Int)))
  let h ← index output (wrapInt (wrapInt (3 * intOfUint p.ModelDetections) + (idx : Int)))
  let label ← index p.ModelClasses classID
  pure (scaleBox p label probability xc yc w h)

/-- The body of the outer loop of `OutputFromData` for slot `idx`; the state is
`classID` and the boxes appended so far. -/
def decodeSlot (p : Processor) (output : List F32) (idx : Nat)
    (st : Int × List BoundingBox) : Except Panic (Int × List BoundingBox) := do
  let r ← scanClasses p output idx st.1
  if F32.lt r.1 p.ThresholdConfidence then pure (r.2, st.2)
  else do
    let box ← boxAt p output idx r.1 r.2
    pure (r.2, st.2 ++ [box])

/-- The first loop of `OutputFromData`: the candidate boxes, one per accepted slot. -/
def candidates (p : Processor) (output : List F32) : Except Panic (List BoundingBox) := do
  let st ← forRange (intOfUint p.ModelDetections) (decodeSlot p output) (0, [])
  pure st.2

/-- The inner loop of the merge pass: does the candidate overlap an accepted box? -/
def overlapsExisting (candidateBox : BoundingBox) (mergedResults : List BoundingBox) : Bool :=
  mergedResults.any (fun existingBox => F32.gt (candidateBox.IoU existingBox) F32.c07)

/-- One step of the merge pass. -/
def mergeStep (mergedResults : List BoundingBox) (candidateBox : BoundingBox) :
    List BoundingBox :=
  if overlapsExisting candidateBox mergedResults then mergedResults
  else mergedResults ++ [candidateBox]

/-- The merge pass over the sorted candidates. -/
def mergeBoxes (boundingBoxes : List BoundingBox) : List BoundingBox :=
  boundingBoxes.foldl mergeStep []

/-- The less function handed to `sort.Slice`. -/
def lessConfidence (a b : BoundingBox) : Bool := F32.lt a.Confidence b.Confidence

/-- The method `OutputFromData`: `none` is the nil slice of the guard. -/
def OutputFromData (S : SortSlice) (p : Processor) (output : List F32) :
    Except Panic (Option (List BoundingBox)) :=
  if (output.length : Int) < intOfUint (wrapUint (p.ModelDetections * p.ModelOutputClasses)) then
    pure none
  else do
    let boundingBoxes ← candidates p output
    pure (some (mergeBoxes (S.run lessConfidence boundingBoxes)))

/-- The test of the specification for keeping a candidate next to a kept box: their
IoU is at most 0.7. -/
def iouAtMost (candidate keptBox : BoundingBox) : Bool :=
  F32.le (candidate.IoU keptBox) F32.c07

/-- The test for keeping a candidate next to a kept box with NaN counted as
passing: their IoU is not above 0.7. -/
def iouNotAbove (candidate keptBox : BoundingBox) : Bool :=
  !F32.gt (candidate.IoU keptBox) F32.c07

/-- The greedy filter in the words of the specification: walking the sorted list
with the boxes kept so far, a candidate is kept if and only if it passes the test
`keep` against every box kept before it. -/
def greedyFilter (keep : BoundingBox → BoundingBox → Bool) (kept : List BoundingBox) :
    List BoundingBox → List BoundingBox
  | [] => kept
  | candidate :: rest =>
    if kept.all (keep candidate) then greedyFilter keep (kept ++ [candidate]) rest
    else greedyFilter keep kept rest

end Processor

/-- The external `resize.Resize(width, height, img, resize.Lanczos3)`. -/
abbrev Resize := Nat → Nat → Image → Image

/-- A sub-slice `data[off : off + len]`, sharing the elements of `data`. -/
structure Slice where
  off : Nat
  len : Nat
  deriving DecidableEq, Repr

/-- The slice expression `data[lo:hi]` with `uint` bounds, on a slice of capacity `cap`. -/
def slice (cap lo hi : Nat) : Except Panic Slice :=
  if lo ≤ hi ∧ hi ≤ cap then .ok ⟨lo, hi - lo⟩ else .error (.sliceBounds lo hi cap)

/-- The assignment `s[i] = v` through the sub-slice `s` of `data`. -/
def store (data : List F32) (s : Slice) (i : Int) (v : F32) : Except Panic (List F32) :=
  if 0 ≤ i ∧ i < (s.len : Int) then .ok (data.set (s.off + i.toNat) v)
  else .error (.indexOutOfRange i s.len)

/-- The value `float32(c>>8) / 255.0` written for a `uint32` channel value `c`. -/
def normalize (c : Nat) : F32 := F32.div (F32.ofNat ((c % 2 ^ 32) / 2 ^ 8)) F32.c255

/-- The error returned by `InputToData`, with the two numbers of its message. -/
structure SizeMismatch where
  holds : Nat
  needs : Nat
  deriving DecidableEq, Repr

/-- What `InputToData` leaves behind: the returned error (`none` is nil), the
image of the processor and the destination buffer. -/
structure InputResult where
  err : Option SizeMismatch
  Image : Image
  data : List F32

namespace Processor

/-- The value written for channel `c` (0 red, 1 green, 2 blue) of pixel `(x, y)`. -/
def normalize_of (img : Onnx.Image) (x y c : Nat) : F32 :=
  match c with
  | 0 => normalize (img.At (x : Int) (y : Int)).r
  | 1 => normalize (img.At (x : Int) (y : Int)).g
  | _ => normalize (img.At (x : Int) (y : Int)).b

/-- The body of the inner loop of `InputToData` for pixel `(x, y)`; the state is
the counter `i` and the buffer. -/
def fillPixel (img : Onnx.Image) (red green blue : Slice) (y x : Nat)
    (st : Int × List F32) : Except Panic (Int × List F32) := do
  let d1 ← store st.2 red st.1 (normalize (img.At (x : Int) (y : Int)).r)
  let d2 ← store d1 green st.1 (normalize (img.At (x : Int) (y : Int)).g)
  let d3 ← store d2 blue st.1 (normalize (img.At (x : Int) (y : Int)).b)
  pure (wrapInt (st.1 + 1), d3)

/-- The inner loop of `InputToData` for row `y`. -/
def fillRow (p : Processor) (img : Onnx.Image) (red green blue : Slice) (y : Nat)
    (st : Int × List F32) : Except Panic (Int × List F32) :=
  forRange (intOfUint p.ModelWidth) (fillPixel img red green blue y) st

/-- The method `InputToData`. -/
def InputToData (resize : Resize) (p : Processor) (data : List F32) :
    Except Panic InputResult :=
  let channelSize := wrapUint (p.ModelHeight * p.ModelWidth)
  if (data.length : Int) < intOfUint (wrapUint (channelSize * p.ModelInputChannels)) then
    pure ⟨some ⟨data.length, wrapUint (channelSize * p.ModelInputChannels)⟩, p.Image, data⟩
  else do
    let redChannel ← slice data.length 0 channelSize
    let greenChannel ← slice data.length channelSize (wrapUint (channelSize * 2))
    let blueChannel ← slice data.length (wrapUint (channelSize * 2)) (wrapUint (channelSize * 3))
    let originalBounds := p.Image.Bounds
    let originalWidth := originalBounds.Dx
    let originalHeight := originalBounds.Dy
    let img := resize p.ModelWidth p.ModelHeight p.Image
    let st ← forRange (intOfUint p.ModelHeight)
      (fillRow p img redChannel greenChannel blueChannel) (0, data)
    pure ⟨none, resize (uintOfInt originalWidth) (uintOfInt originalHeight) img, st.2⟩

end Processor

/-- Loop invariant of `InputToData`: the buffer `d` holds, in three planes of size
`cs` and rows of width `W`, the normalised channels of every pixel of `img` that
precedes `(x, y)` in row-major order. -/
def PlanesUpTo (img : Image) (W cs : Nat) (d : List F32) (y x : Nat) : Prop :=
  ∀ y1 x1, x1 < W → (y1 < y ∨ (y1 = y ∧ x1 < x)) →
    d[y1 * W + x1]? = some (Processor.normalize_of img x1 y1 0) ∧
    d[cs + (y1 * W + x1)]? = some (Processor.normalize_of img x1 y1 1) ∧
    d[cs * 2 + (y1 * W + x1)]? = some (Processor.normalize_of img x1 y1 2)

/-! ## Concrete inputs -/

/-- An image with the given bounds, black and transparent everywhere. -/
def blankImage (r : Rectangle) : Image := ⟨r, fun _ _ => ⟨0, 0, 0, 0⟩⟩

/-- The result of `RGBA()` on an 8-bit `color.RGBA` value: each channel times `0x101`. -/
def rgba8 (R G B A : Nat) : Color := ⟨R * 257, G * 257, B * 257, A * 257⟩

/-- An `image.RGBA` of one colour: `At` returns the colour for a point inside the
bounds and the zero colour for a point outside. -/
def solidImage (r : Rectangle) (c : Color) : Image :=
  ⟨r, fun x y =>
    if r.Min.X ≤ x ∧ x < r.Max.X ∧ r.Min.Y ≤ y ∧ y < r.Max.Y then c else ⟨0, 0, 0, 0⟩⟩

/-- A resampler that returns its input, as `resize.Resize` does for an image that
already has the requested size. -/
def keepImage : Resize := fun _ _ img => img

/-- The processor of `TestProcessorOutputFromData_SingleDetection`: one slot, two
classes, threshold 0.5, a 100×100 image and model. -/
def testProcessor : Processor :=
  ⟨blankImage (Rect 0 0 100 100), ["cat", "dog"], 100, 100, 3, 2, 1, F32.lit 5 10⟩

/-- The buffer of `TestProcessorOutputFromData_SingleDetection`. -/
def testOutput : List F32 :=
  [F32.lit 50 1, F32.lit 50 1, F32.lit 20 1, F32.lit 20 1, F32.lit 1 10, F32.lit 9 10]

/-- A buffer of three values: at least `1 × 2` but fewer than `1 × (4 + 2)`. -/
def shortOutput : List F32 := [F32.lit 50 1, F32.lit 50 1, F32.lit 20 1]

/-- A processor with a 2×2 model and an image of the colour (128, 64, 32, 255). -/
def smallProcessor : Processor :=
  ⟨solidImage (Rect 0 0 2 2) (rgba8 128 64 32 255), ["cat", "dog"], 2, 2, 3, 2, 1, F32.lit 5 10⟩

/-- The processor `smallProcessor` with its image moved off the origin: a 2×2 image
of the colour (128, 64, 32, 255) with bounds `image.Rect(10, 10, 12, 12)`. -/
def offsetProcessor : Processor :=
  ⟨solidImage (Rect 10 10 12 12) (rgba8 128 64 32 255), ["cat", "dog"], 2, 2, 3, 2, 1,
    F32.lit 5 10⟩

/-- A processor whose model height is `2^63`, with width 1 and three channels. -/
def tallProcessor : Processor :=
  ⟨blankImage (Rect 0 0 2 2), ["cat", "dog"], 2 ^ 63, 1, 3, 2, 1, F32.lit 5 10⟩

/-- A processor with one slot, one class and the threshold `-3e9`. -/
def lowProcessor : Processor :=
  ⟨blankImage (Rect 0 0 100 100), ["cat"], 100, 100, 3, 1, 1, F32.neg (F32.lit 3000000000 1)⟩

/-- A single-slot buffer whose only class score is `-2e9`. -/
def lowOutput : List F32 :=
  [F32.zero, F32.zero, F32.zero, F32.zero, F32.neg (F32.lit 2000000000 1)]

/-- The processor of the single-detection test with an image whose bounds are
`image.Rect(10, 10, 110, 110)`: 100 pixels wide and high, minimum corner off the origin. -/
def shiftedProcessor : Processor :=
  ⟨blankImage (Rect 10 10 110 110), ["cat", "dog"], 100, 100, 3, 2, 1, F32.lit 5 10⟩

/-- A processor with one slot, one class and the threshold `-1.5e9`. -/
def sentinelProcessor : Processor :=
  ⟨blankImage (Rect 0 0 100 100), ["cat"], 100, 100, 3, 1, 1, F32.neg (F32.lit 1500000000 1)⟩

/-- The processor of the single-detection test with a NaN threshold. -/
def nanProcessor : Processor :=
  ⟨blankImage (Rect 0 0 100 100), ["cat", "dog"], 100, 100, 3, 2, 1, F32.nan⟩

/-- The buffer of the single-detection test with both scores below `0.5`. -/
def quietOutput : List F32 :=
  [F32.lit 50 1, F32.lit 50 1, F32.lit 20 1, F32.lit 20 1, F32.lit 1 10, F32.lit 2 10]

/-- A processor with two slots and one class, threshold 0.5. -/
def twoSlotProcessor : Processor :=
  ⟨blankImage (Rect 0 0 100 100), ["cat"], 100, 100, 3, 1, 2, F32.lit 5 10⟩

/-- A two-slot buffer: both slots have centre `(50, 50)` and size `(20, 20)`; their
scores are `0.9` and `0.8`. -/
def twoSlotOutput : List F32 :=
  [F32.lit 50 1, F32.lit 50 1, F32.lit 50 1, F32.lit 50 1, F32.lit 20 1, F32.lit 20 1,
    F32.lit 20 1, F32.lit 20 1, F32.lit 9 10, F32.lit 8 10]

/-- The box decoded from either slot of `twoSlotOutput`, with the given confidence. -/
def twoSlotBox (confidence : F32) : BoundingBox :=
  twoSlotProcessor.scaleBox "cat" confidence (F32.lit 50 1) (F32.lit 50 1) (F32.lit 20 1)
    (F32.lit 20 1)

/-- The box `(0,0)-(10,10)` of `TestBoundingBox_RectArea`. -/
def tenBox : BoundingBox :=
  ⟨"", F32.zero, F32.lit 0 1, F32.lit 0 1, F32.lit 10 1, F32.lit 10 1⟩

/-- The box `(0,0)-(2^31,2^31)`, of area `2^62`. -/
def bigBox : BoundingBox :=
  ⟨"", F32.zero, F32.lit 0 1, F32.lit 0 1, F32.lit 2147483648 1, F32.lit 2147483648 1⟩

/-- The degenerate box `(0,0)-(0,0)`. -/
def pointBox : BoundingBox :=
  ⟨"", F32.zero, F32.lit 0 1, F32.lit 0 1, F32.lit 0 1, F32.lit 0 1⟩

/-- The degenerate box `(5,5)-(5,5)`. -/
def farPointBox : BoundingBox :=
  ⟨"", F32.zero, F32.lit 5 1, F32.lit 5 1, F32.lit 5 1, F32.lit 5 1⟩

/-- The box `(20,20)-(30,30)`, disjoint from `tenBox`. -/
def farBox : BoundingBox :=
  ⟨"", F32.zero, F32.lit 20 1, F32.lit 20 1, F32.lit 30 1, F32.lit 30 1⟩

/-- The box `(0,0)-(2^32,2^31)`, whose area `2^63` does not fit in `int`. -/
def wideBox : BoundingBox :=
  ⟨"", F32.zero, F32.lit 0 1, F32.lit 0 1, F32.lit 4294967296 1, F32.lit 2147483648 1⟩

/-- The box `(0.2,0.2)-(0.8,0.8)`, inside one pixel. -/
def fracBox : BoundingBox :=
  ⟨"", F32.zero, F32.lit 2 10, F32.lit 2 10, F32.lit 8 10, F32.lit 8 10⟩

/-- The box of `TestBoundingBox_ToRect` with its corners exchanged: `(5,6)-(1,2)`. -/
def swappedBox : BoundingBox :=
  ⟨"", F32.zero, F32.lit 5 1, F32.lit 6 1, F32.lit 1 1, F32.lit 2 1⟩

/-- The box `(5,5)-(15,15)` of `TestBoundingBox_Intersection_Union_IoU`. -/
def fifteenBox : BoundingBox :=
  ⟨"", F32.zero, F32.lit 5 1, F32.lit 5 1, F32.lit 15 1, F32.lit 15 1⟩

/-- The box `(0,0)-(1,2^25)`. -/
def tallBox : BoundingBox :=
  ⟨"", F32.zero, F32.lit 0 1, F32.lit 0 1, F32.lit 1 1, F32.lit 33554432 1⟩

/-- The box `(0,0)-(1,2^25+4)`, four pixels taller than `tallBox`. -/
def tallerBox : BoundingBox :=
  ⟨"", F32.zero, F32.lit 0 1, F32.lit 0 1, F32.lit 1 1, F32.lit 33554436 1⟩

/-- A processor with three slots and one class, threshold 0.05, on a 256×256 model
and image (so that rescaling is exact). -/
def threeSlotProcessor : Processor :=
  ⟨blankImage (Rect 0 0 256 256), ["cat"], 256, 256, 3, 1, 3, F32.lit 5 100⟩

/-- A three-slot buffer: boxes `(0,0)-(100,100)`, `(10,0)-(110,100)` and
`(20,0)-(120,100)` with scores `0.1`, `0.2` and `0.3`. -/
def threeSlotOutput : List F32 :=
  [F32.lit 50 1, F32.lit 60 1, F32.lit 70 1, F32.lit 50 1, F32.lit 50 1, F32.lit 50 1,
    F32.lit 100 1, F32.lit 100 1, F32.lit 100 1, F32.lit 100 1, F32.lit 100 1, F32.lit 100 1,
    F32.lit 1 10, F32.lit 2 10, F32.lit 3 10]

/-- The box decoded from a slot of `threeSlotOutput` with centre `(xc, 50)`. -/
def threeSlotBox (xc confidence : F32) : BoundingBox :=
  threeSlotProcessor.scaleBox "cat" confidence xc (F32.lit 50 1) (F32.lit 100 1)
    (F32.lit 100 1)

/-- A two-slot buffer of two boxes of size zero at `(50, 50)`, scores `0.8` and `0.9`. -/
def flatOutput : List F32 :=
  [F32.lit 50 1, F32.lit 50 1, F32.lit 50 1, F32.lit 50 1, F32.zero, F32.zero,
    F32.zero, F32.zero, F32.lit 8 10, F32.lit 9 10]

/-- The box decoded from either slot of `flatOutput`, with the given confidence. -/
def flatBox (confidence : F32) : BoundingBox :=
  twoSlotProcessor.scaleBox "cat" confidence (F32.lit 50 1) (F32.lit 50 1) F32.zero F32.zero

/-! ## Machine integers and loops: basic facts -/

theorem wrapInt_of_range (x : Int) (h0 : -(2 ^ 63 : Int) ≤ x) (h1 : x < 2 ^ 63) :
    wrapInt x = x := by
  unfold wrapInt
  omega

theorem intOfUint_of_lt (u : Nat) (h : u < 2 ^ 63) : intOfUint u = (u : Int) := by
  unfold intOfUint
  apply wrapInt_of_range <;> omega

theorem wrapUint_of_lt (u : Nat) (h : u < 2 ^ 64) : wrapUint u = u := by
  unfold wrapUint
  omega

theorem index_natCast {α : Type} (l : List α) (n : Nat) (a : α) (h : l[n]? = some a) :
    index l (n : Int) = .ok a := by
  unfold index
  simp [h]

theorem index_ok_iff {α : Type} (l : List α) (i : Int) (a : α) :
    index l i = .ok a ↔ 0 ≤ i ∧ l[i.toNat]? = some a := by
  unfold index
  split_ifs with h
  · cases hl : l[i.toNat]? <;> simp [h]
  · simp [h]

theorem forRange_zero {σ : Type} (n : Int) (hn : n ≤ 0) (body : Nat → σ → Except Panic σ)
    (s : σ) : forRange n body s = .ok s := by
  unfold forRange
  have : n.toNat = 0 := by omega
  rw [this]
  rfl

theorem forRange_natCast_succ {σ : Type} (n : Nat) (body : Nat → σ → Except Panic σ) (s : σ) :
    forRange ((n + 1 : Nat) : Int) body s = forRange (n : Int) body s >>= body n := by
  unfold forRange
  simp only [Int.toNat_ofNat, List.range_succ, List.foldlM_append, List.foldlM_cons,
    List.foldlM_nil, bind_pure]

/-- A loop whose body preserves an invariant and does not panic while the
invariant holds runs to completion, and the invariant holds at the end. -/
theorem forRange_total {σ : Type} (n : Nat) (body : Nat → σ → Except Panic σ) (s : σ)
    (I : Nat → σ → Prop) (h0 : I 0 s)
    (hstep : ∀ i st, i < n → I i st → ∃ st1, body i st = .ok st1 ∧ I (i + 1) st1) :
    ∃ r, forRange (n : Int) body s = .ok r ∧ I n r := by
  induction n with
  | zero => exact ⟨s, forRange_zero _ (by simp) _ _, h0⟩
  | succ k ih =>
    obtain ⟨r, hr, hI⟩ := ih (fun i st hi => hstep i st (by omega))
    obtain ⟨st1, hb, hI1⟩ := hstep k r (by omega) hI
    refine ⟨st1, ?_, hI1⟩
    rw [forRange_natCast_succ, hr]
    exact hb

/-- Whenever a loop completes, an invariant preserved by every completed
iteration holds at the end. -/
theorem forRange_inv {σ : Type} (n : Nat) (body : Nat → σ → Except Panic σ) (s r : σ)
    (I : Nat → σ → Prop) (h0 : I 0 s)
    (hstep : ∀ i st st1, i < n → I i st → body i st = .ok st1 → I (i + 1) st1)
    (hr : forRange (n : Int) body s = .ok r) : I n r := by
  induction n generalizing r with
  | zero =>
    rw [forRange_zero _ (by simp)] at hr
    cases hr
    exact h0
  | succ k ih =>
    rw [forRange_natCast_succ] at hr
    cases hk : forRange (k : Int) body s with
    | error e => rw [hk] at hr; cases hr
    | ok st =>
      rw [hk] at hr
      exact hstep k st r (by omega) (ih st (fun i a b hi => hstep i a b (by omega)) hk) hr

/-! ## C1 -/

set_option maxRecDepth 100000 in
/-- C1 (code defect): with one detection slot and two classes the layout needs
`1 × (4 + 2) = 6` values, but the guard of `OutputFromData` compares the length
with `1 × 2`; on a buffer of three values it lets the call through and the first
score read, `output[4]`, panics with an index out of range instead of returning
the nil signal. -/
theorem C1_OutputFromData_short_buffer_panics (S : SortSlice) :
    shortOutput.length < testProcessor.ModelDetections * (4 + testProcessor.ModelOutputClasses) ∧
      testProcessor.OutputFromData S shortOutput = .error (.indexOutOfRange 4 3) := by
  exact ⟨by decide, rfl⟩

/-! ## C2 -/

/-- C2 (as stated, refuted): with `ModelHeight = 2^63`, `ModelWidth = 1` and three
channels, `channelSize * 3` wraps to `2^63`, whose conversion to `int` is negative;
the guard lets the empty buffer through and the slice expression
`data[0:channelSize]` panics, so no error is returned. -/
theorem C2_counterexample :
    tallProcessor.ModelInputChannels = 3 ∧
      ([] : List F32).length < tallProcessor.ModelHeight * tallProcessor.ModelWidth * 3 ∧
      (match tallProcessor.InputToData keepImage [] with
        | .error e => e = .sliceBounds 0 (2 ^ 63) 0
        | .ok _ => False) := by
  refine ⟨rfl, by decide, ?_⟩
  rfl

/-- C2 (amended): when `ModelHeight × ModelWidth × 3` is below `2^63`, so that
neither the `uint` products nor the conversion to `int` wrap, a processor with
three input channels given a buffer shorter than that product returns a non-nil
size-mismatch error without a panic, before any slicing or indexing of the
buffer, and the buffer and the image are those it was given. -/
theorem C2_InputToData_short_buffer (resize : Resize) (p : Processor) (data : List F32)
    (hch : p.ModelInputChannels = 3)
    (hfit : p.ModelHeight * p.ModelWidth * 3 < 2 ^ 63)
    (hshort : data.length < p.ModelHeight * p.ModelWidth * 3) :
    p.InputToData resize data =
      .ok ⟨some ⟨data.length, p.ModelHeight * p.ModelWidth * 3⟩, p.Image, data⟩ := by
  have h1 : wrapUint (p.ModelHeight * p.ModelWidth) = p.ModelHeight * p.ModelWidth :=
    wrapUint_of_lt _ (by omega)
  have h2 : wrapUint (p.ModelHeight * p.ModelWidth * 3) = p.ModelHeight * p.ModelWidth * 3 :=
    wrapUint_of_lt _ (by omega)
  have h3 : intOfUint (p.ModelHeight * p.ModelWidth * 3)
      = ((p.ModelHeight * p.ModelWidth * 3 : Nat) : Int) := intOfUint_of_lt _ hfit
  unfold Processor.InputToData
  simp only [hch, h1, h2, h3]
  rw [if_pos (by exact_mod_cast hshort)]
  rfl

/-- C2, at a concrete input: a 2×2 model needs 12 values and is given 11. -/
theorem C2_InputToData_short_buffer_witness :
    smallProcessor.InputToData keepImage (List.replicate 11 F32.zero) =
      .ok ⟨some ⟨(List.replicate 11 F32.zero).length,
        smallProcessor.ModelHeight * smallProcessor.ModelWidth * 3⟩,
        smallProcessor.Image, List.replicate 11 F32.zero⟩ :=
  C2_InputToData_short_buffer keepImage smallProcessor (List.replicate 11 F32.zero)
    rfl (by decide) (by decide)

/-! ## float32 constants and comparisons -/

set_option maxRecDepth 100000 in
/-- The constants are the correctly rounded values of their decimal literals. -/
theorem F32.constants_rounded :
    F32.two = F32.lit 2 1 ∧ F32.c255 = F32.lit 255 1 ∧ F32.c07 = F32.lit 7 10 ∧
      F32.negBillion = F32.neg (F32.lit 1000000000 1) ∧ F32.one = F32.lit 1 1 ∧
      F32.zero = F32.lit 0 1 := by
  decide


theorem F32.lt_eq_false_of_le {a b : F32} (h : F32.le a b = true) : F32.lt b a = false := by
  cases a <;> cases b <;>
    simp only [F32.le, F32.lt, F32.eq, Bool.or_eq_true, decide_eq_true_eq, Bool.and_eq_true,
      Bool.not_eq_true', beq_iff_eq, Bool.false_or, Bool.or_false, decide_eq_false_iff_not,
      Bool.false_eq_true, or_self, Bool.and_eq_false_imp] at h ⊢
  · rename_i x y
    cases x <;> cases y <;> simp_all
  · rename_i x y
    cases x <;> simp_all
  · rename_i x y z
    cases y <;> simp_all
  · omega

theorem F32.le_of_lt_eq_false {a b : F32} (h : F32.lt a b = false) (ha : a ≠ F32.nan)
    (hb : b ≠ F32.nan) : F32.le b a = true := by
  cases a <;> cases b <;>
    simp only [F32.le, F32.lt, F32.eq, Bool.or_eq_true, decide_eq_true_eq, Bool.and_eq_true,
      Bool.not_eq_true', beq_iff_eq, Bool.false_or, Bool.or_false, decide_eq_false_iff_not,
      Bool.false_eq_true, or_self, Bool.and_eq_false_imp, ne_eq, not_true_eq_false] at h ha hb ⊢
  · rename_i x y
    cases x <;> cases y <;> simp_all
  · rename_i x y z
    cases x <;> simp_all
  · rename_i x y z
    cases z <;> simp_all
  · omega

theorem F32.ne_nan_of_lt_left {a b : F32} (h : F32.lt a b = true) : a ≠ F32.nan := by
  rintro rfl
  simp [F32.lt] at h

theorem F32.ne_nan_of_lt_right {a b : F32} (h : F32.lt a b = true) : b ≠ F32.nan := by
  rintro rfl
  cases a <;> simp [F32.lt] at h

/-! ## The score matrix -/

/-- The index computed for row `4 + col`, column `idx` does not wrap when the
matrix fits below `2^63`. -/
theorem slot_index (D idx col : Nat) (hidx : idx < D) (hfit : D * (col + 4) + idx < 2 ^ 63) :
    wrapInt (wrapInt (intOfUint D * wrapInt ((col : Int) + 4)) + (idx : Int))
      = ((D * (col + 4) + idx : Nat) : Int) := by
  have hD : D ≤ D * (col + 4) := Nat.le_mul_of_pos_right D (by omega)
  have hc : col + 4 ≤ D * (col + 4) := Nat.le_mul_of_pos_left (col + 4) (by omega)
  rw [intOfUint_of_lt D (by omega), wrapInt_of_range ((col : Int) + 4) (by omega) (by omega)]
  have e : (D : Int) * ((col : Int) + 4) = ((D * (col + 4) : Nat) : Int) := by push_cast; ring
  have hw : wrapInt ((D * (col + 4) : Nat) : Int) = ((D * (col + 4) : Nat) : Int) :=
    wrapInt_of_range _ (by omega) (by omega)
  rw [e, hw, wrapInt_of_range _ (by omega) (by omega)]
  push_cast
  ring

/-- Rows before `4 + C` of a matrix with `D` columns lie inside `D * (4 + C)`. -/
theorem slot_lt (D C idx col : Nat) (hidx : idx < D) (hcol : col < C) :
    D * (col + 4) + idx < D * (4 + C) := by
  have h : D * (col + 4) + D ≤ D * (4 + C) := by
    have : D * (col + 4) + D = D * (col + 5) := by ring
    rw [this]
    exact Nat.mul_le_mul_left D (by omega)
  omega

/-- The body of the class scan, once the score is known to lie in the buffer. -/
theorem scan_read (D : Nat) (output : List F32) (idx col : Nat) (v : F32)
    (hidx : idx < D) (hfit : D * (col + 4) + idx < 2 ^ 63)
    (hv : output[D * (col + 4) + idx]? = some v) :
    index output (wrapInt (wrapInt (intOfUint D * wrapInt ((col : Int) + 4)) + (idx : Int)))
      = .ok v := by
  rw [slot_index D idx col hidx hfit]
  exact index_natCast _ _ _ hv

/-- The class scan of one slot returns the maximum score and the lowest index
attaining it, provided that maximum exceeds the initial value `-1e9`. -/
theorem scan_argmax (p : Processor) (output : List F32) (idx k : Nat) (m : F32) (cid0 : Int)
    (hidx : idx < p.ModelDetections)
    (hfit : p.ModelDetections * (4 + p.ModelOutputClasses) < 2 ^ 63)
    (hk : k < p.ModelOutputClasses)
    (hm : output[p.ModelDetections * (k + 4) + idx]? = some m)
    (hall : ∀ j, j < p.ModelOutputClasses →
      ∃ v, output[p.ModelDetections * (j + 4) + idx]? = some v ∧ F32.le v m = true)
    (hfirst : ∀ j v, j < k → output[p.ModelDetections * (j + 4) + idx]? = some v →
      F32.lt v m = true)
    (hsent : F32.lt F32.negBillion m = true) :
    p.scanClasses output idx cid0 = .ok (m, (k : Int)) := by
  have hC : p.ModelOutputClasses < 2 ^ 63 := by
    have : 4 + p.ModelOutputClasses ≤ p.ModelDetections * (4 + p.ModelOutputClasses) :=
      Nat.le_mul_of_pos_left _ (by omega)
    omega
  unfold Processor.scanClasses
  rw [intOfUint_of_lt _ hC]
  obtain ⟨r, hr, hI⟩ := forRange_total p.ModelOutputClasses (p.scanStep output idx)
    (F32.negBillion, cid0)
    (fun j st => (j ≤ k → F32.lt st.1 m = true) ∧ (k < j → st = (m, (k : Int))))
    ⟨fun _ => hsent, fun h => absurd h (by omega)⟩
    (fun j st hj hI => by
      obtain ⟨v, hv, hle⟩ := hall j hj
      have hlt := slot_lt p.ModelDetections p.ModelOutputClasses idx j hidx hj
      unfold Processor.scanStep
      rw [scan_read p.ModelDetections output idx j v hidx (by omega) hv]
      simp only [bind, Except.bind, F32.gt]
      rcases Nat.lt_trichotomy j k with hjk | hjk | hjk
      · have hvm := hfirst j v hjk hv
        refine ⟨if F32.lt st.1 v = true then (v, (j : Int)) else st, ?_, ?_, ?_⟩
        · split_ifs <;> rfl
        · intro _
          split_ifs
          · exact hvm
          · exact hI.1 (by omega)
        · intro h
          omega
      · subst hjk
        rw [hm] at hv
        cases hv
        refine ⟨(m, (j : Int)), ?_, ?_, ?_⟩
        · rw [if_pos (hI.1 (le_refl _))]
          rfl
        · intro h
          omega
        · intro _
          rfl
      · have hst := hI.2 hjk
        refine ⟨(m, (k : Int)), ?_, ?_, ?_⟩
        · rw [hst, if_neg (by rw [F32.lt_eq_false_of_le hle]; simp)]
          rfl
        · intro h
          omega
        · intro _
          rfl)
  rw [hr, hI.2 hk]

/-- The merge pass keeps a single candidate. -/
theorem mergeBoxes_singleton (b : BoundingBox) : Processor.mergeBoxes [b] = [b] := by
  simp [Processor.mergeBoxes, Processor.mergeStep, Processor.overlapsExisting]

/-- Sorting a single candidate returns it. -/
theorem SortSlice.run_singleton (S : SortSlice) {α : Type} (less : α → α → Bool) (a : α) :
    S.run less [a] = [a] :=
  List.perm_singleton.mp (S.perm less [a])

/-- Sequencing after a completed step. -/
theorem ok_bind {α β : Type} (a : α) (f : α → Except Panic β) :
    (Except.ok a >>= f) = f a :=
  rfl

/-- An index below the length holds an element. -/
theorem exists_getElem? {α : Type} (l : List α) (n : Nat) (h : n < l.length) :
    ∃ v, l[n]? = some v :=
  ⟨l[n], List.getElem?_eq_getElem h⟩

/-- A loop of one iteration is its body. -/
theorem forRange_one {σ : Type} (body : Nat → σ → Except Panic σ) (s : σ) :
    forRange 1 body s = body 0 s := by
  show forRange ((0 + 1 : Nat) : Int) body s = body 0 s
  rw [forRange_natCast_succ, forRange_zero ((0 : Nat) : Int) (le_of_eq rfl)]
  rfl

/-! ## C3 -/

/-- C3 (amended): for a single-slot buffer (`ModelDetections = 1`, buffer length at
least `4 + C`, class table of length `C`) whose maximum class score `m`, first
attained at class `k`, is at least the confidence threshold and exceeds the initial
value `-1e9` of the running maximum, `OutputFromData` returns exactly one box, with
label `ModelClasses[k]` and confidence `m`. -/
theorem C3_single_slot (S : SortSlice) (p : Processor) (output : List F32) (k : Nat) (m : F32)
    (hD : p.ModelDetections = 1)
    (hlen : 4 + p.ModelOutputClasses ≤ output.length) (hcap : output.length < 2 ^ 63)
    (hcls : p.ModelClasses.length = p.ModelOutputClasses)
    (hk : k < p.ModelOutputClasses)
    (hm : output[4 + k]? = some m)
    (hmax : ∀ j v, j < p.ModelOutputClasses → output[4 + j]? = some v → F32.le v m = true)
    (hfirst : ∀ j v, j < k → output[4 + j]? = some v → F32.lt v m = true)
    (hthr : F32.ge m p.ThresholdConfidence = true)
    (hsent : F32.gt m F32.negBillion = true) :
    ∃ b, p.OutputFromData S output = .ok (some [b]) ∧
      p.ModelClasses[k]? = some b.Label ∧ b.Confidence = m := by
  have e : ∀ j, 1 * (j + 4) + 0 = 4 + j := fun j => by omega
  have hscan : p.scanClasses output 0 0 = .ok (m, (k : Int)) := by
    apply scan_argmax p output 0 k m 0
    · omega
    · rw [hD]; omega
    · exact hk
    · rw [hD, e]; exact hm
    · intro j hj
      rw [hD, e]
      obtain ⟨v, hv⟩ := exists_getElem? output (4 + j) (by omega)
      exact ⟨v, hv, hmax j v hj hv⟩
    · intro j v hjk hv
      rw [hD, e] at hv
      exact hfirst j v hjk hv
    · exact hsent
  have hnot : F32.lt m p.ThresholdConfidence = false := F32.lt_eq_false_of_le hthr
  have hd : intOfUint p.ModelDetections = 1 := by rw [hD]; exact intOfUint_of_lt 1 (by norm_num)
  obtain ⟨xc, hxc⟩ := exists_getElem? output 0 (by omega)
  obtain ⟨yc, hyc⟩ := exists_getElem? output 1 (by omega)
  obtain ⟨w, hw⟩ := exists_getElem? output 2 (by omega)
  obtain ⟨h, hh⟩ := exists_getElem? output 3 (by omega)
  have hkc : k < p.ModelClasses.length := by omega
  obtain ⟨label, hlabel⟩ := exists_getElem? p.ModelClasses k hkc
  have h0 : index output ((0 : Nat) : Int) = .ok xc := index_natCast _ _ _ hxc
  have h1 : index output (wrapInt (1 + ((0 : Nat) : Int))) = .ok yc := by
    have : wrapInt (1 + ((0 : Nat) : Int)) = ((1 : Nat) : Int) := by decide
    rw [this]
    exact index_natCast _ _ _ hyc
  have h2 : index output (wrapInt (wrapInt (2 * 1) + ((0 : Nat) : Int))) = .ok w := by
    have : wrapInt (wrapInt (2 * 1) + ((0 : Nat) : Int)) = ((2 : Nat) : Int) := by decide
    rw [this]
    exact index_natCast _ _ _ hw
  have h3 : index output (wrapInt (wrapInt (3 * 1) + ((0 : Nat) : Int))) = .ok h := by
    have : wrapInt (wrapInt (3 * 1) + ((0 : Nat) : Int)) = ((3 : Nat) : Int) := by decide
    rw [this]
    exact index_natCast _ _ _ hh
  have hl : index p.ModelClasses (k : Int) = .ok label := index_natCast _ _ _ hlabel
  have hbox : p.boxAt output 0 m (k : Int) = .ok (p.scaleBox label m xc yc w h) := by
    unfold Processor.boxAt
    rw [hd, h0, ok_bind, h1, ok_bind, h2, ok_bind, h3, ok_bind, hl, ok_bind]
    rfl
  have hb : p.decodeSlot output 0 (0, []) = .ok ((k : Int), [p.scaleBox label m xc yc w h]) := by
    unfold Processor.decodeSlot
    rw [hscan, ok_bind, if_neg (by rw [hnot]; exact Bool.false_ne_true), hbox, ok_bind]
    rfl
  have hcand : p.candidates output = .ok [p.scaleBox label m xc yc w h] := by
    unfold Processor.candidates
    rw [hd, forRange_one, hb, ok_bind]
    rfl
  refine ⟨p.scaleBox label m xc yc w h, ?_, hlabel, rfl⟩
  · unfold Processor.OutputFromData
    have hg : ¬ ((output.length : Int)
        < intOfUint (wrapUint (p.ModelDetections * p.ModelOutputClasses))) := by
      rw [hD, one_mul, wrapUint_of_lt _ (by omega), intOfUint_of_lt _ (by omega)]
      omega
    rw [if_neg hg, hcand, ok_bind, S.run_singleton, mergeBoxes_singleton]
    rfl

set_option maxRecDepth 100000 in
/-- C3 (as stated, refuted): one slot, one class, threshold `-3e9` and the single
class score `-2e9`.  The maximum score `-2e9` is at least the threshold, yet the
running maximum starts at `-1e9` and is never replaced, so the one box returned
has confidence `-1e9`, not the maximum score. -/
theorem C3_counterexample :
    lowProcessor.ModelDetections = 1 ∧
      4 + lowProcessor.ModelOutputClasses ≤ lowOutput.length ∧
      lowProcessor.ModelClasses.length = lowProcessor.ModelOutputClasses ∧
      lowOutput[4]? = some (F32.neg (F32.lit 2000000000 1)) ∧
      F32.ge (F32.neg (F32.lit 2000000000 1)) lowProcessor.ThresholdConfidence = true ∧
      (lowProcessor.OutputFromData insertionSortSlice lowOutput).map
          (Option.map (List.map BoundingBox.Confidence)) = .ok (some [F32.negBillion]) ∧
      F32.negBillion ≠ F32.neg (F32.lit 2000000000 1) := by
  decide

set_option maxRecDepth 100000 in
/-- C3, at the input of `TestProcessorOutputFromData_SingleDetection`: scores
`0.1, 0.9`, threshold `0.5`; the box is labelled `ModelClasses[1]` with confidence
`0.9`. -/
theorem C3_single_slot_witness :
    ∃ b, testProcessor.OutputFromData insertionSortSlice testOutput = .ok (some [b]) ∧
      testProcessor.ModelClasses[1]? = some b.Label ∧ b.Confidence = F32.lit 9 10 :=
  C3_single_slot insertionSortSlice testProcessor testOutput 1 (F32.lit 9 10)
    rfl (by decide) (by decide) rfl (by decide) (by decide)
    (fun j v hj hv => by
      have hj2 : j < 2 := hj
      interval_cases j
      · have h : testOutput[4 + 0]? = some (F32.lit 1 10) := by decide
        rw [h] at hv
        cases hv
        decide
      · have h : testOutput[4 + 1]? = some (F32.lit 9 10) := by decide
        rw [h] at hv
        cases hv
        decide)
    (fun j v hj hv => by
      interval_cases j
      have h : testOutput[4 + 0]? = some (F32.lit 1 10) := by decide
      rw [h] at hv
      cases hv
      decide)
    (by decide) (by decide)

/-! ## C4 -/

set_option maxRecDepth 100000 in
/-- C4 (code defect): the rescaling multiplies by `Bounds().Max.X` and
`Bounds().Max.Y`, not by the width and height of the image.  For the image bounds
`(10,10)-(110,110)` (100 × 100 pixels), a 100 × 100 model and the slot with centre
`(50, 50)` and size `(20, 20)`, the emitted box has `X1 = Y1 = 44`, whereas
`(xc − w/2) / ModelWidth × width` is `40`. -/
theorem C4_scale_uses_bounds_max :
    shiftedProcessor.Image.Bounds.Dx = 100 ∧ shiftedProcessor.Image.Bounds.Dy = 100 ∧
      (shiftedProcessor.OutputFromData insertionSortSlice testOutput).map
          (Option.map (List.map (fun b => (b.Label, b.X1, b.Y1)))) =
        .ok (some [("dog", F32.lit 44 1, F32.lit 44 1)]) ∧
      F32.mul (F32.div (F32.sub (F32.lit 50 1) (F32.div (F32.lit 20 1) F32.two))
          (F32.ofNat shiftedProcessor.ModelWidth)) (F32.ofInt shiftedProcessor.Image.Bounds.Dx) =
        F32.lit 40 1 ∧
      F32.lit 44 1 ≠ F32.lit 40 1 := by
  decide

/-! ## The candidate loop -/

/-- A completed sequence has a completed first step. -/
theorem bind_eq_ok {α β : Type} {x : Except Panic α} {f : α → Except Panic β} {b : β}
    (h : (x >>= f) = .ok b) : ∃ a, x = .ok a ∧ f a = .ok b := by
  cases x with
  | error e => cases h
  | ok a => exact ⟨a, rfl, h⟩

/-- Only the non-negative part of the bound of a loop matters. -/
theorem forRange_toNat {σ : Type} (n : Int) (body : Nat → σ → Except Panic σ) (s : σ) :
    forRange n body s = forRange ((n.toNat : Nat) : Int) body s := by
  unfold forRange
  rw [Int.toNat_ofNat]

/-- The running maximum of the class scan is never NaN. -/
theorem scanStep_ne_nan (p : Processor) (output : List F32) (idx col : Nat)
    (st st1 : F32 × Int) (hst : st.1 ≠ F32.nan) (h : p.scanStep output idx col st = .ok st1) :
    st1.1 ≠ F32.nan := by
  unfold Processor.scanStep at h
  obtain ⟨v, _, hv⟩ := bind_eq_ok h
  by_cases hg : F32.gt v st.1 = true
  · rw [if_pos hg] at hv
    cases hv
    exact F32.ne_nan_of_lt_right hg
  · rw [if_neg hg] at hv
    cases hv
    exact hst

/-- The maximum returned by the class scan is never NaN. -/
theorem scanClasses_ne_nan (p : Processor) (output : List F32) (idx : Nat) (cid : Int)
    (r : F32 × Int) (h : p.scanClasses output idx cid = .ok r) : r.1 ≠ F32.nan := by
  unfold Processor.scanClasses at h
  rw [forRange_toNat] at h
  exact forRange_inv _ _ _ r (fun _ st => st.1 ≠ F32.nan) (fun hn => F32.noConfusion hn)
    (fun i st st1 _ hI hb => scanStep_ne_nan p output idx i st st1 hI hb) h

/-- The box built for an accepted slot carries the scanned maximum as confidence. -/
theorem boxAt_confidence (p : Processor) (output : List F32) (idx : Nat) (prob : F32)
    (cid : Int) (b : BoundingBox) (h : p.boxAt output idx prob cid = .ok b) :
    b.Confidence = prob := by
  unfold Processor.boxAt at h
  obtain ⟨xc, _, h⟩ := bind_eq_ok h
  obtain ⟨yc, _, h⟩ := bind_eq_ok h
  obtain ⟨w, _, h⟩ := bind_eq_ok h
  obtain ⟨hh, _, h⟩ := bind_eq_ok h
  obtain ⟨label, _, h⟩ := bind_eq_ok h
  cases h
  rfl

/-- Every box appended by the slot loop has a confidence that is not NaN and not
below the threshold. -/
theorem decodeSlot_confidence (p : Processor) (output : List F32) (idx : Nat)
    (st st1 : Int × List BoundingBox)
    (hst : ∀ b ∈ st.2, F32.lt b.Confidence p.ThresholdConfidence = false ∧
      b.Confidence ≠ F32.nan)
    (h : p.decodeSlot output idx st = .ok st1) :
    ∀ b ∈ st1.2, F32.lt b.Confidence p.ThresholdConfidence = false ∧
      b.Confidence ≠ F32.nan := by
  unfold Processor.decodeSlot at h
  obtain ⟨r, hr, h⟩ := bind_eq_ok h
  by_cases hlt : F32.lt r.1 p.ThresholdConfidence = true
  · rw [if_pos hlt] at h
    cases h
    exact hst
  · rw [if_neg hlt] at h
    obtain ⟨box, hbox, h⟩ := bind_eq_ok h
    cases h
    intro b hb
    rcases List.mem_append.mp hb with hb | hb
    · exact hst b hb
    · rw [List.mem_singleton] at hb
      subst hb
      rw [boxAt_confidence p output idx r.1 r.2 b hbox]
      exact ⟨by simpa using hlt, scanClasses_ne_nan p output idx st.1 r hr⟩

/-- Every candidate has a confidence that is not NaN and not below the threshold. -/
theorem candidates_confidence (p : Processor) (output : List F32) (l : List BoundingBox)
    (h : p.candidates output = .ok l) :
    ∀ b ∈ l, F32.lt b.Confidence p.ThresholdConfidence = false ∧ b.Confidence ≠ F32.nan := by
  unfold Processor.candidates at h
  obtain ⟨st, hst, h⟩ := bind_eq_ok h
  cases h
  rw [forRange_toNat] at hst
  exact forRange_inv _ _ _ st
    (fun _ s => ∀ b ∈ s.2, F32.lt b.Confidence p.ThresholdConfidence = false ∧
      b.Confidence ≠ F32.nan)
    (fun b hb => absurd hb (List.not_mem_nil b))
    (fun i s s1 _ hI hb => decodeSlot_confidence p output i s s1 hI hb) hst

/-! ## The merge pass -/

/-- The merge pass only keeps boxes it was given. -/
theorem foldl_mergeStep_subset (l acc : List BoundingBox) :
    ∀ b ∈ l.foldl Processor.mergeStep acc, b ∈ acc ∨ b ∈ l := by
  induction l generalizing acc with
  | nil => intro b hb; exact Or.inl hb
  | cons c t ih =>
    intro b hb
    rw [List.foldl_cons] at hb
    rcases ih _ b hb with h | h
    · unfold Processor.mergeStep at h
      split_ifs at h
      · exact Or.inl h
      · rcases List.mem_append.mp h with h | h
        · exact Or.inl h
        · rw [List.mem_singleton] at h
          exact Or.inr (h ▸ List.mem_cons_self _ _)
    · exact Or.inr (List.mem_cons_of_mem _ h)

/-- The merged result is drawn from the sorted candidates. -/
theorem mergeBoxes_subset (l : List BoundingBox) : ∀ b ∈ Processor.mergeBoxes l, b ∈ l := by
  intro b hb
  rcases foldl_mergeStep_subset l [] b hb with h | h
  · exact absurd h (List.not_mem_nil b)
  · exact h

/-- A returned list is the merge of the sorted candidates. -/
theorem OutputFromData_some (S : SortSlice) (p : Processor) (output : List F32)
    (l : List BoundingBox) (h : p.OutputFromData S output = .ok (some l)) :
    ∃ boxes, p.candidates output = .ok boxes ∧
      l = Processor.mergeBoxes (S.run Processor.lessConfidence boxes) := by
  unfold Processor.OutputFromData at h
  split_ifs at h
  · cases h
  · obtain ⟨boxes, hb, h⟩ := bind_eq_ok h
    cases h
    exact ⟨boxes, hb, rfl⟩

/-- Every returned box is one of the candidates. -/
theorem OutputFromData_mem (S : SortSlice) (p : Processor) (output : List F32)
    (l : List BoundingBox) (h : p.OutputFromData S output = .ok (some l)) :
    ∃ boxes, p.candidates output = .ok boxes ∧ ∀ b ∈ l, b ∈ boxes := by
  obtain ⟨boxes, hb, rfl⟩ := OutputFromData_some S p output l h
  exact ⟨boxes, hb, fun b hm =>
    (S.perm Processor.lessConfidence boxes).mem_iff.mp (mergeBoxes_subset _ b hm)⟩

/-- When every class score of a slot is below a threshold that exceeds `-1e9`,
the class scan completes with a maximum below the threshold. -/
theorem scan_below (p : Processor) (output : List F32) (idx : Nat) (cid : Int)
    (hidx : idx < p.ModelDetections)
    (hlen : p.ModelDetections * (4 + p.ModelOutputClasses) ≤ output.length)
    (hcap : output.length < 2 ^ 63)
    (hthr : F32.lt F32.negBillion p.ThresholdConfidence = true)
    (hall : ∀ col v, col < p.ModelOutputClasses →
      output[p.ModelDetections * (col + 4) + idx]? = some v →
      F32.lt v p.ThresholdConfidence = true) :
    ∃ r, p.scanClasses output idx cid = .ok r ∧ F32.lt r.1 p.ThresholdConfidence = true := by
  have hC : p.ModelOutputClasses < 2 ^ 63 := by
    have : 4 + p.ModelOutputClasses ≤ p.ModelDetections * (4 + p.ModelOutputClasses) :=
      Nat.le_mul_of_pos_left _ (by omega)
    omega
  unfold Processor.scanClasses
  rw [intOfUint_of_lt _ hC]
  exact forRange_total p.ModelOutputClasses (p.scanStep output idx) (F32.negBillion, cid)
    (fun _ st => F32.lt st.1 p.ThresholdConfidence = true) hthr
    (fun col st hcol hI => by
      have hlt := slot_lt p.ModelDetections p.ModelOutputClasses idx col hidx hcol
      obtain ⟨v, hv⟩ := exists_getElem? output (p.ModelDetections * (col + 4) + idx) (by omega)
      unfold Processor.scanStep
      rw [scan_read p.ModelDetections output idx col v hidx (by omega) hv, ok_bind]
      by_cases hg : F32.gt v st.1 = true
      · rw [if_pos hg]
        exact ⟨_, rfl, hall col v hcol hv⟩
      · rw [if_neg hg]
        exact ⟨_, rfl, hI⟩)

/-- The merge pass of no candidates is empty. -/
theorem mergeBoxes_nil : Processor.mergeBoxes [] = [] :=
  rfl

/-- Sorting no candidates returns none. -/
theorem SortSlice.run_nil (S : SortSlice) {α : Type} (less : α → α → Bool) :
    S.run less [] = [] :=
  List.perm_nil.mp (S.perm less [])

/-! ## C5 -/

/-- C5 (amended): (1) for a buffer of length at least `D × (4 + C)` in which every
class score of every slot is below the confidence threshold, and the threshold
exceeds the initial value `-1e9` of the running maximum, `OutputFromData` returns
the empty, non-nil sequence; (2) for every buffer, when the threshold is not NaN,
every box returned has `Confidence ≥ ThresholdConfidence`. -/
theorem C5_threshold_filter (S : SortSlice) (p : Processor) (output : List F32) :
    (p.ModelDetections * (4 + p.ModelOutputClasses) ≤ output.length →
      output.length < 2 ^ 63 →
      F32.lt F32.negBillion p.ThresholdConfidence = true →
      (∀ idx col v, idx < p.ModelDetections → col < p.ModelOutputClasses →
        output[p.ModelDetections * (col + 4) + idx]? = some v →
        F32.lt v p.ThresholdConfidence = true) →
      p.OutputFromData S output = .ok (some [])) ∧
    (p.ThresholdConfidence ≠ F32.nan →
      ∀ l, p.OutputFromData S output = .ok (some l) →
        ∀ b ∈ l, F32.ge b.Confidence p.ThresholdConfidence = true) := by
  constructor
  · intro hlen hcap hthr hall
    have hDle : p.ModelDetections ≤ p.ModelDetections * (4 + p.ModelOutputClasses) :=
      Nat.le_mul_of_pos_right _ (by omega)
    have hDC : p.ModelDetections * p.ModelOutputClasses
        ≤ p.ModelDetections * (4 + p.ModelOutputClasses) :=
      Nat.mul_le_mul_left _ (by omega)
    have hcand : p.candidates output = .ok [] := by
      unfold Processor.candidates
      rw [intOfUint_of_lt _ (by omega)]
      obtain ⟨r, hr, hI⟩ := forRange_total p.ModelDetections (p.decodeSlot output)
        ((0 : Int), ([] : List BoundingBox)) (fun _ st => st.2 = []) rfl
        (fun idx st hidx hI => by
          obtain ⟨r, hr, hlt⟩ := scan_below p output idx st.1 hidx hlen hcap hthr
            (fun col v hcol hv => hall idx col v hidx hcol hv)
          unfold Processor.decodeSlot
          rw [hr, ok_bind, if_pos hlt]
          exact ⟨_, rfl, hI⟩)
      rw [hr, ok_bind, hI]
      rfl
    unfold Processor.OutputFromData
    have hg : ¬ ((output.length : Int)
        < intOfUint (wrapUint (p.ModelDetections * p.ModelOutputClasses))) := by
      rw [wrapUint_of_lt _ (by omega), intOfUint_of_lt _ (by omega)]
      omega
    rw [if_neg hg, hcand, ok_bind, S.run_nil, mergeBoxes_nil]
    rfl
  · intro hnan l hl b hb
    obtain ⟨boxes, hboxes, hmem⟩ := OutputFromData_mem S p output l hl
    obtain ⟨hlt, hne⟩ := candidates_confidence p output boxes hboxes b (hmem b hb)
    exact F32.le_of_lt_eq_false hlt hne hnan

set_option maxRecDepth 100000 in
/-- C5 (as stated, refuted): (1) with threshold `-1.5e9` the only class score
`-2e9` is below the threshold, yet the running maximum stays at `-1e9`, which is
not below the threshold, and one box is returned; (2) with a NaN threshold the box
of confidence `0.9` is returned although `0.9 >= NaN` is false. -/
theorem C5_counterexample :
    (lowOutput[4]? = some (F32.neg (F32.lit 2000000000 1)) ∧
      F32.lt (F32.neg (F32.lit 2000000000 1)) sentinelProcessor.ThresholdConfidence = true ∧
      (sentinelProcessor.OutputFromData insertionSortSlice lowOutput).map
          (Option.map (List.map BoundingBox.Confidence)) = .ok (some [F32.negBillion])) ∧
    ((nanProcessor.OutputFromData insertionSortSlice testOutput).map
          (Option.map (List.map BoundingBox.Confidence)) = .ok (some [F32.lit 9 10]) ∧
      F32.ge (F32.lit 9 10) nanProcessor.ThresholdConfidence = false) := by
  decide

set_option maxRecDepth 100000 in
/-- C5, at concrete inputs: the single-detection test with scores `0.1, 0.2`
below the threshold `0.5` gives the empty sequence, and the box returned for the
scores `0.1, 0.9` has confidence at least `0.5`. -/
theorem C5_threshold_filter_witness :
    testProcessor.OutputFromData insertionSortSlice quietOutput = .ok (some []) ∧
      ∀ l, testProcessor.OutputFromData insertionSortSlice testOutput = .ok (some l) →
        ∀ b ∈ l, F32.ge b.Confidence testProcessor.ThresholdConfidence = true :=
  ⟨(C5_threshold_filter insertionSortSlice testProcessor quietOutput).1
      (by decide) (by decide) (by decide)
      (fun idx col v hidx hcol hv => by
        have hidx1 : idx < 1 := hidx
        have hcol2 : col < 2 := hcol
        interval_cases idx
        interval_cases col
        · have h : quietOutput[testProcessor.ModelDetections * (0 + 4) + 0]?
              = some (F32.lit 1 10) := by decide
          rw [h] at hv
          cases hv
          decide
        · have h : quietOutput[testProcessor.ModelDetections * (1 + 4) + 0]?
              = some (F32.lit 2 10) := by decide
          rw [h] at hv
          cases hv
          decide),
    (C5_threshold_filter insertionSortSlice testProcessor testOutput).2 (by decide)⟩

/-! ## Symmetry of the overlap measure -/

theorem Rectangle.Intersect_comm (r s : Rectangle) : r.Intersect s = s.Intersect r := by
  have h1 : (if r.Min.X < s.Min.X then s.Min.X else r.Min.X)
      = (if s.Min.X < r.Min.X then r.Min.X else s.Min.X) := by split_ifs <;> omega
  have h2 : (if r.Min.Y < s.Min.Y then s.Min.Y else r.Min.Y)
      = (if s.Min.Y < r.Min.Y then r.Min.Y else s.Min.Y) := by split_ifs <;> omega
  have h3 : (if r.Max.X > s.Max.X then s.Max.X else r.Max.X)
      = (if s.Max.X > r.Max.X then r.Max.X else s.Max.X) := by split_ifs <;> omega
  have h4 : (if r.Max.Y > s.Max.Y then s.Max.Y else r.Max.Y)
      = (if s.Max.Y > r.Max.Y then r.Max.Y else s.Max.Y) := by split_ifs <;> omega
  unfold Rectangle.Intersect
  simp only [h1, h2, h3, h4]

theorem BoundingBox.Intersection_comm (a b : BoundingBox) :
    a.Intersection b = b.Intersection a := by
  unfold BoundingBox.Intersection
  simp only [Rectangle.Intersect_comm a.ToRect b.ToRect]

theorem BoundingBox.Union_comm (a b : BoundingBox) : a.Union b = b.Union a := by
  unfold BoundingBox.Union
  simp only [BoundingBox.Intersection_comm a b, Int.add_comm a.RectArea b.RectArea]

theorem BoundingBox.IoU_comm (a b : BoundingBox) : a.IoU b = b.IoU a := by
  unfold BoundingBox.IoU
  rw [BoundingBox.Intersection_comm a b, BoundingBox.Union_comm a b]

/-! ## The merge pass keeps no overlapping pair -/

/-- A candidate that passes the inner loop overlaps no accepted box. -/
theorem overlapsExisting_eq_false (c : BoundingBox) (acc : List BoundingBox)
    (h : Processor.overlapsExisting c acc = false) :
    ∀ x ∈ acc, F32.gt (c.IoU x) F32.c07 = false := by
  unfold Processor.overlapsExisting at h
  intro x hx
  exact List.any_eq_false.mp h x hx |> fun hn => by simpa using hn

theorem foldl_mergeStep_pairwise (l acc : List BoundingBox)
    (hacc : acc.Pairwise (fun a b =>
      F32.gt (a.IoU b) F32.c07 = false ∧ F32.gt (b.IoU a) F32.c07 = false)) :
    (l.foldl Processor.mergeStep acc).Pairwise (fun a b =>
      F32.gt (a.IoU b) F32.c07 = false ∧ F32.gt (b.IoU a) F32.c07 = false) := by
  induction l generalizing acc with
  | nil => exact hacc
  | cons c t ih =>
    rw [List.foldl_cons]
    apply ih
    unfold Processor.mergeStep
    by_cases ho : Processor.overlapsExisting c acc = true
    · rw [if_pos ho]
      exact hacc
    · rw [if_neg ho]
      have hno := overlapsExisting_eq_false c acc (by simpa using ho)
      rw [List.pairwise_append]
      refine ⟨hacc, List.pairwise_singleton _ _, ?_⟩
      intro x hx y hy
      rw [List.mem_singleton] at hy
      subst hy
      exact ⟨by rw [BoundingBox.IoU_comm]; exact hno x hx, hno x hx⟩

/-- Two candidates come out of the sort in one of the two orders. -/
theorem perm_pair {α : Type} (l : List α) (a b : α) (h : l.Perm [a, b]) :
    l = [a, b] ∨ l = [b, a] := by
  have hlen := h.length_eq
  match l, hlen with
  | [x, y], _ =>
    have hx : x ∈ [a, b] := h.mem_iff.mp (List.mem_cons_self _ _)
    rcases List.mem_pair.mp hx with rfl | rfl
    · have hy := List.perm_singleton.mp (List.Perm.cons_inv h)
      cases hy
      exact Or.inl rfl
    · have h2 : [x, y].Perm [x, a] := h.trans (List.Perm.swap _ _ _)
      have hy := List.perm_singleton.mp (List.Perm.cons_inv h2)
      cases hy
      exact Or.inr rfl

/-- Of two candidates that overlap, the merge pass keeps the first. -/
theorem mergeBoxes_pair (a b : BoundingBox) (h : F32.gt (b.IoU a) F32.c07 = true) :
    Processor.mergeBoxes [a, b] = [a] := by
  have h1 : Processor.mergeStep [] a = [a] := by
    unfold Processor.mergeStep Processor.overlapsExisting
    rfl
  have h2 : Processor.mergeStep [a] b = [a] := by
    unfold Processor.mergeStep Processor.overlapsExisting
    rw [List.any_cons, h]
    rfl
  unfold Processor.mergeBoxes
  rw [List.foldl_cons, List.foldl_cons, List.foldl_nil, h1, h2]

/-! ## C6 -/

/-- C6: in a list returned by `OutputFromData` no two boxes at distinct positions
have an IoU above 0.7, in either order of the pair; and when decoding yields
exactly two candidates whose IoU exceeds 0.7, the list holds exactly one of them. -/
theorem C6_no_overlapping_pair (S : SortSlice) (p : Processor) (output : List F32)
    (l : List BoundingBox) (h : p.OutputFromData S output = .ok (some l)) :
    l.Pairwise (fun a b =>
        F32.gt (a.IoU b) F32.c07 = false ∧ F32.gt (b.IoU a) F32.c07 = false) ∧
      (∀ a b, p.candidates output = .ok [a, b] → F32.gt (a.IoU b) F32.c07 = true →
        l = [a] ∨ l = [b]) := by
  obtain ⟨boxes, hboxes, rfl⟩ := OutputFromData_some S p output l h
  refine ⟨foldl_mergeStep_pairwise _ [] List.Pairwise.nil, ?_⟩
  intro a b hab hiou
  rw [hboxes] at hab
  cases hab
  rcases perm_pair _ a b (S.perm Processor.lessConfidence [a, b]) with hs | hs
  · rw [hs, mergeBoxes_pair a b (by rw [BoundingBox.IoU_comm]; exact hiou)]
    exact Or.inl rfl
  · rw [hs, mergeBoxes_pair b a hiou]
    exact Or.inr rfl

set_option maxRecDepth 100000 in
/-- C6, at a concrete input: two slots with the same geometry and scores `0.9` and
`0.8` give two candidates of IoU 1; the result is the single box of confidence `0.8`. -/
theorem C6_no_overlapping_pair_witness :
    [twoSlotBox (F32.lit 8 10)].Pairwise (fun a b =>
        F32.gt (a.IoU b) F32.c07 = false ∧ F32.gt (b.IoU a) F32.c07 = false) ∧
      ([twoSlotBox (F32.lit 8 10)] = [twoSlotBox (F32.lit 9 10)] ∨
        [twoSlotBox (F32.lit 8 10)] = [twoSlotBox (F32.lit 8 10)]) :=
  ⟨(C6_no_overlapping_pair insertionSortSlice twoSlotProcessor twoSlotOutput
      [twoSlotBox (F32.lit 8 10)] (by decide)).1,
    (C6_no_overlapping_pair insertionSortSlice twoSlotProcessor twoSlotOutput
      [twoSlotBox (F32.lit 8 10)] (by decide)).2
      (twoSlotBox (F32.lit 9 10)) (twoSlotBox (F32.lit 8 10)) (by decide) (by decide)⟩

/-! ## Rounding to float32: exact cases -/

theorem log2Aux_spec (fuel : Nat) : ∀ n, 0 < n → n ≤ fuel →
    2 ^ log2Aux fuel n ≤ n ∧ n < 2 ^ (log2Aux fuel n + 1) := by
  induction fuel with
  | zero => intro n h0 h1; omega
  | succ f ih =>
    intro n h0 h1
    unfold log2Aux
    by_cases h2 : n < 2
    · rw [if_pos h2]
      constructor <;> simp <;> omega
    · rw [if_neg h2]
      obtain ⟨ha, hb⟩ := ih (n / 2) (by omega) (by omega)
      have e1 : 2 ^ (log2Aux f (n / 2) + 1) = 2 * 2 ^ log2Aux f (n / 2) := by ring
      have e2 : 2 ^ (log2Aux f (n / 2) + 1 + 1) = 2 * 2 ^ (log2Aux f (n / 2) + 1) := by ring
      constructor <;> omega

theorem ilog2_spec (n : Nat) (h : 0 < n) : 2 ^ ilog2 n ≤ n ∧ n < 2 ^ (ilog2 n + 1) :=
  log2Aux_spec n n h (le_refl n)

/-- The binary logarithm is determined by the binade. -/
theorem ilog2_eq (n e : Nat) (h1 : 2 ^ e ≤ n) (h2 : n < 2 ^ (e + 1)) : ilog2 n = e := by
  have hn : 0 < n := lt_of_lt_of_le (pow_pos (by norm_num) _) h1
  obtain ⟨ha, hb⟩ := ilog2_spec n hn
  have h3 : e < ilog2 n + 1 :=
    (Nat.pow_lt_pow_iff_right (by norm_num : 1 < 2)).mp (lt_of_le_of_lt h1 hb)
  have h4 : ilog2 n < e + 1 :=
    (Nat.pow_lt_pow_iff_right (by norm_num : 1 < 2)).mp (lt_of_le_of_lt ha h2)
  omega

/-- When the quotient falls on the grid of spacing `2^s`, rounding is exact. -/
theorem roundMag_of_exact (n d s : Nat)
    (hs : (if n / d < 2 ^ 24 then 0 else ilog2 (n / d) - 23) = s)
    (hD : 0 < d * 2 ^ s) (hr : n % (d * 2 ^ s) = 0) :
    roundMag n d = n / (d * 2 ^ s) * 2 ^ s := by
  simp only [roundMag, hs, hr]
  rw [if_pos (by omega)]

/-- A magnitude with a 24-bit significand is a float32 magnitude: rounding keeps it. -/
theorem roundMag_fixed (m s : Nat) (h1 : 2 ^ 23 ≤ m) (h2 : m ≤ 2 ^ 24) :
    roundMag (m * 2 ^ s) 1 = m * 2 ^ s := by
  have hp : 0 < 2 ^ s := pow_pos (by norm_num) _
  by_cases hlt : m * 2 ^ s < 2 ^ 24
  · rw [roundMag_of_exact (m * 2 ^ s) 1 0 (by rw [Nat.div_one, if_pos hlt]) (by norm_num)
      (by rw [pow_zero, Nat.mul_one]; exact Nat.mod_one _)]
    rw [pow_zero, Nat.mul_one, Nat.mul_one, Nat.div_one]
  · by_cases hm : m < 2 ^ 24
    · have hl : ilog2 (m * 2 ^ s) = 23 + s := by
        apply ilog2_eq
        · rw [pow_add]; exact Nat.mul_le_mul_right _ h1
        · rw [show 23 + s + 1 = 24 + s by omega, pow_add]
          exact Nat.mul_lt_mul_of_pos_right hm hp
      rw [roundMag_of_exact (m * 2 ^ s) 1 s
        (by rw [Nat.div_one, if_neg hlt, hl]; omega) (by rw [one_mul]; exact hp)
        (by rw [one_mul]; exact Nat.mul_mod_left _ _)]
      rw [one_mul, Nat.mul_div_cancel _ hp]
    · have hm24 : m = 2 ^ 24 := by omega
      subst hm24
      have hl : ilog2 (2 ^ 24 * 2 ^ s) = 24 + s := by
        apply ilog2_eq
        · rw [pow_add]
        · rw [show 24 + s + 1 = 24 + (s + 1) by omega, pow_add, pow_succ]
          have := hp
          omega
      have hD : (0 : Nat) < 1 * 2 ^ (s + 1) := by
        rw [one_mul]; exact pow_pos (by norm_num) _
      have e : 2 ^ 24 * 2 ^ s = 2 ^ 23 * 2 ^ (s + 1) := by ring
      rw [roundMag_of_exact (2 ^ 24 * 2 ^ s) 1 (s + 1)
        (by rw [Nat.div_one, if_neg hlt, hl]; omega) hD
        (by rw [one_mul, e]; exact Nat.mul_mod_left _ _)]
      rw [one_mul, e, Nat.mul_div_cancel _ (pow_pos (by norm_num) _)]

/-- Above the first binade, the rounded magnitude has a 24-bit significand. -/
theorem roundMag_shape (n : Nat) (hn : 2 ^ 24 ≤ n) :
    ∃ m s, 2 ^ 23 ≤ m ∧ m ≤ 2 ^ 24 ∧ roundMag n 1 = m * 2 ^ s ∧ m * 2 ^ s ≤ 2 * n := by
  have hn0 : 0 < n := lt_of_lt_of_le (by norm_num) hn
  obtain ⟨ha, hb⟩ := ilog2_spec n hn0
  have he : 24 ≤ ilog2 n := by
    have : 24 < ilog2 n + 1 :=
      (Nat.pow_lt_pow_iff_right (by norm_num : 1 < 2)).mp (lt_of_le_of_lt hn hb)
    omega
  obtain ⟨s, hs⟩ : ∃ s, ilog2 n = s + 23 := ⟨ilog2 n - 23, by omega⟩
  have hp : 0 < 2 ^ s := pow_pos (by norm_num) _
  rw [hs] at ha hb
  have hq1 : 2 ^ 23 ≤ n / 2 ^ s := by
    rw [Nat.le_div_iff_mul_le hp, ← pow_add, Nat.add_comm]
    exact ha
  have hq2 : n / 2 ^ s < 2 ^ 24 := by
    rw [Nat.div_lt_iff_lt_mul hp, ← pow_add, Nat.add_comm]
    rw [show s + 23 + 1 = s + 24 by omega] at hb
    exact hb
  have hdm := Nat.div_add_mod n (2 ^ s)
  have hmod := Nat.mod_lt n hp
  have hsle : 2 ^ s ≤ n := by
    calc 2 ^ s ≤ 2 ^ (s + 23) := Nat.pow_le_pow_right (by norm_num) (by omega)
      _ ≤ n := ha
  have hmul : 2 ^ s * (n / 2 ^ s) ≤ n := by omega
  have hval : roundMag n 1 = (if 2 * (n % 2 ^ s) < 2 ^ s then n / 2 ^ s
      else if 2 ^ s < 2 * (n % 2 ^ s) then n / 2 ^ s + 1
      else if n / 2 ^ s % 2 = 0 then n / 2 ^ s else n / 2 ^ s + 1) * 2 ^ s := by
    have hsel : (if n / 1 < 2 ^ 24 then 0 else ilog2 (n / 1) - 23) = s := by
      rw [Nat.div_one, if_neg (by omega), hs]
      omega
    simp only [roundMag, hsel, one_mul]
  refine ⟨_, s, ?_, ?_, hval, ?_⟩
  · split_ifs <;> omega
  · split_ifs <;> omega
  · split_ifs
    · calc n / 2 ^ s * 2 ^ s = 2 ^ s * (n / 2 ^ s) := Nat.mul_comm _ _
        _ ≤ 2 * n := by omega
    · calc (n / 2 ^ s + 1) * 2 ^ s = 2 ^ s * (n / 2 ^ s) + 2 ^ s := by ring
        _ ≤ 2 * n := by omega
    · calc n / 2 ^ s * 2 ^ s = 2 ^ s * (n / 2 ^ s) := Nat.mul_comm _ _
        _ ≤ 2 * n := by omega
    · calc (n / 2 ^ s + 1) * 2 ^ s = 2 ^ s * (n / 2 ^ s) + 2 ^ s := by ring
        _ ≤ 2 * n := by omega

/-- Above the first binade, rounding commutes with doubling. -/
theorem roundMag_double (n : Nat) (hn : 2 ^ 24 ≤ n) :
    roundMag (2 * n) 1 = 2 * roundMag n 1 := by
  have hn0 : 0 < n := lt_of_lt_of_le (by norm_num) hn
  obtain ⟨ha, hb⟩ := ilog2_spec n hn0
  have he : 24 ≤ ilog2 n := by
    have : 24 < ilog2 n + 1 :=
      (Nat.pow_lt_pow_iff_right (by norm_num : 1 < 2)).mp (lt_of_le_of_lt hn hb)
    omega
  obtain ⟨s, hs⟩ : ∃ s, ilog2 n = s + 23 := ⟨ilog2 n - 23, by omega⟩
  have hl2 : ilog2 (2 * n) = s + 1 + 23 := by
    apply ilog2_eq
    · rw [show s + 1 + 23 = (ilog2 n) + 1 by omega, pow_succ]; omega
    · rw [show s + 1 + 23 + 1 = (ilog2 n + 1) + 1 by omega, pow_succ]; omega
  have hsel1 : (if n / 1 < 2 ^ 24 then 0 else ilog2 (n / 1) - 23) = s := by
    rw [Nat.div_one, if_neg (by omega), hs]; omega
  have hsel2 : (if 2 * n / 1 < 2 ^ 24 then 0 else ilog2 (2 * n / 1) - 23) = s + 1 := by
    rw [Nat.div_one, if_neg (by omega), hl2]; omega
  have e1 : 2 * n / 2 ^ (s + 1) = n / 2 ^ s := by
    rw [pow_succ, Nat.mul_comm (2 ^ s) 2]
    exact Nat.mul_div_mul_left _ _ (by norm_num)
  have e2 : 2 * n % 2 ^ (s + 1) = 2 * (n % 2 ^ s) := by
    rw [pow_succ, Nat.mul_comm (2 ^ s) 2]
    exact Nat.mul_mod_mul_left _ _ _
  simp only [roundMag, hsel1, hsel2, one_mul, e1, e2]
  have e3 : 2 ^ (s + 1) = 2 * 2 ^ s := by ring
  rw [e3]
  generalize n / 2 ^ s = a
  generalize n % 2 ^ s = r
  generalize 2 ^ s = P
  split_ifs <;> first | omega | ring

/-! ## float32 arithmetic on areas -/

theorem F32.ofInt_natCast (n : Nat) : F32.ofInt (n : Int) = F32.ofNat n := by
  unfold F32.ofInt F32.ofNat
  rw [Int.natAbs_ofNat, decide_eq_false (by omega)]

theorem F32.ofMag_of_lt (s : Bool) (k : Nat) (h : k < 2 ^ 128 * 2 ^ 149) :
    F32.ofMag s k = F32.fin s k := by
  unfold F32.ofMag
  rw [if_pos h]

theorem F32.sub_fin_of_lt (x y : Nat) (h : y < x) :
    F32.sub (F32.fin false x) (F32.fin false y) = F32.round false (x - y) 1 := by
  show F32.add (F32.fin false x) (F32.fin true y) = _
  simp only [F32.add]
  rw [if_neg (by decide), if_neg (by omega), if_pos h]

theorem F32.div_fin_of_ne (a b : Bool) (x y : Nat) (h : y ≠ 0) :
    F32.div (F32.fin a x) (F32.fin b y) = F32.round (xor a b) (x * 2 ^ 149) y := by
  simp only [F32.div]
  rw [if_neg h]

/-- The quotient of a positive magnitude by itself rounds to `1.0`. -/
theorem roundMag_div_self (K : Nat) (hK : 0 < K) : roundMag (K * 2 ^ 149) K = 2 ^ 149 := by
  have hq : K * 2 ^ 149 / K = 2 ^ 149 := Nat.mul_div_cancel_left _ hK
  have hl : ilog2 (2 ^ 149) = 149 := ilog2_eq _ _ (le_refl _) (by norm_num)
  have e : K * 2 ^ 149 = K * 2 ^ 126 * 2 ^ 23 := by ring
  rw [roundMag_of_exact (K * 2 ^ 149) K 126 (by rw [hq, if_neg (by norm_num), hl])
    (Nat.mul_pos hK (by norm_num)) (by rw [e]; exact Nat.mul_mod_right _ _)]
  rw [e, Nat.mul_div_cancel_left _ (Nat.mul_pos hK (by norm_num))]
  norm_num

/-- For an area `a` with `0 < a` and `2a < 2^63`, `float32(a) / (float32(2a) − float32(a))`
is exactly `1.0`. -/
theorem F32.area_ratio (a : Int) (h0 : 0 < a) (h1 : 2 * a < 2 ^ 63) :
    F32.div (F32.ofInt a) (F32.sub (F32.ofInt (2 * a)) (F32.ofInt a)) = F32.one := by
  obtain ⟨n, rfl⟩ := Int.eq_ofNat_of_zero_le (le_of_lt h0)
  have hn0 : 0 < n := by omega
  have hn1 : n < 2 ^ 62 := by omega
  have e2 : (2 : Int) * (n : Int) = ((2 * n : Nat) : Int) := by push_cast; ring
  rw [e2, F32.ofInt_natCast, F32.ofInt_natCast]
  unfold F32.ofNat F32.round
  have hN : 2 ^ 24 ≤ n * 2 ^ 149 := by
    calc 2 ^ 24 ≤ 1 * 2 ^ 149 := by norm_num
      _ ≤ n * 2 ^ 149 := Nat.mul_le_mul_right _ hn0
  have hNlt : n * 2 ^ 149 < 2 ^ 62 * 2 ^ 149 := Nat.mul_lt_mul_of_pos_right hn1 (by norm_num)
  obtain ⟨m, s, hm1, hm2, hK, hle⟩ := roundMag_shape (n * 2 ^ 149) hN
  have hd : roundMag (2 * n * 2 ^ 149) 1 = 2 * (m * 2 ^ s) := by
    rw [Nat.mul_assoc, roundMag_double _ hN, hK]
  have hpos : 0 < m * 2 ^ s := Nat.mul_pos (lt_of_lt_of_le (by norm_num) hm1)
    (pow_pos (by norm_num) _)
  have hb : 2 * (m * 2 ^ s) < 2 ^ 128 * 2 ^ 149 := by
    have : 2 ^ 62 * 2 ^ 149 * 4 ≤ 2 ^ 128 * 2 ^ 149 := by norm_num
    omega
  rw [hd, hK, F32.ofMag_of_lt _ _ hb, F32.ofMag_of_lt _ _ (by omega),
    F32.sub_fin_of_lt _ _ (by omega)]
  have e3 : 2 * (m * 2 ^ s) - m * 2 ^ s = m * 2 ^ s := by omega
  unfold F32.round
  rw [e3, roundMag_fixed m s hm1 hm2, F32.ofMag_of_lt _ _ (by omega),
    F32.div_fin_of_ne _ _ _ _ (by omega)]
  unfold F32.round
  rw [roundMag_div_self _ hpos, F32.ofMag_of_lt _ _ (by norm_num)]
  rfl

/-! ## Canonical rectangles -/

theorem Rect_canonical (x0 y0 x1 y1 : Int) :
    (Rect x0 y0 x1 y1).Min.X ≤ (Rect x0 y0 x1 y1).Max.X ∧
      (Rect x0 y0 x1 y1).Min.Y ≤ (Rect x0 y0 x1 y1).Max.Y := by
  unfold Rect
  constructor
  · show (if x0 > x1 then (x1, x0) else (x0, x1)).1 ≤ (if x0 > x1 then (x1, x0) else (x0, x1)).2
    split_ifs <;> simp <;> omega
  · show (if y0 > y1 then (y1, y0) else (y0, y1)).1 ≤ (if y0 > y1 then (y1, y0) else (y0, y1)).2
    split_ifs <;> simp <;> omega

theorem Rectangle.Canon_of_canonical (r : Rectangle) (hx : r.Min.X ≤ r.Max.X)
    (hy : r.Min.Y ≤ r.Max.Y) : r.Canon = r := by
  unfold Rectangle.Canon
  simp only [if_neg (not_lt.mpr hx), if_neg (not_lt.mpr hy)]

/-- The rectangle of a box is the canonical rectangle of its truncated corners. -/
theorem BoundingBox.ToRect_eq (b : BoundingBox) :
    b.ToRect = Rect b.X1.toInt b.Y1.toInt b.X2.toInt b.Y2.toInt := by
  unfold BoundingBox.ToRect
  exact Rectangle.Canon_of_canonical _ (Rect_canonical _ _ _ _).1 (Rect_canonical _ _ _ _).2

theorem BoundingBox.ToRect_canonical (b : BoundingBox) :
    b.ToRect.Min.X ≤ b.ToRect.Max.X ∧ b.ToRect.Min.Y ≤ b.ToRect.Max.Y := by
  rw [BoundingBox.ToRect_eq]
  exact Rect_canonical _ _ _ _

theorem Rectangle.Intersect_self (r : Rectangle) (h : r.Empty = false) :
    r.Intersect r = r := by
  unfold Rectangle.Intersect
  simp only [lt_irrefl, gt_iff_lt, if_false, h, Bool.false_eq_true]

/-! ## C7 -/

/-- C7 (amended): for every box whose canonical rectangle has positive area
`(x2 − x1)·(y2 − y1)` with twice that area below `2^63` (so that no `int`
operation wraps), `A.IoU(A)` is exactly `1.0`. -/
theorem C7_IoU_self (A : BoundingBox)
    (hpos : 0 < (A.ToRect.Max.X - A.ToRect.Min.X) * (A.ToRect.Max.Y - A.ToRect.Min.Y))
    (hfit : 2 * ((A.ToRect.Max.X - A.ToRect.Min.X) * (A.ToRect.Max.Y - A.ToRect.Min.Y))
      < 2 ^ 63) :
    A.IoU A = F32.one := by
  obtain ⟨hx, hy⟩ := A.ToRect_canonical
  have hw0 : 0 ≤ A.ToRect.Max.X - A.ToRect.Min.X := by omega
  have hh0 : 0 ≤ A.ToRect.Max.Y - A.ToRect.Min.Y := by omega
  have hw : 0 < A.ToRect.Max.X - A.ToRect.Min.X := by
    rcases eq_or_lt_of_le hw0 with h | h
    · rw [← h, zero_mul] at hpos; exact absurd hpos (lt_irrefl _)
    · exact h
  have hh : 0 < A.ToRect.Max.Y - A.ToRect.Min.Y := by
    rcases eq_or_lt_of_le hh0 with h | h
    · rw [← h, mul_zero] at hpos; exact absurd hpos (lt_irrefl _)
    · exact h
  have hwle : A.ToRect.Max.X - A.ToRect.Min.X
      ≤ (A.ToRect.Max.X - A.ToRect.Min.X) * (A.ToRect.Max.Y - A.ToRect.Min.Y) :=
    le_mul_of_one_le_right hw0 hh
  have hhle : A.ToRect.Max.Y - A.ToRect.Min.Y
      ≤ (A.ToRect.Max.X - A.ToRect.Min.X) * (A.ToRect.Max.Y - A.ToRect.Min.Y) :=
    le_mul_of_one_le_left hh0 hw
  have hne : A.ToRect.Empty = false := by
    unfold Rectangle.Empty
    rw [decide_eq_false (by omega), decide_eq_false (by omega)]
    rfl
  have hsize : A.ToRect.Size
      = ⟨A.ToRect.Max.X - A.ToRect.Min.X, A.ToRect.Max.Y - A.ToRect.Min.Y⟩ := by
    unfold Rectangle.Size
    rw [wrapInt_of_range _ (by omega) (by omega), wrapInt_of_range _ (by omega) (by omega)]
  have harea : A.RectArea
      = (A.ToRect.Max.X - A.ToRect.Min.X) * (A.ToRect.Max.Y - A.ToRect.Min.Y) := by
    unfold BoundingBox.RectArea
    simp only [hsize]
    exact wrapInt_of_range _ (by omega) (by omega)
  have hinter : A.Intersection A
      = F32.ofInt ((A.ToRect.Max.X - A.ToRect.Min.X) * (A.ToRect.Max.Y - A.ToRect.Min.Y)) := by
    unfold BoundingBox.Intersection
    simp only [Rectangle.Intersect_self _ hne, Rectangle.Canon_of_canonical _ hx hy, hsize]
    rw [wrapInt_of_range _ (by omega) (by omega)]
  unfold BoundingBox.IoU BoundingBox.Union
  simp only [hinter, harea]
  rw [← two_mul, wrapInt_of_range _ (by omega) (by omega)]
  exact F32.area_ratio _ hpos hfit

set_option maxRecDepth 100000 in
/-- C7 (as stated, refuted): the box `(0,0)-(2^31,2^31)` has area `2^62 > 0`, but the
sum of the two areas wraps to `-2^63`, the union is `-2^63 − 2^62` and
`IoU(A, A)` is the float32 nearest to `-1/3`. -/
theorem C7_counterexample :
    0 < (bigBox.ToRect.Max.X - bigBox.ToRect.Min.X) * (bigBox.ToRect.Max.Y - bigBox.ToRect.Min.Y) ∧
      bigBox.RectArea = 2 ^ 62 ∧
      bigBox.IoU bigBox = F32.neg (F32.lit 1 3) ∧
      bigBox.IoU bigBox ≠ F32.one := by
  decide

set_option maxRecDepth 100000 in
/-- C7, at the box `(0,0)-(10,10)` of area 100. -/
theorem C7_IoU_self_witness : tenBox.IoU tenBox = F32.one :=
  C7_IoU_self tenBox (by decide) (by decide)

/-! ## Disjoint and degenerate rectangles -/

/-- Rectangles that do not overlap intersect in the zero rectangle. -/
theorem Rectangle.Intersect_of_not_overlaps (r s : Rectangle) (h : r.Overlaps s = false) :
    r.Intersect s = ZR := by
  have hE : Rectangle.Empty
      ⟨⟨if r.Min.X < s.Min.X then s.Min.X else r.Min.X,
          if r.Min.Y < s.Min.Y then s.Min.Y else r.Min.Y⟩,
        ⟨if r.Max.X > s.Max.X then s.Max.X else r.Max.X,
          if r.Max.Y > s.Max.Y then s.Max.Y else r.Max.Y⟩⟩ = true := by
    by_contra hc
    rw [Bool.not_eq_true] at hc
    simp only [Rectangle.Empty, Bool.or_eq_false_iff, decide_eq_false_iff_not] at hc
    obtain ⟨hx, hy⟩ := hc
    have hov : r.Overlaps s = true := by
      simp only [Rectangle.Overlaps, Rectangle.Empty, Bool.and_eq_true, Bool.not_eq_true',
        Bool.or_eq_false_iff, decide_eq_true_eq, decide_eq_false_iff_not]
      split_ifs at hx hy <;> omega
    rw [h] at hov
    cases hov
  show (if Rectangle.Empty
      ⟨⟨if r.Min.X < s.Min.X then s.Min.X else r.Min.X,
          if r.Min.Y < s.Min.Y then s.Min.Y else r.Min.Y⟩,
        ⟨if r.Max.X > s.Max.X then s.Max.X else r.Max.X,
          if r.Max.Y > s.Max.Y then s.Max.Y else r.Max.Y⟩⟩ = true then ZR else _) = ZR
  rw [if_pos hE]

theorem F32.ofInt_zero : F32.ofInt 0 = F32.zero := by
  decide

/-- The intersection area of boxes whose rectangles do not overlap is `0`. -/
theorem BoundingBox.Intersection_of_not_overlaps (A B : BoundingBox)
    (h : A.ToRect.Overlaps B.ToRect = false) : A.Intersection B = F32.zero := by
  unfold BoundingBox.Intersection
  simp only [Rectangle.Intersect_of_not_overlaps _ _ h]
  exact F32.ofInt_zero

theorem F32.ofMag_ne_nan (s : Bool) (k : Nat) : F32.ofMag s k ≠ F32.nan := by
  unfold F32.ofMag
  split_ifs <;> exact fun hn => F32.noConfusion hn

theorem F32.round_ne_nan (s : Bool) (n d : Nat) : F32.round s n d ≠ F32.nan :=
  F32.ofMag_ne_nan _ _

/-- Subtracting `0` from a converted integer never gives NaN. -/
theorem F32.ofInt_sub_zero_ne_nan (w : Int) : F32.sub (F32.ofInt w) F32.zero ≠ F32.nan := by
  unfold F32.ofInt F32.round F32.ofMag
  split_ifs
  · show F32.add (F32.fin _ _) (F32.fin true 0) ≠ F32.nan
    simp only [F32.add]
    split_ifs <;> first | exact F32.round_ne_nan _ _ _ | exact fun hn => F32.noConfusion hn
  · exact fun hn => F32.noConfusion hn

theorem roundMag_zero (d : Nat) (hd : 0 < d) : roundMag 0 d = 0 := by
  rw [roundMag_of_exact 0 d 0 (by rw [Nat.zero_div, if_pos (by norm_num)])
    (by rw [pow_zero, Nat.mul_one]; exact hd) (Nat.zero_mod _)]
  rw [Nat.zero_div, Nat.zero_mul]

/-- Zero divided by a non-zero value that is not NaN compares equal to `0`. -/
theorem F32.zero_div (u : F32) (hn : u ≠ F32.nan) (hz : F32.eq u F32.zero = false) :
    F32.eq (F32.div F32.zero u) F32.zero = true := by
  cases u with
  | nan => exact absurd rfl hn
  | inf b => cases b <;> decide
  | fin b y =>
    have hy : y ≠ 0 := by
      rintro rfl
      cases b <;> simp [F32.eq, F32.zero, F32.signed] at hz
    unfold F32.zero
    rw [F32.div_fin_of_ne _ _ _ _ hy]
    unfold F32.round
    rw [Nat.zero_mul, roundMag_zero y (by omega), F32.ofMag_of_lt _ _ (by norm_num)]
    cases b <;> decide

/-! ## C8 -/

/-- C8 (amended): for boxes whose canonical rectangles do not overlap, the
intersection area is `0`, and `IoU` equals `0` whenever the union area is not `0`
(at least one of the boxes has a non-zero area). -/
theorem C8_disjoint (A B : BoundingBox) (hdis : A.ToRect.Overlaps B.ToRect = false) :
    A.Intersection B = F32.zero ∧
      (F32.eq (A.Union B) F32.zero = false → F32.eq (A.IoU B) F32.zero = true) := by
  have hI := BoundingBox.Intersection_of_not_overlaps A B hdis
  refine ⟨hI, fun hU => ?_⟩
  have hne : A.Union B ≠ F32.nan := by
    unfold BoundingBox.Union
    simp only [hI]
    exact F32.ofInt_sub_zero_ne_nan _
  unfold BoundingBox.IoU
  rw [hI]
  exact F32.zero_div _ hne hU

set_option maxRecDepth 100000 in
/-- C8 (as stated, refuted): the degenerate boxes `(0,0)-(0,0)` and `(5,5)-(5,5)`
do not overlap and their intersection is `0`, but their union is `0` too and
`IoU` is `0/0 = NaN`, which does not equal `0`. -/
theorem C8_counterexample :
    pointBox.ToRect.Overlaps farPointBox.ToRect = false ∧
      pointBox.Intersection farPointBox = F32.zero ∧
      pointBox.IoU farPointBox = F32.nan ∧
      F32.eq (pointBox.IoU farPointBox) F32.zero = false := by
  decide

set_option maxRecDepth 100000 in
/-- C8, at the disjoint boxes `(0,0)-(10,10)` and `(20,20)-(30,30)`. -/
theorem C8_disjoint_witness :
    tenBox.Intersection farBox = F32.zero ∧ F32.eq (tenBox.IoU farBox) F32.zero = true :=
  ⟨(C8_disjoint tenBox farBox (by decide)).1, (C8_disjoint tenBox farBox (by decide)).2 (by decide)⟩

/-! ## C9 -/

/-- The area of an empty canonical rectangle is `0`. -/
theorem BoundingBox.RectArea_of_empty (A : BoundingBox) (h : A.ToRect.Empty = true) :
    A.RectArea = 0 := by
  obtain ⟨hx, hy⟩ := A.ToRect_canonical
  unfold Rectangle.Empty at h
  rw [Bool.or_eq_true, decide_eq_true_eq, decide_eq_true_eq] at h
  unfold BoundingBox.RectArea Rectangle.Size
  rcases h with h | h
  · have e : A.ToRect.Max.X - A.ToRect.Min.X = 0 := by omega
    simp only [e]
    rw [show wrapInt 0 = 0 from rfl, zero_mul]
    rfl
  · have e : A.ToRect.Max.Y - A.ToRect.Min.Y = 0 := by omega
    simp only [e]
    rw [show wrapInt 0 = 0 from rfl, mul_zero]
    rfl

/-- C9 (amended): for boxes whose canonical rectangles are both empty (zero area),
the intersection and union areas are `0` and `IoU`, an unguarded float division
`0/0`, returns NaN; the division does not panic. -/
theorem C9_degenerate (A B : BoundingBox) (hA : A.ToRect.Empty = true)
    (hB : B.ToRect.Empty = true) :
    A.Intersection B = F32.zero ∧ A.Union B = F32.zero ∧ A.IoU B = F32.nan := by
  have hov : A.ToRect.Overlaps B.ToRect = false := by
    unfold Rectangle.Overlaps
    rw [hA]
    rfl
  have hI := BoundingBox.Intersection_of_not_overlaps A B hov
  have hU : A.Union B = F32.zero := by
    unfold BoundingBox.Union
    simp only [hI, BoundingBox.RectArea_of_empty A hA, BoundingBox.RectArea_of_empty B hB]
    decide
  refine ⟨hI, hU, ?_⟩
  unfold BoundingBox.IoU
  rw [hI, hU]
  decide

set_option maxRecDepth 100000 in
/-- C9 (as stated, refuted): for the degenerate box `(0,0)-(0,0)` paired with itself
the union area is `0` and `IoU` returns NaN, not `0`. -/
theorem C9_counterexample :
    pointBox.Union pointBox = F32.zero ∧ pointBox.IoU pointBox = F32.nan ∧
      F32.eq (pointBox.IoU pointBox) F32.zero = false := by
  decide

set_option maxRecDepth 100000 in
/-- C9, at the degenerate boxes `(0,0)-(0,0)` and `(5,5)-(5,5)`. -/
theorem C9_degenerate_witness :
    pointBox.Intersection farPointBox = F32.zero ∧ pointBox.Union farPointBox = F32.zero ∧
      pointBox.IoU farPointBox = F32.nan :=
  C9_degenerate pointBox farPointBox (by decide) (by decide)

/-! ## The encoding loop -/

/-- Pixels of an earlier row lie before the start of a later row. -/
theorem row_lt (W y1 x1 y : Nat) (hx : x1 < W) (hy : y1 < y) : y1 * W + x1 < y * W := by
  calc y1 * W + x1 < y1 * W + W := by omega
    _ = (y1 + 1) * W := by ring
    _ ≤ y * W := Nat.mul_le_mul_right W hy

/-- The three stores of one pixel: the values read back. -/
theorem stores_read (d : List F32) (cs i : Nat) (r g b : F32) (hi : i < cs)
    (hlen : cs * 3 ≤ d.length) :
    (((d.set i r).set (cs + i) g).set (cs * 2 + i) b)[i]? = some r ∧
      (((d.set i r).set (cs + i) g).set (cs * 2 + i) b)[cs + i]? = some g ∧
      (((d.set i r).set (cs + i) g).set (cs * 2 + i) b)[cs * 2 + i]? = some b := by
  refine ⟨?_, ?_, ?_⟩
  · rw [List.getElem?_set_ne (by omega), List.getElem?_set_ne (by omega),
      List.getElem?_set_self (by omega)]
  · rw [List.getElem?_set_ne (by omega),
      List.getElem?_set_self (by rw [List.length_set]; omega)]
  · rw [List.getElem?_set_self (by rw [List.length_set, List.length_set]; omega)]

/-- The three stores of one pixel leave every other element as it was. -/
theorem stores_other (d : List F32) (cs i j : Nat) (r g b : F32) (h1 : j ≠ i)
    (h2 : j ≠ cs + i) (h3 : j ≠ cs * 2 + i) :
    (((d.set i r).set (cs + i) g).set (cs * 2 + i) b)[j]? = d[j]? := by
  rw [List.getElem?_set_ne (Ne.symm h3), List.getElem?_set_ne (Ne.symm h2),
    List.getElem?_set_ne (Ne.symm h1)]

/-- One iteration of the pixel loop: no panic, and the three stores. -/
theorem fillPixel_ok (img : Image) (cs y x i : Nat) (d : List F32) (hi : i < cs)
    (hlen : cs * 3 ≤ d.length) (hcap : d.length < 2 ^ 63) :
    Processor.fillPixel img ⟨0, cs⟩ ⟨cs, cs⟩ ⟨cs * 2, cs⟩ y x ((i : Int), d) =
      .ok (((i + 1 : Nat) : Int),
        ((d.set i (Processor.normalize_of img x y 0)).set (cs + i)
          (Processor.normalize_of img x y 1)).set (cs * 2 + i)
          (Processor.normalize_of img x y 2)) := by
  have hc : (0 : Int) ≤ (i : Int) ∧ (i : Int) < ((cs : Nat) : Int) := by omega
  have hw : wrapInt ((i : Int) + 1) = ((i + 1 : Nat) : Int) := by
    rw [wrapInt_of_range _ (by omega) (by omega)]
    push_cast
    rfl
  unfold Processor.fillPixel store
  simp only [if_pos hc, ok_bind, Int.toNat_ofNat, Nat.zero_add, hw]
  rfl

/-- One row of the pixel loop: no panic; the row is filled and nothing before it
is overwritten. -/
theorem fillRow_ok (p : Processor) (img : Image) (cs y : Nat) (d : List F32)
    (hrow : (y + 1) * p.ModelWidth ≤ cs) (hlen : cs * 3 ≤ d.length)
    (hcap : d.length < 2 ^ 63) (hinv : PlanesUpTo img p.ModelWidth cs d y 0) :
    ∃ d1, p.fillRow img ⟨0, cs⟩ ⟨cs, cs⟩ ⟨cs * 2, cs⟩ y (((y * p.ModelWidth : Nat) : Int), d)
        = .ok ((((y + 1) * p.ModelWidth : Nat) : Int), d1) ∧
      d1.length = d.length ∧ PlanesUpTo img p.ModelWidth cs d1 (y + 1) 0 := by
  have hWle : p.ModelWidth ≤ (y + 1) * p.ModelWidth := Nat.le_mul_of_pos_left _ (by omega)
  have hyW : (y + 1) * p.ModelWidth = y * p.ModelWidth + p.ModelWidth := by ring
  unfold Processor.fillRow
  rw [intOfUint_of_lt _ (by omega)]
  obtain ⟨r, hr, h1, h2, h3⟩ := forRange_total p.ModelWidth
    (Processor.fillPixel img ⟨0, cs⟩ ⟨cs, cs⟩ ⟨cs * 2, cs⟩ y)
    (((y * p.ModelWidth : Nat) : Int), d)
    (fun x st => st.1 = ((y * p.ModelWidth + x : Nat) : Int) ∧ st.2.length = d.length ∧
      PlanesUpTo img p.ModelWidth cs st.2 y x)
    ⟨rfl, rfl, hinv⟩
    (fun x st hx hI => by
      obtain ⟨hi, hl, hP⟩ := hI
      obtain ⟨i0, d0⟩ := st
      simp only at hi hl hP
      subst hi
      have hic : y * p.ModelWidth + x < cs := by omega
      rw [fillPixel_ok img cs y x _ d0 hic (by omega) (by omega)]
      refine ⟨_, rfl, rfl, ?_, ?_⟩
      · simp only [List.length_set]
        exact hl
      · intro y1 x1 hx1 hbefore
        by_cases hcur : y1 = y ∧ x1 = x
        · obtain ⟨rfl, rfl⟩ := hcur
          exact stores_read d0 cs _ _ _ _ hic (by omega)
        · have hold : y1 < y ∨ (y1 = y ∧ x1 < x) := by omega
          have hj : y1 * p.ModelWidth + x1 < y * p.ModelWidth + x := by
            rcases hold with h | ⟨h, h'⟩
            · have := row_lt p.ModelWidth y1 x1 y hx1 h
              omega
            · subst h
              omega
          obtain ⟨a1, a2, a3⟩ := hP y1 x1 hx1 hold
          refine ⟨?_, ?_, ?_⟩
          · rw [stores_other _ _ _ _ _ _ _ (by omega) (by omega) (by omega)]
            exact a1
          · rw [stores_other _ _ _ _ _ _ _ (by omega) (by omega) (by omega)]
            exact a2
          · rw [stores_other _ _ _ _ _ _ _ (by omega) (by omega) (by omega)]
            exact a3)
  obtain ⟨i1, d1⟩ := r
  simp only at h1 h2 h3
  subst h1
  refine ⟨d1, ?_, h2, ?_⟩
  · rw [hr, hyW]
  · intro y1 x1 hx1 hbefore
    exact h3 y1 x1 hx1 (by omega)

/-- Every channel value in `[0, 0xffff]` is normalised into `[0, 1]`. -/
theorem normalize_byte : ∀ n < 256,
    F32.le F32.zero (F32.div (F32.ofNat n) F32.c255) = true ∧
      F32.le (F32.div (F32.ofNat n) F32.c255) F32.one = true := by
  set_option maxRecDepth 1000000 in decide

theorem normalize_range (c : Nat) (hc : c ≤ 65535) :
    F32.le F32.zero (normalize c) = true ∧ F32.le (normalize c) F32.one = true := by
  unfold normalize
  exact normalize_byte _ (by omega)

theorem normalize_rgba8 (R : Nat) (hR : R < 256) :
    normalize (R * 257) = F32.div (F32.ofNat R) F32.c255 := by
  unfold normalize
  have h1 : R * 257 % 2 ^ 32 = R * 257 := Nat.mod_eq_of_lt (by omega)
  have h2 : R * 257 / 2 ^ 8 = R := by omega
  rw [h1, h2]

/-! ## C10 -/

/-- What `InputToData` writes.  For a processor with three input channels and a
buffer of length at least `3·H·W`, `InputToData` completes without error and the
buffer holds three contiguous planes, red, green, blue: `data[c·H·W + y·W + x]` is
`float32(channel >> 8) / 255` for channel `c` of the colour that the resampled image
returns from `At(x, y)`, with `x` and `y` counted from `0` whatever the bounds of
that image are; every value written lies in `[0, 1]` when the colours read are
colour values (channels at most `0xffff`); and when `At(x, y)` is the 8-bit colour
`(R, G, B, A)` for every `x < W` and `y < H`, every element of plane `c` is
`float32(colorChannel_c) / 255`. -/
theorem InputToData_planes (resize : Resize) (p : Processor) (data : List F32)
    (hch : p.ModelInputChannels = 3)
    (hlen : 3 * p.ModelHeight * p.ModelWidth ≤ data.length)
    (hcap : data.length < 2 ^ 63) :
    ∃ r, p.InputToData resize data = .ok r ∧ r.err = none ∧
      r.data.length = data.length ∧
      (∀ c y x, c < 3 → y < p.ModelHeight → x < p.ModelWidth →
        r.data[c * p.ModelHeight * p.ModelWidth + y * p.ModelWidth + x]? =
          some (Processor.normalize_of (resize p.ModelWidth p.ModelHeight p.Image) x y c)) ∧
      ((∀ y x, y < p.ModelHeight → x < p.ModelWidth →
          ((resize p.ModelWidth p.ModelHeight p.Image).At (x : Int) (y : Int)).r ≤ 65535 ∧
          ((resize p.ModelWidth p.ModelHeight p.Image).At (x : Int) (y : Int)).g ≤ 65535 ∧
          ((resize p.ModelWidth p.ModelHeight p.Image).At (x : Int) (y : Int)).b ≤ 65535) →
        ∀ c y x, c < 3 → y < p.ModelHeight → x < p.ModelWidth →
          ∃ v, r.data[c * p.ModelHeight * p.ModelWidth + y * p.ModelWidth + x]? = some v ∧
            F32.le F32.zero v = true ∧ F32.le v F32.one = true) ∧
      (∀ R G B A, R < 256 → G < 256 → B < 256 →
        (∀ y x, y < p.ModelHeight → x < p.ModelWidth →
          (resize p.ModelWidth p.ModelHeight p.Image).At (x : Int) (y : Int) = rgba8 R G B A) →
        ∀ i, i < p.ModelHeight * p.ModelWidth →
          r.data[i]? = some (F32.div (F32.ofNat R) F32.c255) ∧
          r.data[p.ModelHeight * p.ModelWidth + i]? = some (F32.div (F32.ofNat G) F32.c255) ∧
          r.data[2 * (p.ModelHeight * p.ModelWidth) + i]? =
            some (F32.div (F32.ofNat B) F32.c255)) := by
  have hcs3 : p.ModelHeight * p.ModelWidth * 3 ≤ data.length := by
    have : 3 * p.ModelHeight * p.ModelWidth = p.ModelHeight * p.ModelWidth * 3 := by ring
    omega
  have hH : 0 < p.ModelWidth → p.ModelHeight ≤ p.ModelHeight * p.ModelWidth :=
    fun h => Nat.le_mul_of_pos_right _ h
  have hn : 0 < p.ModelWidth → (intOfUint p.ModelHeight).toNat = p.ModelHeight := by
    intro h
    have := hH h
    rw [intOfUint_of_lt _ (by omega), Int.toNat_ofNat]
  -- the guard and the three sub-slices
  have hguard : ¬ ((data.length : Int) < intOfUint (wrapUint
      (wrapUint (p.ModelHeight * p.ModelWidth) * p.ModelInputChannels))) := by
    rw [hch, wrapUint_of_lt (p.ModelHeight * p.ModelWidth) (by omega),
      wrapUint_of_lt _ (by omega), intOfUint_of_lt _ (by omega)]
    omega
  have hred : slice data.length 0 (p.ModelHeight * p.ModelWidth)
      = .ok ⟨0, p.ModelHeight * p.ModelWidth⟩ := by
    unfold slice
    rw [if_pos (by omega)]
    rfl
  have hgreen : slice data.length (p.ModelHeight * p.ModelWidth)
      (p.ModelHeight * p.ModelWidth * 2)
      = .ok ⟨p.ModelHeight * p.ModelWidth, p.ModelHeight * p.ModelWidth⟩ := by
    unfold slice
    rw [if_pos (by omega)]
    congr 2
    omega
  have hblue : slice data.length (p.ModelHeight * p.ModelWidth * 2)
      (p.ModelHeight * p.ModelWidth * 3)
      = .ok ⟨p.ModelHeight * p.ModelWidth * 2, p.ModelHeight * p.ModelWidth⟩ := by
    unfold slice
    rw [if_pos (by omega)]
    congr 2
    omega
  -- the row loop
  obtain ⟨st, hst, h1, h2, h3⟩ := forRange_total (intOfUint p.ModelHeight).toNat
    (p.fillRow (resize p.ModelWidth p.ModelHeight p.Image)
      ⟨0, p.ModelHeight * p.ModelWidth⟩
      ⟨p.ModelHeight * p.ModelWidth, p.ModelHeight * p.ModelWidth⟩
      ⟨p.ModelHeight * p.ModelWidth * 2, p.ModelHeight * p.ModelWidth⟩)
    ((0 : Int), data)
    (fun y s => s.1 = ((y * p.ModelWidth : Nat) : Int) ∧ s.2.length = data.length ∧
      PlanesUpTo (resize p.ModelWidth p.ModelHeight p.Image) p.ModelWidth
        (p.ModelHeight * p.ModelWidth) s.2 y 0)
    ⟨by simp, rfl, fun y1 x1 _ hb => by omega⟩
    (fun y s hy hI => by
      obtain ⟨hi, hl, hP⟩ := hI
      obtain ⟨i0, d0⟩ := s
      simp only at hi hl hP
      subst hi
      have hrow : (y + 1) * p.ModelWidth ≤ p.ModelHeight * p.ModelWidth := by
        rcases Nat.eq_zero_or_pos p.ModelWidth with h0 | h0
        · rw [h0]; simp
        · rw [hn h0] at hy
          exact Nat.mul_le_mul_right _ hy
      obtain ⟨d1, hd1, hl1, hP1⟩ := fillRow_ok p (resize p.ModelWidth p.ModelHeight p.Image)
        (p.ModelHeight * p.ModelWidth) y d0 hrow (by omega) (by omega) hP
      exact ⟨_, hd1, rfl, hl1.trans hl, hP1⟩)
  obtain ⟨i1, d1⟩ := st
  simp only at h1 h2 h3
  have hrun : p.InputToData resize data = .ok ⟨none,
      resize (uintOfInt p.Image.Bounds.Dx) (uintOfInt p.Image.Bounds.Dy)
        (resize p.ModelWidth p.ModelHeight p.Image), d1⟩ := by
    unfold Processor.InputToData
    simp only [if_neg hguard]
    rw [wrapUint_of_lt (p.ModelHeight * p.ModelWidth) (by omega),
      wrapUint_of_lt (p.ModelHeight * p.ModelWidth * 2) (by omega),
      wrapUint_of_lt (p.ModelHeight * p.ModelWidth * 3) (by omega),
      hred, ok_bind, hgreen, ok_bind, hblue, ok_bind, forRange_toNat, hst, ok_bind]
    rfl
  have hplane : ∀ c y x, c < 3 → y < p.ModelHeight → x < p.ModelWidth →
      d1[c * p.ModelHeight * p.ModelWidth + y * p.ModelWidth + x]? =
        some (Processor.normalize_of (resize p.ModelWidth p.ModelHeight p.Image) x y c) := by
    intro c y x hc hy hx
    have hyn : y < (intOfUint p.ModelHeight).toNat := by rw [hn (by omega)]; exact hy
    obtain ⟨a0, a1, a2⟩ := h3 y x hx (Or.inl hyn)
    interval_cases c
    · rw [show 0 * p.ModelHeight * p.ModelWidth + y * p.ModelWidth + x
        = y * p.ModelWidth + x by simp]
      exact a0
    · rw [show 1 * p.ModelHeight * p.ModelWidth + y * p.ModelWidth + x
        = p.ModelHeight * p.ModelWidth + (y * p.ModelWidth + x) by ring]
      exact a1
    · rw [show 2 * p.ModelHeight * p.ModelWidth + y * p.ModelWidth + x
        = p.ModelHeight * p.ModelWidth * 2 + (y * p.ModelWidth + x) by ring]
      exact a2
  refine ⟨_, hrun, rfl, h2, hplane, ?_, ?_⟩
  · intro hcol c y x hc hy hx
    obtain ⟨hr, hg, hb⟩ := hcol y x hy hx
    refine ⟨_, hplane c y x hc hy hx, ?_⟩
    interval_cases c
    · exact normalize_range _ hr
    · exact normalize_range _ hg
    · exact normalize_range _ hb
  intro R G B A hR hG hB hsolid i hi
  have hW : 0 < p.ModelWidth := by
    rcases Nat.eq_zero_or_pos p.ModelWidth with h0 | h0
    · rw [h0] at hi; simp at hi
    · exact h0
  have hy : i / p.ModelWidth < p.ModelHeight := (Nat.div_lt_iff_lt_mul hW).mpr hi
  have hx : i % p.ModelWidth < p.ModelWidth := Nat.mod_lt _ hW
  have hi2 : i / p.ModelWidth * p.ModelWidth + i % p.ModelWidth = i := by
    rw [Nat.mul_comm]
    exact Nat.div_add_mod i p.ModelWidth
  have hcol := hsolid _ _ hy hx
  have b0 := hplane 0 _ _ (by norm_num) hy hx
  have b1 := hplane 1 _ _ (by norm_num) hy hx
  have b2 := hplane 2 _ _ (by norm_num) hy hx
  unfold Processor.normalize_of at b0 b1 b2
  simp only [hcol, rgba8] at b0 b1 b2
  rw [normalize_rgba8 R hR] at b0
  rw [normalize_rgba8 G hG] at b1
  rw [normalize_rgba8 B hB] at b2
  have e0 : 0 * p.ModelHeight * p.ModelWidth + i / p.ModelWidth * p.ModelWidth
      + i % p.ModelWidth = i := by
    rw [Nat.zero_mul, Nat.zero_mul, Nat.zero_add]
    exact hi2
  have e1 : 1 * p.ModelHeight * p.ModelWidth + i / p.ModelWidth * p.ModelWidth
      + i % p.ModelWidth = p.ModelHeight * p.ModelWidth + i := by
    rw [Nat.one_mul, Nat.add_assoc, hi2]
  have e2 : 2 * p.ModelHeight * p.ModelWidth + i / p.ModelWidth * p.ModelWidth
      + i % p.ModelWidth = 2 * (p.ModelHeight * p.ModelWidth) + i := by
    rw [Nat.mul_assoc, Nat.add_assoc, hi2]
  rw [e0] at b0
  rw [e1] at b1
  rw [e2] at b2
  exact ⟨b0, b1, b2⟩

set_option maxRecDepth 100000 in
/-- The planes at the input of `TestProcessorInputToData_FillsTensor` scaled down to a
2×2 model: a solid image of colour `(128, 64, 32, 255)` with bounds
`(0,0)-(2,2)` and a buffer of 12 zeros; the three planes of four elements hold
`128/255`, `64/255` and `32/255`. -/
theorem InputToData_planes_smallProcessor :
    ∃ r, smallProcessor.InputToData keepImage (List.replicate 12 F32.zero) = .ok r ∧
      r.err = none ∧ r.data.length = 12 ∧
      ∀ i, i < 4 →
        r.data[i]? = some (F32.div (F32.ofNat 128) F32.c255) ∧
        r.data[4 + i]? = some (F32.div (F32.ofNat 64) F32.c255) ∧
        r.data[8 + i]? = some (F32.div (F32.ofNat 32) F32.c255) := by
  obtain ⟨r, h1, h2, h3, _, _, h6⟩ :=
    InputToData_planes keepImage smallProcessor (List.replicate 12 F32.zero)
      rfl (by decide) (by decide)
  refine ⟨r, h1, h2, h3.trans (List.length_replicate _ _), fun i hi =>
    h6 128 64 32 255 (by decide) (by decide) (by decide) ?_ i hi⟩
  intro y x hy hx
  have hy2 : y < 2 := hy
  have hx2 : x < 2 := hx
  interval_cases y <;> interval_cases x <;> rfl

/-! ## C10 -/

set_option maxRecDepth 100000 in
/-- C10 (code defect): `InputToData` reads `At(x, y)` for `x` and `y` counted from
`0` and never looks at `Bounds().Min`.  For a solid 2×2 image of the colour
`(128, 64, 32, 255)` with bounds `(10,10)-(12,12)`, already of the size of the 2×2
model and therefore returned unchanged by the resampler, and a buffer of 12 zeros,
every read falls outside the image and returns the zero colour: the call succeeds
and leaves twelve zeros, whereas every pixel of the image has the red, green and
blue channels 128, 64 and 32, whose normalised values `128/255`, `64/255` and
`32/255` are not zero. -/
theorem C10_InputToData_ignores_bounds_min :
    offsetProcessor.ModelInputChannels = 3 ∧
      3 * offsetProcessor.ModelHeight * offsetProcessor.ModelWidth ≤
        (List.replicate 12 F32.zero).length ∧
      offsetProcessor.Image.Bounds.Dx = 2 ∧ offsetProcessor.Image.Bounds.Dy = 2 ∧
      offsetProcessor.Image.At 10 10 = rgba8 128 64 32 255 ∧
      offsetProcessor.Image.At 11 10 = rgba8 128 64 32 255 ∧
      offsetProcessor.Image.At 10 11 = rgba8 128 64 32 255 ∧
      offsetProcessor.Image.At 11 11 = rgba8 128 64 32 255 ∧
      (offsetProcessor.InputToData keepImage (List.replicate 12 F32.zero)).map
          (fun r => (r.err, r.data)) = .ok (none, List.replicate 12 F32.zero) ∧
      normalize (rgba8 128 64 32 255).r = F32.div (F32.ofNat 128) F32.c255 ∧
      normalize (rgba8 128 64 32 255).g = F32.div (F32.ofNat 64) F32.c255 ∧
      normalize (rgba8 128 64 32 255).b = F32.div (F32.ofNat 32) F32.c255 ∧
      F32.eq (F32.div (F32.ofNat 128) F32.c255) F32.zero = false ∧
      F32.eq (F32.div (F32.ofNat 64) F32.c255) F32.zero = false ∧
      F32.eq (F32.div (F32.ofNat 32) F32.c255) F32.zero = false := by
  decide

/-! ## C11 -/

/-- A converted coordinate is an `int`. -/
theorem F32.toInt_range (x : F32) : -(2 ^ 63 : Int) ≤ x.toInt ∧ x.toInt < 2 ^ 63 := by
  cases x with
  | nan => exact ⟨le_refl _, by show -(2 ^ 63 : Int) < 2 ^ 63; norm_num⟩
  | inf s => exact ⟨le_refl _, by show -(2 ^ 63 : Int) < 2 ^ 63; norm_num⟩
  | fin s k =>
    show -(2 ^ 63 : Int) ≤ (if _ then _ else _) ∧ (if _ then _ else _) < (2 ^ 63 : Int)
    split_ifs with h
    · exact h
    · exact ⟨le_refl _, by norm_num⟩

/-- The size of `image.Rect` is the distance between the larger and the smaller
coordinate on each axis. -/
theorem Rect_Size (x0 y0 x1 y1 : Int) :
    (Rect x0 y0 x1 y1).Size =
      ⟨wrapInt (max x0 x1 - min x0 x1), wrapInt (max y0 y1 - min y0 y1)⟩ := by
  have hx : (Rect x0 y0 x1 y1).Max.X - (Rect x0 y0 x1 y1).Min.X = max x0 x1 - min x0 x1 := by
    show (if x0 > x1 then (x1, x0) else (x0, x1)).2 - (if x0 > x1 then (x1, x0) else (x0, x1)).1 = _
    split_ifs with h
    · rw [max_eq_left (le_of_lt h), min_eq_right (le_of_lt h)]
    · rw [max_eq_right (not_lt.mp h), min_eq_left (not_lt.mp h)]
  have hy : (Rect x0 y0 x1 y1).Max.Y - (Rect x0 y0 x1 y1).Min.Y = max y0 y1 - min y0 y1 := by
    show (if y0 > y1 then (y1, y0) else (y0, y1)).2 - (if y0 > y1 then (y1, y0) else (y0, y1)).1 = _
    split_ifs with h
    · rw [max_eq_left (le_of_lt h), min_eq_right (le_of_lt h)]
    · rw [max_eq_right (not_lt.mp h), min_eq_left (not_lt.mp h)]
  unfold Rectangle.Size
  rw [hx, hy]

/-- The product of two wrapped non-negative extents whose true product fits in `int`
is the true product. -/
theorem wrapInt_mul_of_lt (w h : Int) (hw : 0 ≤ w) (hh : 0 ≤ h) (hp : w * h < 2 ^ 63) :
    wrapInt (wrapInt w * wrapInt h) = w * h := by
  rcases eq_or_lt_of_le hw with hw0 | hw0
  · rw [← hw0, show wrapInt 0 = 0 from rfl, zero_mul, zero_mul]
    rfl
  rcases eq_or_lt_of_le hh with hh0 | hh0
  · rw [← hh0, show wrapInt 0 = 0 from rfl, mul_zero, mul_zero]
    rfl
  have h1 : w ≤ w * h := le_mul_of_one_le_right hw (by omega)
  have h2 : h ≤ w * h := le_mul_of_one_le_left hh (by omega)
  have h3 : 0 ≤ w * h := mul_nonneg hw hh
  rw [wrapInt_of_range w (by omega) (by omega), wrapInt_of_range h (by omega) (by omega),
    wrapInt_of_range (w * h) (by omega) hp]

/-- C11 (amended): for a box whose truncated corners span a rectangle of area below
`2^63`, `RectArea` is non-negative and equals
`(max(x1,x2) − min(x1,x2)) × (max(y1,y2) − min(y1,y2))` of the corners truncated to
`int`. -/
theorem C11_RectArea (b : BoundingBox)
    (h : (max b.X1.toInt b.X2.toInt - min b.X1.toInt b.X2.toInt) *
      (max b.Y1.toInt b.Y2.toInt - min b.Y1.toInt b.Y2.toInt) < 2 ^ 63) :
    0 ≤ b.RectArea ∧
      b.RectArea = (max b.X1.toInt b.X2.toInt - min b.X1.toInt b.X2.toInt) *
        (max b.Y1.toInt b.Y2.toInt - min b.Y1.toInt b.Y2.toInt) := by
  have hw : 0 ≤ max b.X1.toInt b.X2.toInt - min b.X1.toInt b.X2.toInt :=
    sub_nonneg.mpr (le_trans (min_le_left _ _) (le_max_left _ _))
  have hh : 0 ≤ max b.Y1.toInt b.Y2.toInt - min b.Y1.toInt b.Y2.toInt :=
    sub_nonneg.mpr (le_trans (min_le_left _ _) (le_max_left _ _))
  have e : b.RectArea = (max b.X1.toInt b.X2.toInt - min b.X1.toInt b.X2.toInt) *
      (max b.Y1.toInt b.Y2.toInt - min b.Y1.toInt b.Y2.toInt) := by
    unfold BoundingBox.RectArea
    rw [BoundingBox.ToRect_eq, Rect_Size]
    exact wrapInt_mul_of_lt _ _ hw hh h
  exact ⟨by rw [e]; exact mul_nonneg hw hh, e⟩

set_option maxRecDepth 100000 in
/-- C11 (as stated, refuted): the box `(0,0)-(2^32,2^31)` has width `2^32` and
height `2^31`; the product `2^63` wraps and `RectArea` returns `-2^63`, which is
negative and is not the product. -/
theorem C11_counterexample :
    wideBox.ToRect = ⟨⟨0, 0⟩, ⟨4294967296, 2147483648⟩⟩ ∧
      wideBox.RectArea = -(2 ^ 63) ∧ ¬ (0 ≤ wideBox.RectArea) ∧
      wideBox.RectArea ≠ (4294967296 - 0) * (2147483648 - 0) := by
  decide

set_option maxRecDepth 100000 in
/-- C11, at the box `(0,0)-(10,10)` of `TestBoundingBox_RectArea`: the area is `100`. -/
theorem C11_RectArea_witness :
    0 ≤ tenBox.RectArea ∧ tenBox.RectArea = 100 :=
  ⟨(C11_RectArea tenBox (by decide)).1, (C11_RectArea tenBox (by decide)).2.trans (by decide)⟩

/-! ## C12 -/

/-- Canonicalisation is idempotent. -/
theorem Rectangle.Canon_idem (r : Rectangle) : r.Canon.Canon = r.Canon := by
  apply Rectangle.Canon_of_canonical
  · show (if r.Max.X < r.Min.X then (r.Max.X, r.Min.X) else (r.Min.X, r.Max.X)).1 ≤
      (if r.Max.X < r.Min.X then (r.Max.X, r.Min.X) else (r.Min.X, r.Max.X)).2
    split_ifs with h
    · exact le_of_lt h
    · exact not_lt.mp h
  · show (if r.Max.Y < r.Min.Y then (r.Max.Y, r.Min.Y) else (r.Min.Y, r.Max.Y)).1 ≤
      (if r.Max.Y < r.Min.Y then (r.Max.Y, r.Min.Y) else (r.Min.Y, r.Max.Y)).2
    split_ifs with h
    · exact le_of_lt h
    · exact not_lt.mp h

set_option maxRecDepth 100000 in
/-- The box `(5,6)-(1,2)`, whose corners are exchanged, has the rectangle `(1,2)-(5,6)`. -/
theorem BoundingBox.ToRect_swappedBox : swappedBox.ToRect = ⟨⟨1, 2⟩, ⟨5, 6⟩⟩ := by
  decide

/-- C12: for every box, whatever the order of its corners, `ToRect` returns a canonical
rectangle, equal to `image.Rect(int(X1), int(Y1), int(X2), int(Y2))`, and
canonicalising the result again returns it unchanged; canonicalisation of any
rectangle is idempotent. -/
theorem C12_ToRect_canonical (b : BoundingBox) :
    b.ToRect.Min.X ≤ b.ToRect.Max.X ∧ b.ToRect.Min.Y ≤ b.ToRect.Max.Y ∧
      b.ToRect = Rect b.X1.toInt b.Y1.toInt b.X2.toInt b.Y2.toInt ∧
      b.ToRect.Canon = b.ToRect ∧
      ∀ r : Rectangle, r.Canon.Canon = r.Canon :=
  ⟨b.ToRect_canonical.1, b.ToRect_canonical.2, b.ToRect_eq,
    Rectangle.Canon_of_canonical _ b.ToRect_canonical.1 b.ToRect_canonical.2,
    Rectangle.Canon_idem⟩

/-! ## C13 -/

theorem F32.lt_irrefl (a : F32) : F32.lt a a = false := by
  cases a with
  | nan => rfl
  | inf s => cases s <;> rfl
  | fin s k => simp [F32.lt]

theorem F32.lt_trans {a b c : F32} (h1 : F32.lt a b = true) (h2 : F32.lt b c = true) :
    F32.lt a c = true := by
  cases a <;> cases b <;> cases c <;> simp only [F32.lt, Bool.false_eq_true, Bool.and_eq_true,
    Bool.not_eq_true', decide_eq_true_eq] at h1 h2 ⊢
  all_goals first
    | omega
    | simp_all

theorem F32.lt_incomp_trans {a b c : F32} (hb : b ≠ F32.nan) (h1 : F32.lt a b = false)
    (h2 : F32.lt b c = false) : F32.lt a c = false := by
  cases a <;> cases b <;> cases c <;> simp only [F32.lt, Bool.and_eq_false_imp,
    Bool.not_eq_true', decide_eq_false_iff_not, not_lt, ne_eq, not_true_eq_false,
    Bool.not_eq_false'] at h1 h2 hb ⊢
  all_goals first
    | omega
    | simp_all

/-- On candidates, whose confidences are not NaN, comparing confidences meets the
requirements of `sort.Slice`. -/
theorem lessConfidence_strictWeak (l : List BoundingBox)
    (h : ∀ b ∈ l, b.Confidence ≠ F32.nan) : StrictWeak Processor.lessConfidence l :=
  ⟨fun _ _ => F32.lt_irrefl _, fun _ _ _ _ _ _ h1 h2 => F32.lt_trans h1 h2,
    fun _ _ b hb _ _ h1 h2 => F32.lt_incomp_trans (h b hb) h1 h2⟩

/-- The merge pass appends to the accepted boxes a sublist of the boxes it walks. -/
theorem foldl_mergeStep_sublist (l : List BoundingBox) :
    ∀ acc, ∃ t, t.Sublist l ∧ l.foldl Processor.mergeStep acc = acc ++ t := by
  induction l with
  | nil => intro acc; exact ⟨[], List.Sublist.refl _, (List.append_nil _).symm⟩
  | cons c r ih =>
    intro acc
    rw [List.foldl_cons]
    by_cases hc : Processor.overlapsExisting c acc = true
    · have hs : Processor.mergeStep acc c = acc := by
        unfold Processor.mergeStep
        rw [if_pos hc]
      obtain ⟨t, ht, e⟩ := ih acc
      rw [hs]
      exact ⟨t, List.Sublist.cons _ ht, e⟩
    · have hs : Processor.mergeStep acc c = acc ++ [c] := by
        unfold Processor.mergeStep
        rw [if_neg hc]
      obtain ⟨t, ht, e⟩ := ih (acc ++ [c])
      refine ⟨c :: t, List.Sublist.cons₂ _ ht, ?_⟩
      rw [hs, e, List.append_assoc, List.singleton_append]

/-- The merge pass is the greedy filter that keeps a candidate whose IoU with every
kept box is not above 0.7. -/
theorem foldl_mergeStep_eq_greedyFilter (l : List BoundingBox) :
    ∀ acc, l.foldl Processor.mergeStep acc =
      Processor.greedyFilter Processor.iouNotAbove acc l := by
  induction l with
  | nil => intro acc; rfl
  | cons c r ih =>
    intro acc
    rw [List.foldl_cons, Processor.greedyFilter]
    have e : acc.all (Processor.iouNotAbove c) = !Processor.overlapsExisting c acc := by
      unfold Processor.overlapsExisting Processor.iouNotAbove
      rw [List.not_any_eq_all_not]
    rw [e]
    cases hc : Processor.overlapsExisting c acc
    · have hs : Processor.mergeStep acc c = acc ++ [c] := by
        unfold Processor.mergeStep
        rw [hc, if_neg (by simp)]
      rw [hs, if_pos (by simp)]
      exact ih _
    · have hs : Processor.mergeStep acc c = acc := by
        unfold Processor.mergeStep
        rw [hc, if_pos rfl]
      rw [hs, if_neg (by simp)]
      exact ih _

/-- The merge pass keeps the first box it walks at the head of its result. -/
theorem mergeBoxes_head (l : List BoundingBox) :
    (Processor.mergeBoxes l).head? = l.head? := by
  cases l with
  | nil => rfl
  | cons c r =>
    unfold Processor.mergeBoxes
    rw [List.foldl_cons]
    have h1 : Processor.mergeStep [] c = [c] := rfl
    rw [h1]
    obtain ⟨t, _, e⟩ := foldl_mergeStep_sublist r [c]
    rw [e]
    rfl

/-- C13 (amended): a list returned by `OutputFromData` is the greedy filter of the
candidates sorted by ascending confidence, in which a candidate is kept if and only
if its IoU with every box kept before it is not above 0.7 (a NaN IoU, which is not
at most 0.7 either, passes); the list is in non-decreasing order of confidence; when
there is a candidate, the head of the list is a candidate of lowest confidence; a
kept box excludes every other candidate whose IoU with it is above 0.7; and when
there are exactly two candidates, of IoU above 0.7, the list holds only the one of
lower confidence. -/
theorem C13_greedy_filter (S : SortSlice) (p : Processor) (output : List F32)
    (l : List BoundingBox) (h : p.OutputFromData S output = .ok (some l)) :
    ∃ boxes sorted, p.candidates output = .ok boxes ∧
      sorted = S.run Processor.lessConfidence boxes ∧ sorted.Perm boxes ∧
      sorted.Pairwise (fun a b => F32.le a.Confidence b.Confidence = true) ∧
      l = Processor.greedyFilter Processor.iouNotAbove [] sorted ∧
      l.Pairwise (fun a b => F32.le a.Confidence b.Confidence = true) ∧
      (boxes ≠ [] → ∃ m ∈ boxes,
        (∀ b ∈ boxes, F32.le m.Confidence b.Confidence = true) ∧ l.head? = some m) ∧
      (∀ a ∈ l, ∀ b ∈ boxes, a ≠ b → F32.gt (b.IoU a) F32.c07 = true → b ∉ l) ∧
      (∀ a b, boxes.Perm [a, b] → F32.lt a.Confidence b.Confidence = true →
        F32.gt (b.IoU a) F32.c07 = true → l = [a]) := by
  obtain ⟨boxes, hboxes, rfl⟩ := OutputFromData_some S p output l h
  have hperm := S.perm Processor.lessConfidence boxes
  have hconf := candidates_confidence p output boxes hboxes
  have hnan : ∀ b ∈ S.run Processor.lessConfidence boxes, b.Confidence ≠ F32.nan :=
    fun b hb => (hconf b (hperm.mem_iff.mp hb)).2
  have hsorted : (S.run Processor.lessConfidence boxes).Pairwise
      (fun a b => F32.le a.Confidence b.Confidence = true) := by
    have hs := S.sorted Processor.lessConfidence boxes
      (lessConfidence_strictWeak boxes (fun b hb => (hconf b hb).2))
    refine List.Pairwise.imp_of_mem ?_ hs
    intro a b ha hb hab
    exact F32.le_of_lt_eq_false hab (hnan b hb) (hnan a ha)
  obtain ⟨t, ht, et⟩ := foldl_mergeStep_sublist (S.run Processor.lessConfidence boxes) []
  have hsub : (Processor.mergeBoxes (S.run Processor.lessConfidence boxes)).Sublist
      (S.run Processor.lessConfidence boxes) := by
    unfold Processor.mergeBoxes
    rw [et, List.nil_append]
    exact ht
  have hpair := foldl_mergeStep_pairwise (S.run Processor.lessConfidence boxes) []
    List.Pairwise.nil
  refine ⟨boxes, _, hboxes, rfl, hperm, hsorted,
    foldl_mergeStep_eq_greedyFilter _ [], hsorted.sublist hsub, ?_, ?_, ?_⟩
  · intro hne
    rw [mergeBoxes_head]
    cases hs : S.run Processor.lessConfidence boxes with
    | nil =>
      rw [hs] at hperm
      exact absurd hperm.symm.eq_nil hne
    | cons m r =>
      rw [hs] at hperm hsorted
      refine ⟨m, hperm.mem_iff.mp (List.mem_cons_self _ _), ?_, rfl⟩
      intro b hb
      rcases List.mem_cons.mp (hperm.mem_iff.mpr hb) with rfl | hbr
      · exact F32.le_of_lt_eq_false (F32.lt_irrefl _)
          (hnan _ (by rw [hs]; exact List.mem_cons_self _ _))
          (hnan _ (by rw [hs]; exact List.mem_cons_self _ _))
      · exact List.rel_of_pairwise_cons hsorted hbr
  · intro a ha b _ hab hiou hb
    have hsym : Symmetric (fun a b : BoundingBox =>
        F32.gt (a.IoU b) F32.c07 = false ∧ F32.gt (b.IoU a) F32.c07 = false) :=
      fun _ _ hxy => ⟨hxy.2, hxy.1⟩
    have := (List.Pairwise.forall hsym hpair ha hb hab).2
    rw [hiou] at this
    cases this
  · intro a b hab hlt hiou
    have hp2 := hperm.trans hab
    rcases perm_pair _ a b hp2 with hs | hs
    · rw [hs]
      exact mergeBoxes_pair a b hiou
    · rw [hs] at hsorted hnan
      have hle : F32.le b.Confidence a.Confidence = true :=
        List.rel_of_pairwise_cons hsorted (List.mem_cons_self _ _)
      rw [F32.lt_eq_false_of_le hle] at hlt
      cases hlt

set_option maxRecDepth 100000 in
/-- C13 (as stated, refuted): three candidates `c`, `a`, `b` of confidences `0.1`,
`0.2`, `0.3`, where `a` overlaps both `c` and `b` with IoU above 0.7 and `c` and `b`
overlap less.  `a` is discarded because of `c`, then `b` is kept: of the overlapping
pair `a`, `b` the one of higher confidence is retained.  Two candidates of zero area
have a NaN IoU, which is not at most 0.7, yet both are returned, where the filter
that keeps a candidate only if its IoU is at most 0.7 keeps one. -/
theorem C13_counterexample :
    threeSlotProcessor.candidates threeSlotOutput =
        .ok [threeSlotBox (F32.lit 50 1) (F32.lit 1 10),
          threeSlotBox (F32.lit 60 1) (F32.lit 2 10),
          threeSlotBox (F32.lit 70 1) (F32.lit 3 10)] ∧
      F32.lt (threeSlotBox (F32.lit 60 1) (F32.lit 2 10)).Confidence
        (threeSlotBox (F32.lit 70 1) (F32.lit 3 10)).Confidence = true ∧
      F32.gt ((threeSlotBox (F32.lit 70 1) (F32.lit 3 10)).IoU
        (threeSlotBox (F32.lit 60 1) (F32.lit 2 10))) F32.c07 = true ∧
      threeSlotProcessor.OutputFromData insertionSortSlice threeSlotOutput =
        .ok (some [threeSlotBox (F32.lit 50 1) (F32.lit 1 10),
          threeSlotBox (F32.lit 70 1) (F32.lit 3 10)]) ∧
      twoSlotProcessor.OutputFromData insertionSortSlice flatOutput =
        .ok (some [flatBox (F32.lit 8 10), flatBox (F32.lit 9 10)]) ∧
      F32.le ((flatBox (F32.lit 9 10)).IoU (flatBox (F32.lit 8 10))) F32.c07 = false ∧
      Processor.greedyFilter Processor.iouAtMost []
        [flatBox (F32.lit 8 10), flatBox (F32.lit 9 10)] = [flatBox (F32.lit 8 10)] := by
  decide

set_option maxRecDepth 100000 in
/-- C13, at the three-slot buffer: the returned list is the box of confidence `0.1`
followed by the box of confidence `0.3`. -/
theorem C13_greedy_filter_witness :
    ∃ boxes sorted, threeSlotProcessor.candidates threeSlotOutput = .ok boxes ∧
      sorted = insertionSortSlice.run Processor.lessConfidence boxes ∧ sorted.Perm boxes ∧
      sorted.Pairwise (fun a b => F32.le a.Confidence b.Confidence = true) ∧
      [threeSlotBox (F32.lit 50 1) (F32.lit 1 10), threeSlotBox (F32.lit 70 1) (F32.lit 3 10)] =
        Processor.greedyFilter Processor.iouNotAbove [] sorted ∧
      [threeSlotBox (F32.lit 50 1) (F32.lit 1 10),
        threeSlotBox (F32.lit 70 1) (F32.lit 3 10)].Pairwise
          (fun a b => F32.le a.Confidence b.Confidence = true) ∧
      (boxes ≠ [] → ∃ m ∈ boxes,
        (∀ b ∈ boxes, F32.le m.Confidence b.Confidence = true) ∧
          [threeSlotBox (F32.lit 50 1) (F32.lit 1 10),
            threeSlotBox (F32.lit 70 1) (F32.lit 3 10)].head? = some m) ∧
      (∀ a ∈ [threeSlotBox (F32.lit 50 1) (F32.lit 1 10),
          threeSlotBox (F32.lit 70 1) (F32.lit 3 10)],
        ∀ b ∈ boxes, a ≠ b → F32.gt (b.IoU a) F32.c07 = true →
          b ∉ [threeSlotBox (F32.lit 50 1) (F32.lit 1 10),
            threeSlotBox (F32.lit 70 1) (F32.lit 3 10)]) ∧
      (∀ a b, boxes.Perm [a, b] → F32.lt a.Confidence b.Confidence = true →
        F32.gt (b.IoU a) F32.c07 = true →
          [threeSlotBox (F32.lit 50 1) (F32.lit 1 10),
            threeSlotBox (F32.lit 70 1) (F32.lit 3 10)] = [a]) :=
  C13_greedy_filter insertionSortSlice threeSlotProcessor threeSlotOutput
    [threeSlotBox (F32.lit 50 1) (F32.lit 1 10), threeSlotBox (F32.lit 70 1) (F32.lit 3 10)]
    (by decide)

/-! ## Rounding is monotone -/

/-- Below `2^24` units every magnitude is a float32 magnitude. -/
theorem roundMag_small (n : Nat) (h : n < 2 ^ 24) : roundMag n 1 = n := by
  rw [roundMag_of_exact n 1 0 (by rw [Nat.div_one, if_pos h]) (by norm_num)
    (by rw [pow_zero, Nat.mul_one]; exact Nat.mod_one _)]
  rw [pow_zero, Nat.mul_one, Nat.mul_one, Nat.div_one]

/-- From `2^24` units on, rounding is to the nearest multiple of `2^s`, ties to even,
where `s + 23` is the binary logarithm. -/
theorem roundMag_grid (n : Nat) (hn : 2 ^ 24 ≤ n) :
    ∃ s, ilog2 n = s + 23 ∧ 2 ^ 23 ≤ n / 2 ^ s ∧ n / 2 ^ s < 2 ^ 24 ∧
      roundMag n 1 = (if 2 * (n % 2 ^ s) < 2 ^ s then n / 2 ^ s
        else if 2 ^ s < 2 * (n % 2 ^ s) then n / 2 ^ s + 1
        else if n / 2 ^ s % 2 = 0 then n / 2 ^ s else n / 2 ^ s + 1) * 2 ^ s := by
  have hn0 : 0 < n := lt_of_lt_of_le (by norm_num) hn
  obtain ⟨ha, hb⟩ := ilog2_spec n hn0
  have he : 24 ≤ ilog2 n := by
    have : 24 < ilog2 n + 1 :=
      (Nat.pow_lt_pow_iff_right (by norm_num : 1 < 2)).mp (lt_of_le_of_lt hn hb)
    omega
  obtain ⟨s, hs⟩ : ∃ s, ilog2 n = s + 23 := ⟨ilog2 n - 23, by omega⟩
  have hp : 0 < 2 ^ s := pow_pos (by norm_num) _
  rw [hs] at ha hb
  have hq1 : 2 ^ 23 ≤ n / 2 ^ s := by
    rw [Nat.le_div_iff_mul_le hp, ← pow_add, Nat.add_comm]
    exact ha
  have hq2 : n / 2 ^ s < 2 ^ 24 := by
    rw [Nat.div_lt_iff_lt_mul hp, ← pow_add, Nat.add_comm]
    rw [show s + 23 + 1 = s + 24 by omega] at hb
    exact hb
  have hsel : (if n / 1 < 2 ^ 24 then 0 else ilog2 (n / 1) - 23) = s := by
    rw [Nat.div_one, if_neg (by omega), hs]
    omega
  refine ⟨s, hs, hq1, hq2, ?_⟩
  simp only [roundMag, hsel, one_mul]

/-- Rounding to a grid of step `P`, ties to even, is monotone: the quotient
selected for a smaller dividend is not larger. -/
theorem roundStep_mono (P a1 r1 a2 r2 : Nat) (h2 : r2 < P)
    (h : a1 * P + r1 ≤ a2 * P + r2) :
    (if 2 * r1 < P then a1 else if P < 2 * r1 then a1 + 1
        else if a1 % 2 = 0 then a1 else a1 + 1) ≤
      (if 2 * r2 < P then a2 else if P < 2 * r2 then a2 + 1
        else if a2 % 2 = 0 then a2 else a2 + 1) := by
  rcases Nat.lt_trichotomy a1 a2 with hlt | heq | hgt
  · split_ifs <;> omega
  · subst heq
    have : r1 ≤ r2 := by omega
    split_ifs <;> omega
  · exfalso
    have h3 : (a2 + 1) * P ≤ a1 * P := Nat.mul_le_mul_right P hgt
    rw [Nat.add_mul, Nat.one_mul] at h3
    omega

theorem ilog2_mono (n1 n2 : Nat) (h0 : 0 < n1) (h : n1 ≤ n2) : ilog2 n1 ≤ ilog2 n2 := by
  obtain ⟨ha, _⟩ := ilog2_spec n1 h0
  obtain ⟨_, hb⟩ := ilog2_spec n2 (lt_of_lt_of_le h0 h)
  have : ilog2 n1 < ilog2 n2 + 1 :=
    (Nat.pow_lt_pow_iff_right (by norm_num : 1 < 2)).mp
      (lt_of_le_of_lt (le_trans ha h) hb)
  omega

/-- From `2^24` units on, the rounded magnitude stays within the closed binade of
its argument. -/
theorem roundMag_binade (n : Nat) (hn : 2 ^ 24 ≤ n) :
    2 ^ ilog2 n ≤ roundMag n 1 ∧ roundMag n 1 ≤ 2 ^ (ilog2 n + 1) := by
  obtain ⟨s, hs, hq1, hq2, hval⟩ := roundMag_grid n hn
  rw [hval, hs]
  have e1 : 2 ^ (s + 23) = 2 ^ 23 * 2 ^ s := by rw [pow_add, Nat.mul_comm]
  have e2 : 2 ^ (s + 23 + 1) = 2 ^ 24 * 2 ^ s := by
    rw [show s + 23 + 1 = s + 24 by omega, pow_add, Nat.mul_comm]
  rw [e1, e2]
  constructor
  · apply Nat.mul_le_mul_right
    split_ifs <;> omega
  · apply Nat.mul_le_mul_right
    split_ifs <;> omega

/-- Rounding of magnitudes is monotone. -/
theorem roundMag_mono (n1 n2 : Nat) (h : n1 ≤ n2) : roundMag n1 1 ≤ roundMag n2 1 := by
  by_cases h2 : n2 < 2 ^ 24
  · rw [roundMag_small n1 (lt_of_le_of_lt h h2), roundMag_small n2 h2]
    exact h
  have h2 : 2 ^ 24 ≤ n2 := not_lt.mp h2
  have hn2 : 0 < n2 := lt_of_lt_of_le (by norm_num) h2
  by_cases h1 : n1 < 2 ^ 24
  · rw [roundMag_small n1 h1]
    have hl : 24 ≤ ilog2 n2 := by
      have : 24 < ilog2 n2 + 1 :=
        (Nat.pow_lt_pow_iff_right (by norm_num : 1 < 2)).mp
          (lt_of_le_of_lt h2 (ilog2_spec n2 hn2).2)
      omega
    calc n1 ≤ 2 ^ 24 := le_of_lt h1
      _ ≤ 2 ^ ilog2 n2 := Nat.pow_le_pow_right (by norm_num) hl
      _ ≤ roundMag n2 1 := (roundMag_binade n2 h2).1
  have h1 : 2 ^ 24 ≤ n1 := not_lt.mp h1
  have hn1 : 0 < n1 := lt_of_lt_of_le (by norm_num) h1
  rcases Nat.lt_or_ge (ilog2 n1) (ilog2 n2) with hlt | hge
  · calc roundMag n1 1 ≤ 2 ^ (ilog2 n1 + 1) := (roundMag_binade n1 h1).2
      _ ≤ 2 ^ ilog2 n2 := Nat.pow_le_pow_right (by norm_num) hlt
      _ ≤ roundMag n2 1 := (roundMag_binade n2 h2).1
  · have heq : ilog2 n1 = ilog2 n2 := le_antisymm (ilog2_mono n1 n2 hn1 h) hge
    obtain ⟨s1, hs1, _, _, hv1⟩ := roundMag_grid n1 h1
    obtain ⟨s2, hs2, _, _, hv2⟩ := roundMag_grid n2 h2
    have hss : s1 = s2 := by omega
    subst hss
    rw [hv1, hv2]
    apply Nat.mul_le_mul_right
    have hp : 0 < 2 ^ s1 := pow_pos (by norm_num) _
    apply roundStep_mono (2 ^ s1) _ _ _ _ (Nat.mod_lt _ hp)
    rw [Nat.mul_comm (n1 / 2 ^ s1), Nat.mul_comm (n2 / 2 ^ s1), Nat.div_add_mod, Nat.div_add_mod]
    exact h

/-- Rounding does not more than double a magnitude. -/
theorem roundMag_le_double (n : Nat) : roundMag n 1 ≤ 2 * n := by
  by_cases h : n < 2 ^ 24
  · rw [roundMag_small n h]
    omega
  · obtain ⟨m, s, _, _, e, hle⟩ := roundMag_shape n (not_lt.mp h)
    rw [e]
    exact hle

/-- A rounded magnitude is a float32 magnitude: rounding it again keeps it. -/
theorem roundMag_idem (n : Nat) : roundMag (roundMag n 1) 1 = roundMag n 1 := by
  by_cases h : n < 2 ^ 24
  · rw [roundMag_small n h]
    exact roundMag_small n h
  · obtain ⟨m, s, h1, h2, e, _⟩ := roundMag_shape n (not_lt.mp h)
    rw [e]
    exact roundMag_fixed m s h1 h2

/-! ## Rounding of quotients -/

/-- A common factor of dividend and divisor does not change the rounded quotient. -/
theorem roundMag_mul_left (d n : Nat) (hd : 0 < d) : roundMag (d * n) d = roundMag n 1 := by
  have c1 : ∀ r P : Nat, (2 * (d * r) < d * P) ↔ (2 * r < P) := by
    intro r P
    rw [show 2 * (d * r) = d * (2 * r) by ring]
    exact Nat.mul_lt_mul_left hd
  have c2 : ∀ r P : Nat, (d * P < 2 * (d * r)) ↔ (P < 2 * r) := by
    intro r P
    rw [show 2 * (d * r) = d * (2 * r) by ring]
    exact Nat.mul_lt_mul_left hd
  simp only [roundMag, Nat.mul_div_cancel_left n hd, Nat.div_one, one_mul,
    Nat.mul_div_mul_left _ _ hd, Nat.mul_mod_mul_left, c1, c2]

/-- The rounded quotient lies between the two neighbouring multiples of the
spacing `2^s` of the binade of the quotient. -/
theorem roundMag_bounds (n d : Nat) :
    ∃ s, ((s = 0 ∧ n / d < 2 ^ 24) ∨ (2 ^ (s + 23) ≤ n / d ∧ n / d < 2 ^ (s + 24))) ∧
      n / d / 2 ^ s * 2 ^ s ≤ roundMag n d ∧ roundMag n d ≤ (n / d / 2 ^ s + 1) * 2 ^ s := by
  by_cases hq : n / d < 2 ^ 24
  · have hsel : (if n / d < 2 ^ 24 then 0 else ilog2 (n / d) - 23) = 0 := if_pos hq
    refine ⟨0, Or.inl ⟨rfl, hq⟩, ?_, ?_⟩
    · simp only [roundMag, hsel, pow_zero, mul_one, Nat.div_one]
      split_ifs <;> omega
    · simp only [roundMag, hsel, pow_zero, mul_one, Nat.div_one]
      split_ifs <;> omega
  · have hq0 : 0 < n / d := lt_of_lt_of_le (by norm_num) (not_lt.mp hq)
    obtain ⟨ha, hb⟩ := ilog2_spec (n / d) hq0
    have he : 24 ≤ ilog2 (n / d) := by
      have : 24 < ilog2 (n / d) + 1 :=
        (Nat.pow_lt_pow_iff_right (by norm_num : 1 < 2)).mp
          (lt_of_le_of_lt (not_lt.mp hq) hb)
      omega
    obtain ⟨s, hs⟩ : ∃ s, ilog2 (n / d) = s + 23 := ⟨ilog2 (n / d) - 23, by omega⟩
    have hsel : (if n / d < 2 ^ 24 then 0 else ilog2 (n / d) - 23) = s := by
      rw [if_neg hq, hs]
      omega
    rw [hs] at ha hb
    refine ⟨s, Or.inr ⟨ha, hb⟩, ?_, ?_⟩
    · simp only [roundMag, hsel, Nat.div_div_eq_div_mul]
      apply Nat.mul_le_mul_right
      split_ifs <;> omega
    · simp only [roundMag, hsel, Nat.div_div_eq_div_mul]
      apply Nat.mul_le_mul_right
      split_ifs <;> omega

/-- A quotient that is at least one unit does not round to zero. -/
theorem roundMag_pos (n d : Nat) (hd : 0 < d) (h : d ≤ n) : 0 < roundMag n d := by
  have hq : 1 ≤ n / d := (Nat.one_le_div_iff hd).mpr h
  obtain ⟨s, hs, hlo, _⟩ := roundMag_bounds n d
  have hp : 0 < 2 ^ s := pow_pos (by norm_num) _
  have h1 : 1 ≤ n / d / 2 ^ s := by
    rw [Nat.one_le_div_iff hp]
    rcases hs with ⟨rfl, _⟩ | ⟨h2, _⟩
    · rw [pow_zero]
      exact hq
    · exact le_trans (Nat.pow_le_pow_right (by norm_num) (by omega)) h2
  calc 0 < 1 * 2 ^ s := by rw [one_mul]; exact hp
    _ ≤ n / d / 2 ^ s * 2 ^ s := Nat.mul_le_mul_right _ h1
    _ ≤ roundMag n d := hlo

/-- A quotient that does not exceed a float32 magnitude does not round above it. -/
theorem roundMag_le_repr (n d M t : Nat) (hd : 0 < d) (hM1 : 2 ^ 23 ≤ M) (hM2 : M ≤ 2 ^ 24)
    (h : n ≤ d * (M * 2 ^ t)) : roundMag n d ≤ M * 2 ^ t := by
  rcases eq_or_lt_of_le h with heq | hlt
  · rw [heq, roundMag_mul_left _ _ hd, roundMag_fixed M t hM1 hM2]
  have hq : n / d < M * 2 ^ t := by
    rw [Nat.div_lt_iff_lt_mul hd, Nat.mul_comm]
    exact hlt
  obtain ⟨s, hs, _, hhi⟩ := roundMag_bounds n d
  refine le_trans hhi ?_
  rcases hs with ⟨rfl, _⟩ | ⟨h2, _⟩
  · rw [pow_zero, Nat.div_one, Nat.mul_one]
    exact hq
  · have hst : s ≤ t := by
      have h3 : 2 ^ (s + 23) < 2 ^ (t + 24) := by
        calc 2 ^ (s + 23) ≤ n / d := h2
          _ < M * 2 ^ t := hq
          _ ≤ 2 ^ 24 * 2 ^ t := Nat.mul_le_mul_right _ hM2
          _ = 2 ^ (t + 24) := by rw [pow_add, Nat.mul_comm]
      have := (Nat.pow_lt_pow_iff_right (by norm_num : 1 < 2)).mp h3
      omega
    obtain ⟨k, rfl⟩ : ∃ k, t = s + k := ⟨t - s, by omega⟩
    have hp : 0 < 2 ^ s := pow_pos (by norm_num) _
    have e : M * 2 ^ (s + k) = M * 2 ^ k * 2 ^ s := by rw [pow_add]; ring
    rw [e] at hq ⊢
    apply Nat.mul_le_mul_right
    exact (Nat.div_lt_iff_lt_mul hp).mpr hq

/-- An integer up to `2^24` is a float32 value. -/
theorem roundMag_int_exact (k : Nat) (h : k ≤ 2 ^ 24) :
    roundMag (k * 2 ^ 149) 1 = k * 2 ^ 149 := by
  rcases Nat.eq_zero_or_pos k with rfl | hk
  · rw [Nat.zero_mul]
    exact roundMag_zero 1 (by norm_num)
  obtain ⟨ha, hb⟩ := ilog2_spec k hk
  have he : ilog2 k ≤ 24 := by
    have : ilog2 k < 24 + 1 :=
      (Nat.pow_lt_pow_iff_right (by norm_num : 1 < 2)).mp (lt_of_le_of_lt ha (by omega))
    omega
  rcases Nat.lt_or_ge (ilog2 k) 24 with hlt | hge
  · obtain ⟨j, hj⟩ : ∃ j, ilog2 k + j = 23 := ⟨23 - ilog2 k, by omega⟩
    have e : k * 2 ^ 149 = k * 2 ^ j * 2 ^ (149 - j) := by
      rw [Nat.mul_assoc, ← pow_add, show j + (149 - j) = 149 by omega]
    rw [e]
    apply roundMag_fixed
    · calc 2 ^ 23 = 2 ^ ilog2 k * 2 ^ j := by rw [← pow_add, hj]
        _ ≤ k * 2 ^ j := Nat.mul_le_mul_right _ ha
    · calc k * 2 ^ j ≤ 2 ^ (ilog2 k + 1) * 2 ^ j := Nat.mul_le_mul_right _ (le_of_lt hb)
        _ = 2 ^ 24 := by rw [← pow_add, show ilog2 k + 1 + j = 24 by omega]
  · have hk24 : k = 2 ^ 24 := by
      have h24 : ilog2 k = 24 := by omega
      rw [h24] at ha
      omega
    rw [hk24]
    exact roundMag_fixed (2 ^ 24) 149 (by norm_num) (le_refl _)

/-! ## Areas as float32 values -/

theorem F32.lt_fin (x y : Nat) :
    F32.lt (F32.fin false x) (F32.fin false y) = true ↔ x < y := by
  simp only [F32.lt, F32.signed, Bool.false_eq_true, if_false, decide_eq_true_eq, Nat.cast_lt]

theorem F32.le_fin (x y : Nat) :
    F32.le (F32.fin false x) (F32.fin false y) = true ↔ x ≤ y := by
  simp only [F32.le, F32.lt, F32.eq, F32.signed, Bool.false_eq_true, if_false, Bool.or_eq_true,
    decide_eq_true_eq, Nat.cast_lt, Nat.cast_inj]
  exact le_iff_lt_or_eq.symm

/-- The conversion of a non-negative `int` is finite: its magnitude is the rounded
integer. -/
theorem F32.ofInt_nat (k : Nat) (h : k < 2 ^ 64) :
    F32.ofInt (k : Int) = F32.fin false (roundMag (k * 2 ^ 149) 1) := by
  rw [F32.ofInt_natCast]
  unfold F32.ofNat F32.round
  apply F32.ofMag_of_lt
  calc roundMag (k * 2 ^ 149) 1 ≤ 2 * (k * 2 ^ 149) := roundMag_le_double _
    _ < 2 ^ 128 * 2 ^ 149 := by
      have : 2 * k < 2 ^ 128 := by omega
      calc 2 * (k * 2 ^ 149) = 2 * k * 2 ^ 149 := by ring
        _ < 2 ^ 128 * 2 ^ 149 := Nat.mul_lt_mul_of_pos_right this (by norm_num)

/-- Doubling an integer doubles its float32 value, and rounding is monotone: the
value of `t ≥ 2·i` is at least twice the value of `i`. -/
theorem roundMag_two_le (i t : Nat) (hit : 2 * i ≤ t) :
    2 * roundMag (i * 2 ^ 149) 1 ≤ roundMag (t * 2 ^ 149) 1 := by
  rcases Nat.eq_zero_or_pos i with rfl | hi
  · rw [Nat.zero_mul, roundMag_zero 1 (by norm_num)]
    exact Nat.zero_le _
  · have h24 : 2 ^ 24 ≤ i * 2 ^ 149 :=
      calc 2 ^ 24 ≤ 1 * 2 ^ 149 := by norm_num
        _ ≤ i * 2 ^ 149 := Nat.mul_le_mul_right _ hi
    rw [← roundMag_double _ h24]
    apply roundMag_mono
    calc 2 * (i * 2 ^ 149) = 2 * i * 2 ^ 149 := by ring
      _ ≤ t * 2 ^ 149 := Nat.mul_le_mul_right _ hit

/-- A positive integer converts to at least `1.0`. -/
theorem roundMag_one_le (i : Nat) (hi : 1 ≤ i) : 2 ^ 149 ≤ roundMag (i * 2 ^ 149) 1 := by
  have h1 : roundMag (1 * 2 ^ 149) 1 = 1 * 2 ^ 149 := roundMag_int_exact 1 (by norm_num)
  rw [Nat.one_mul] at h1
  have hle : 2 ^ 149 ≤ i * 2 ^ 149 := Nat.le_mul_of_pos_left _ hi
  calc 2 ^ 149 = roundMag (2 ^ 149) 1 := h1.symm
    _ ≤ roundMag (i * 2 ^ 149) 1 := roundMag_mono _ _ hle

/-- The difference `float32(t) - float32(i)` for `2·i ≤ t`: a non-negative finite
value, the rounded difference of the two magnitudes. -/
theorem F32.ofInt_sub (i t : Nat) (hit : 2 * i ≤ t) (ht : t < 2 ^ 63) :
    F32.sub (F32.ofInt (t : Int)) (F32.ofInt (i : Int)) =
      F32.fin false (roundMag (roundMag (t * 2 ^ 149) 1 - roundMag (i * 2 ^ 149) 1) 1) := by
  rw [F32.ofInt_nat t (by omega), F32.ofInt_nat i (by omega)]
  have hxy := roundMag_two_le i t hit
  have hx := roundMag_le_double (t * 2 ^ 149)
  generalize roundMag (t * 2 ^ 149) 1 = x at hxy hx
  generalize roundMag (i * 2 ^ 149) 1 = y at hxy
  by_cases hyx : y < x
  · rw [F32.sub_fin_of_lt x y hyx]
    unfold F32.round
    apply F32.ofMag_of_lt
    calc roundMag (x - y) 1 ≤ 2 * (x - y) := roundMag_le_double _
      _ ≤ 2 * x := by omega
      _ ≤ 2 * (2 * (t * 2 ^ 149)) := by omega
      _ = 4 * t * 2 ^ 149 := by ring
      _ < 2 ^ 128 * 2 ^ 149 :=
        Nat.mul_lt_mul_of_pos_right (by omega) (by norm_num)
  · have hy0 : y = 0 := by omega
    have hx0 : x = 0 := by omega
    rw [hy0, hx0, Nat.sub_zero, roundMag_zero 1 (by norm_num)]
    rfl

/-- The float32 value of `i` does not exceed the union value computed from a total
`t ≥ 2·i`. -/
theorem roundMag_le_union (i t : Nat) (hit : 2 * i ≤ t) :
    roundMag (i * 2 ^ 149) 1 ≤
      roundMag (roundMag (t * 2 ^ 149) 1 - roundMag (i * 2 ^ 149) 1) 1 := by
  have hxy := roundMag_two_le i t hit
  have hid := roundMag_idem (i * 2 ^ 149)
  generalize roundMag (t * 2 ^ 149) 1 = x at hxy
  generalize roundMag (i * 2 ^ 149) 1 = y at hxy hid
  calc y = roundMag y 1 := hid.symm
    _ ≤ roundMag (x - y) 1 := roundMag_mono _ _ (by omega)

/-- A quotient of non-negative finite values with the dividend not above the divisor
is a finite value between `0` and `1.0`; it is not `0` when the quotient is at least
one unit. -/
theorem F32.div_le_one (y u : Nat) (hyu : y ≤ u) (hu : 0 < u) :
    ∃ k, F32.div (F32.fin false y) (F32.fin false u) = F32.fin false k ∧ k ≤ 2 ^ 149 ∧
      (u ≤ y * 2 ^ 149 → 0 < k) := by
  have hk : roundMag (y * 2 ^ 149) u ≤ 2 ^ 23 * 2 ^ 126 :=
    roundMag_le_repr _ _ _ _ hu (le_refl _) (by norm_num)
      (by
        calc y * 2 ^ 149 ≤ u * 2 ^ 149 := Nat.mul_le_mul_right _ hyu
          _ = u * (2 ^ 23 * 2 ^ 126) := by norm_num)
  refine ⟨roundMag (y * 2 ^ 149) u, ?_, ?_, fun h => roundMag_pos _ _ hu h⟩
  · rw [F32.div_fin_of_ne false false y u (by omega)]
    unfold F32.round
    exact F32.ofMag_of_lt _ _ (lt_of_le_of_lt hk (by norm_num))
  · calc roundMag (y * 2 ^ 149) u ≤ 2 ^ 23 * 2 ^ 126 := hk
      _ = 2 ^ 149 := by norm_num

/-- The quotient of two integers `i < u ≤ 2^24`, both exact float32 values, rounds
below `1.0`. -/
theorem F32.div_lt_one (i u : Nat) (hiu : i < u) (hu : u ≤ 2 ^ 24) :
    ∃ k, F32.div (F32.fin false (i * 2 ^ 149)) (F32.fin false (u * 2 ^ 149)) =
      F32.fin false k ∧ k < 2 ^ 149 := by
  have hd : 0 < u * 2 ^ 149 := Nat.mul_pos (by omega) (by norm_num)
  have hk : roundMag (i * 2 ^ 149 * 2 ^ 149) (u * 2 ^ 149) ≤ (2 ^ 24 - 1) * 2 ^ 125 := by
    apply roundMag_le_repr _ _ _ _ hd (by norm_num) (by norm_num)
    have h1 : i * 2 ^ 24 ≤ u * (2 ^ 24 - 1) := by
      have e : u * (2 ^ 24 - 1) = u * 2 ^ 24 - u := by
        rw [Nat.mul_sub, Nat.mul_one]
      rw [e]
      omega
    calc i * 2 ^ 149 * 2 ^ 149 = i * 2 ^ 24 * (2 ^ 125 * 2 ^ 149) := by ring
      _ ≤ u * (2 ^ 24 - 1) * (2 ^ 125 * 2 ^ 149) := Nat.mul_le_mul_right _ h1
      _ = u * 2 ^ 149 * ((2 ^ 24 - 1) * 2 ^ 125) := by ring
  refine ⟨roundMag (i * 2 ^ 149 * 2 ^ 149) (u * 2 ^ 149), ?_, lt_of_le_of_lt hk (by norm_num)⟩
  rw [F32.div_fin_of_ne false false _ _ (by omega)]
  unfold F32.round
  exact F32.ofMag_of_lt _ _ (lt_of_le_of_lt hk (by norm_num))

/-! ## The intersection rectangle -/

/-- The intersection of two overlapping rectangles is a non-empty rectangle inside
both. -/
theorem Rectangle.Intersect_of_overlaps (r s : Rectangle) (h : r.Overlaps s = true) :
    r.Min.X ≤ (r.Intersect s).Min.X ∧ s.Min.X ≤ (r.Intersect s).Min.X ∧
      (r.Intersect s).Max.X ≤ r.Max.X ∧ (r.Intersect s).Max.X ≤ s.Max.X ∧
      (r.Intersect s).Min.X < (r.Intersect s).Max.X ∧
      r.Min.Y ≤ (r.Intersect s).Min.Y ∧ s.Min.Y ≤ (r.Intersect s).Min.Y ∧
      (r.Intersect s).Max.Y ≤ r.Max.Y ∧ (r.Intersect s).Max.Y ≤ s.Max.Y ∧
      (r.Intersect s).Min.Y < (r.Intersect s).Max.Y := by
  simp only [Rectangle.Overlaps, Rectangle.Empty, Bool.and_eq_true, Bool.not_eq_true',
    Bool.or_eq_false_iff, decide_eq_true_eq, decide_eq_false_iff_not] at h
  obtain ⟨⟨⟨⟨⟨⟨h1, h2⟩, h3, h4⟩, h5⟩, h6⟩, h7⟩, h8⟩ := h
  have hE : Rectangle.Empty
      ⟨⟨if r.Min.X < s.Min.X then s.Min.X else r.Min.X,
          if r.Min.Y < s.Min.Y then s.Min.Y else r.Min.Y⟩,
        ⟨if r.Max.X > s.Max.X then s.Max.X else r.Max.X,
          if r.Max.Y > s.Max.Y then s.Max.Y else r.Max.Y⟩⟩ = false := by
    simp only [Rectangle.Empty, Bool.or_eq_false_iff, decide_eq_false_iff_not]
    constructor <;> split_ifs <;> omega
  have key : r.Intersect s =
      ⟨⟨if r.Min.X < s.Min.X then s.Min.X else r.Min.X,
          if r.Min.Y < s.Min.Y then s.Min.Y else r.Min.Y⟩,
        ⟨if r.Max.X > s.Max.X then s.Max.X else r.Max.X,
          if r.Max.Y > s.Max.Y then s.Max.Y else r.Max.Y⟩⟩ := by
    show (if Rectangle.Empty
      ⟨⟨if r.Min.X < s.Min.X then s.Min.X else r.Min.X,
          if r.Min.Y < s.Min.Y then s.Min.Y else r.Min.Y⟩,
        ⟨if r.Max.X > s.Max.X then s.Max.X else r.Max.X,
          if r.Max.Y > s.Max.Y then s.Max.Y else r.Max.Y⟩⟩ = true then ZR else _) = _
    rw [hE, if_neg (by simp)]
  rw [key]
  refine ⟨?_, ?_, ?_, ?_, ?_, ?_, ?_, ?_, ?_, ?_⟩ <;> dsimp only <;> split_ifs <;> omega

/-- A product of extents grows strictly when one extent grows and none shrinks. -/
theorem mul_lt_mul_of_extent (iw ih w h : Int) (h1 : 1 ≤ iw) (h2 : 1 ≤ ih) (h3 : iw ≤ w)
    (h4 : ih ≤ h) (hlt : iw < w ∨ ih < h) : iw * ih < w * h := by
  rcases hlt with hlt | hlt
  · calc iw * ih < w * ih := mul_lt_mul_of_pos_right hlt (by omega)
      _ ≤ w * h := mul_le_mul_of_nonneg_left h4 (by omega)
  · calc iw * ih < iw * h := mul_lt_mul_of_pos_left hlt (by omega)
      _ ≤ w * h := mul_le_mul_of_nonneg_right h3 (by omega)

/-- The three integer areas behind `Intersection`, `Union` and `IoU`, for canonical
rectangles whose areas add up to less than `2^63`: none wraps, the intersection area
does not exceed either area, it is positive when the rectangles overlap and below
one of the areas when they also differ. -/
theorem Rectangle.intersect_area (r s : Rectangle) (hrx : r.Min.X ≤ r.Max.X)
    (hry : r.Min.Y ≤ r.Max.Y) (hsx : s.Min.X ≤ s.Max.X) (hsy : s.Min.Y ≤ s.Max.Y)
    (hsum : (r.Max.X - r.Min.X) * (r.Max.Y - r.Min.Y) +
      (s.Max.X - s.Min.X) * (s.Max.Y - s.Min.Y) < 2 ^ 63) :
    ∃ i a b : Nat,
      wrapInt ((r.Intersect s).Canon.Size.X * (r.Intersect s).Canon.Size.Y) = (i : Int) ∧
      wrapInt (r.Size.X * r.Size.Y) = (a : Int) ∧ wrapInt (s.Size.X * s.Size.Y) = (b : Int) ∧
      (a : Int) = (r.Max.X - r.Min.X) * (r.Max.Y - r.Min.Y) ∧
      (b : Int) = (s.Max.X - s.Min.X) * (s.Max.Y - s.Min.Y) ∧
      i ≤ a ∧ i ≤ b ∧
      (r.Overlaps s = true → 1 ≤ i ∧ (r ≠ s → i < a ∨ i < b)) := by
  have hw1 : 0 ≤ r.Max.X - r.Min.X := by omega
  have hh1 : 0 ≤ r.Max.Y - r.Min.Y := by omega
  have hw2 : 0 ≤ s.Max.X - s.Min.X := by omega
  have hh2 : 0 ≤ s.Max.Y - s.Min.Y := by omega
  have ha0 := mul_nonneg hw1 hh1
  have hb0 := mul_nonneg hw2 hh2
  obtain ⟨a, ha⟩ := Int.eq_ofNat_of_zero_le ha0
  obtain ⟨b, hb⟩ := Int.eq_ofNat_of_zero_le hb0
  have hA : wrapInt (r.Size.X * r.Size.Y) = (a : Int) := by
    unfold Rectangle.Size
    rw [← ha]
    exact wrapInt_mul_of_lt _ _ hw1 hh1 (by omega)
  have hB : wrapInt (s.Size.X * s.Size.Y) = (b : Int) := by
    unfold Rectangle.Size
    rw [← hb]
    exact wrapInt_mul_of_lt _ _ hw2 hh2 (by omega)
  cases hov : r.Overlaps s with
  | false =>
    refine ⟨0, a, b, ?_, hA, hB, ha.symm, hb.symm, Nat.zero_le _, Nat.zero_le _, ?_⟩
    · rw [Rectangle.Intersect_of_not_overlaps r s hov]
      rfl
    · intro hc
      cases hc
  | true =>
    obtain ⟨x1, x2, x3, x4, x5, y1, y2, y3, y4, y5⟩ := Rectangle.Intersect_of_overlaps r s hov
    generalize r.Intersect s = t at x1 x2 x3 x4 x5 y1 y2 y3 y4 y5
    have hiw : 1 ≤ t.Max.X - t.Min.X := by omega
    have hih : 1 ≤ t.Max.Y - t.Min.Y := by omega
    have hle1 : (t.Max.X - t.Min.X) * (t.Max.Y - t.Min.Y) ≤
        (r.Max.X - r.Min.X) * (r.Max.Y - r.Min.Y) :=
      mul_le_mul (by omega) (by omega) (by omega) hw1
    have hle2 : (t.Max.X - t.Min.X) * (t.Max.Y - t.Min.Y) ≤
        (s.Max.X - s.Min.X) * (s.Max.Y - s.Min.Y) :=
      mul_le_mul (by omega) (by omega) (by omega) hw2
    have hi1 : 1 ≤ (t.Max.X - t.Min.X) * (t.Max.Y - t.Min.Y) :=
      calc (1 : Int) = 1 * 1 := by norm_num
        _ ≤ (t.Max.X - t.Min.X) * (t.Max.Y - t.Min.Y) :=
          mul_le_mul hiw hih (by norm_num) (by omega)
    obtain ⟨i, hi⟩ := Int.eq_ofNat_of_zero_le (le_trans (by norm_num) hi1)
    have hI : wrapInt (t.Canon.Size.X * t.Canon.Size.Y) = (i : Int) := by
      rw [Rectangle.Canon_of_canonical t (by omega) (by omega)]
      unfold Rectangle.Size
      rw [← hi]
      exact wrapInt_mul_of_lt _ _ (by omega) (by omega) (by omega)
    refine ⟨i, a, b, hI, hA, hB, ha.symm, hb.symm, by omega, by omega, fun _ => ⟨by omega, ?_⟩⟩
    intro hne
    by_contra hc
    have hc1 : ¬ (t.Max.X - t.Min.X) * (t.Max.Y - t.Min.Y) <
        (r.Max.X - r.Min.X) * (r.Max.Y - r.Min.Y) := by omega
    have hc2 : ¬ (t.Max.X - t.Min.X) * (t.Max.Y - t.Min.Y) <
        (s.Max.X - s.Min.X) * (s.Max.Y - s.Min.Y) := by omega
    have hr : ¬ (t.Max.X - t.Min.X < r.Max.X - r.Min.X ∨ t.Max.Y - t.Min.Y < r.Max.Y - r.Min.Y) :=
      fun hlt => hc1 (mul_lt_mul_of_extent _ _ _ _ hiw hih (by omega) (by omega) hlt)
    have hs : ¬ (t.Max.X - t.Min.X < s.Max.X - s.Min.X ∨ t.Max.Y - t.Min.Y < s.Max.Y - s.Min.Y) :=
      fun hlt => hc2 (mul_lt_mul_of_extent _ _ _ _ hiw hih (by omega) (by omega) hlt)
    apply hne
    obtain ⟨⟨r1, r2⟩, ⟨r3, r4⟩⟩ := r
    obtain ⟨⟨s1, s2⟩, ⟨s3, s4⟩⟩ := s
    simp only at x1 x2 x3 x4 y1 y2 y3 y4 hr hs
    have e1 : r1 = s1 := by omega
    have e2 : r2 = s2 := by omega
    have e3 : r3 = s3 := by omega
    have e4 : r4 = s4 := by omega
    rw [e1, e2, e3, e4]

/-! ## C14 -/

/-- Intersection over union of integer areas `i ≤ a`, `i ≤ b` with `a + b < 2^63`,
in float32: the quotient of the value of `i` by the rounded difference of the values
of `a + b` and `i`. -/
theorem F32.iou_core (i a b : Nat) (hia : i ≤ a) (hib : i ≤ b) (hab : a + b < 2 ^ 63) :
    (1 ≤ i →
      F32.gt (F32.ofInt (i : Int)) F32.zero = true ∧
      F32.gt (F32.sub (F32.ofInt ((a + b : Nat) : Int)) (F32.ofInt (i : Int))) F32.zero = true ∧
      F32.gt (F32.div (F32.ofInt (i : Int))
        (F32.sub (F32.ofInt ((a + b : Nat) : Int)) (F32.ofInt (i : Int)))) F32.zero = true ∧
      ((i < a ∨ i < b) → a + b ≤ 2 ^ 24 →
        F32.lt (F32.div (F32.ofInt (i : Int))
          (F32.sub (F32.ofInt ((a + b : Nat) : Int)) (F32.ofInt (i : Int)))) F32.one = true)) ∧
    (F32.gt (F32.sub (F32.ofInt ((a + b : Nat) : Int)) (F32.ofInt (i : Int))) F32.zero = true →
      F32.le F32.zero (F32.div (F32.ofInt (i : Int))
        (F32.sub (F32.ofInt ((a + b : Nat) : Int)) (F32.ofInt (i : Int)))) = true ∧
      F32.le (F32.div (F32.ofInt (i : Int))
        (F32.sub (F32.ofInt ((a + b : Nat) : Int)) (F32.ofInt (i : Int)))) F32.one = true) ∧
    F32.le (F32.ofInt (i : Int)) (F32.ofInt (a : Int)) = true ∧
    F32.le (F32.ofInt (i : Int)) (F32.ofInt (b : Int)) = true := by
  have hit : 2 * i ≤ a + b := by omega
  have hyu := roundMag_le_union i (a + b) hit
  have hu2 := roundMag_le_double (roundMag ((a + b) * 2 ^ 149) 1 - roundMag (i * 2 ^ 149) 1)
  have hx2 := roundMag_le_double ((a + b) * 2 ^ 149)
  have hma := roundMag_mono (i * 2 ^ 149) (a * 2 ^ 149) (Nat.mul_le_mul_right _ hia)
  have hmb := roundMag_mono (i * 2 ^ 149) (b * 2 ^ 149) (Nat.mul_le_mul_right _ hib)
  have hpos := roundMag_one_le i
  have hexI := roundMag_int_exact i
  have hexT := roundMag_int_exact (a + b)
  rw [F32.ofInt_sub i (a + b) hit hab, F32.ofInt_nat i (by omega), F32.ofInt_nat a (by omega),
    F32.ofInt_nat b (by omega)]
  generalize roundMag ((a + b) * 2 ^ 149) 1 = x at hyu hu2 hx2 hexT
  generalize roundMag (i * 2 ^ 149) 1 = y at hyu hu2 hma hmb hpos hexI
  have hexU : a + b ≤ 2 ^ 24 → roundMag (x - y) 1 = (a + b - i) * 2 ^ 149 := by
    intro h24
    rw [hexT h24, hexI (by omega), ← Nat.sub_mul]
    exact roundMag_int_exact _ (by omega)
  generalize roundMag (x - y) 1 = u at hyu hu2 hexU
  have hzero : ∀ k : Nat, F32.gt (F32.fin false k) F32.zero = true ↔ 0 < k :=
    fun k => F32.lt_fin 0 k
  refine ⟨fun hi => ?_, fun hU => ?_, (F32.le_fin _ _).mpr hma, (F32.le_fin _ _).mpr hmb⟩
  · have hy := hpos hi
    have hu0 : 0 < u := lt_of_lt_of_le (lt_of_lt_of_le (by norm_num) hy) hyu
    obtain ⟨k, hk, hk1, hk0⟩ := F32.div_le_one y u hyu hu0
    have hbig : u ≤ y * 2 ^ 149 := by
      have h1 : u ≤ 4 * (a + b) * 2 ^ 149 := by
        calc u ≤ 2 * (x - y) := hu2
          _ ≤ 2 * (2 * ((a + b) * 2 ^ 149)) := by omega
          _ = 4 * (a + b) * 2 ^ 149 := by ring
      have h2 : 4 * (a + b) * 2 ^ 149 ≤ 2 ^ 149 * 2 ^ 149 :=
        Nat.mul_le_mul_right _ (by omega)
      exact le_trans h1 (le_trans h2 (Nat.mul_le_mul_right _ hy))
    refine ⟨(hzero y).mpr (lt_of_lt_of_le (by norm_num) hy), (hzero u).mpr hu0, ?_, ?_⟩
    · rw [hk]
      exact (hzero k).mpr (hk0 hbig)
    · intro hne h24
      rw [hexU h24, hexI (by omega)]
      obtain ⟨k2, hk2, hlt⟩ := F32.div_lt_one i (a + b - i) (by omega) (by omega)
      rw [hk2]
      exact (F32.lt_fin _ _).mpr hlt
  · have hu0 : 0 < u := (hzero u).mp hU
    obtain ⟨k, hk, hk1, _⟩ := F32.div_le_one y u hyu hu0
    rw [hk]
    exact ⟨(F32.le_fin _ _).mpr (Nat.zero_le _), (F32.le_fin _ _).mpr hk1⟩

/-- C14 (amended): for boxes whose rectangle areas add up to less than `2^63`:
when the rectangles overlap, `Intersection`, `Union` and `IoU` are positive and `IoU`
is at most `1`, and it is below `1` when moreover the rectangles differ and the
areas add up to at most `2^24`; whenever `Union` is positive, `0 ≤ IoU ≤ 1`; and
`Intersection` never exceeds the float32 value of either box's area. -/
theorem C14_IoU_bounds (A B : BoundingBox)
    (hsum : (A.ToRect.Max.X - A.ToRect.Min.X) * (A.ToRect.Max.Y - A.ToRect.Min.Y) +
      (B.ToRect.Max.X - B.ToRect.Min.X) * (B.ToRect.Max.Y - B.ToRect.Min.Y) < 2 ^ 63) :
    (A.ToRect.Overlaps B.ToRect = true →
      F32.gt (A.Intersection B) F32.zero = true ∧ F32.gt (A.Union B) F32.zero = true ∧
      F32.gt (A.IoU B) F32.zero = true ∧ F32.le (A.IoU B) F32.one = true ∧
      (A.ToRect ≠ B.ToRect →
        (A.ToRect.Max.X - A.ToRect.Min.X) * (A.ToRect.Max.Y - A.ToRect.Min.Y) +
          (B.ToRect.Max.X - B.ToRect.Min.X) * (B.ToRect.Max.Y - B.ToRect.Min.Y) ≤ 2 ^ 24 →
        F32.lt (A.IoU B) F32.one = true)) ∧
    (F32.gt (A.Union B) F32.zero = true →
      F32.le F32.zero (A.IoU B) = true ∧ F32.le (A.IoU B) F32.one = true) ∧
    F32.le (A.Intersection B) (F32.ofInt A.RectArea) = true ∧
    F32.le (A.Intersection B) (F32.ofInt B.RectArea) = true := by
  obtain ⟨i, a, b, hI, hA, hB, ha, hb, hia, hib, hov⟩ :=
    Rectangle.intersect_area A.ToRect B.ToRect A.ToRect_canonical.1 A.ToRect_canonical.2
      B.ToRect_canonical.1 B.ToRect_canonical.2 hsum
  have hab : a + b < 2 ^ 63 := by
    rw [← ha, ← hb] at hsum
    omega
  have eI : A.Intersection B = F32.ofInt (i : Int) := by
    show F32.ofInt (wrapInt _) = _
    rw [hI]
  have eA : A.RectArea = (a : Int) := hA
  have eB : B.RectArea = (b : Int) := hB
  have eU : A.Union B = F32.sub (F32.ofInt ((a + b : Nat) : Int)) (F32.ofInt (i : Int)) := by
    show F32.sub (F32.ofInt (wrapInt (A.RectArea + B.RectArea))) (A.Intersection B) = _
    rw [eI, eA, eB, wrapInt_of_range _ (by omega) (by omega), Nat.cast_add]
  have eIoU : A.IoU B = F32.div (F32.ofInt (i : Int))
      (F32.sub (F32.ofInt ((a + b : Nat) : Int)) (F32.ofInt (i : Int))) := by
    show F32.div (A.Intersection B) (A.Union B) = _
    rw [eI, eU]
  obtain ⟨c1, c2, c3, c4⟩ := F32.iou_core i a b hia hib hab
  rw [eIoU, eU, eI, eA, eB]
  refine ⟨fun ho => ?_, c2, c3, c4⟩
  obtain ⟨hi1, hne⟩ := hov ho
  obtain ⟨d1, d2, d3, d4⟩ := c1 hi1
  refine ⟨d1, d2, d3, (c2 d2).2, fun hr h24 => d4 (hne hr) ?_⟩
  rw [← ha, ← hb] at h24
  omega

set_option maxRecDepth 100000 in
/-- C14 (as stated, refuted): the rectangles `(0,0)-(1,2^25)` and `(0,0)-(1,2^25+4)`
overlap and differ, yet both areas convert to the same float32 and `IoU` is exactly
`1.0`; and for the box `(0,0)-(2^32,2^31)` taken with itself the areas wrap, `Union`
is positive and `IoU` is `-1.0`, below `0`. -/
theorem C14_counterexample :
    tallBox.ToRect.Overlaps tallerBox.ToRect = true ∧ tallBox.ToRect ≠ tallerBox.ToRect ∧
      tallBox.IoU tallerBox = F32.one ∧ F32.lt (tallBox.IoU tallerBox) F32.one = false ∧
      F32.gt (wideBox.Union wideBox) F32.zero = true ∧
      wideBox.IoU wideBox = F32.fin true (2 ^ 149) ∧
      F32.le F32.zero (wideBox.IoU wideBox) = false := by
  decide

set_option maxRecDepth 100000 in
/-- C14, at the boxes `(0,0)-(10,10)` and `(5,5)-(15,15)` of
`TestBoundingBox_Intersection_Union_IoU`: intersection, union and IoU are positive
and the IoU is below `1`. -/
theorem C14_IoU_bounds_witness :
    F32.gt (tenBox.Intersection fifteenBox) F32.zero = true ∧
      F32.gt (tenBox.Union fifteenBox) F32.zero = true ∧
      F32.gt (tenBox.IoU fifteenBox) F32.zero = true ∧
      F32.lt (tenBox.IoU fifteenBox) F32.one = true ∧
      F32.le F32.zero (tenBox.IoU fifteenBox) = true ∧
      F32.le (tenBox.IoU fifteenBox) F32.one = true ∧
      F32.le (tenBox.Intersection fifteenBox) (F32.ofInt tenBox.RectArea) = true ∧
      F32.le (tenBox.Intersection fifteenBox) (F32.ofInt fifteenBox.RectArea) = true :=
  ⟨((C14_IoU_bounds tenBox fifteenBox (by decide)).1 (by decide)).1,
    ((C14_IoU_bounds tenBox fifteenBox (by decide)).1 (by decide)).2.1,
    ((C14_IoU_bounds tenBox fifteenBox (by decide)).1 (by decide)).2.2.1,
    ((C14_IoU_bounds tenBox fifteenBox (by decide)).1 (by decide)).2.2.2.2
      (by decide) (by decide),
    ((C14_IoU_bounds tenBox fifteenBox (by decide)).2.1 (by decide)).1,
    ((C14_IoU_bounds tenBox fifteenBox (by decide)).2.1 (by decide)).2,
    (C14_IoU_bounds tenBox fifteenBox (by decide)).2.2.1,
    (C14_IoU_bounds tenBox fifteenBox (by decide)).2.2.2⟩

end Onnx
